import Mathlib

/-! CLOCK-Pro cache (`clockpro.hpp`): embedding and verification.

The C++ object graph is embedded as an explicit heap: a descriptor address is
an index into `Cache.heap`, a freed or never-allocated address holds `none`,
and the null pointer is `Option.none` at type `Option Nat`.  Every operation
that dereferences a pointer is fallible (`Option`): `none` stands for undefined
behaviour (null or dangling dereference) or for exhausted fuel in the mutually
recursive hand routines.  `size_t` arithmetic is taken modulo `2 ^ 64`.
-/

namespace ClockPro

/-- Page classification, `enum PageType`. -/
inductive PageType where
  | ptEmpty
  | ptTest
  | ptCold
  | ptHot
  deriving DecidableEq, Repr

open PageType

/-- Descriptor, `struct Entry` (keys and values instantiated at `Nat`). -/
structure Entry where
  next : Nat
  prev : Nat
  ptype : PageType
  ref : Bool
  key : Nat
  val : Option Nat
  deriving DecidableEq, Repr

/-- Modulus of `size_t`. -/
def SIZE : Nat := 2 ^ 64

/-- Wrapping `a + b` on `size_t`. -/
def uadd (a b : Nat) : Nat := (a + b) % SIZE

/-- Wrapping `a - b` on `size_t`. -/
def usub (a b : Nat) : Nat := (a + (SIZE - b % SIZE)) % SIZE

/-- Dereference address `a`: `none` when the cell is freed or was never allocated. -/
def load (h : List (Option Entry)) (a : Nat) : Option Entry :=
  match h[a]? with
  | some (some e) => some e
  | _ => none

/-- Overwrite the cell at address `a`. -/
def store (h : List (Option Entry)) (a : Nat) (e : Entry) : List (Option Entry) :=
  h.set a (some e)

/-- Release the cell at address `a` (`delete e`). -/
def free (h : List (Option Entry)) (a : Nat) : List (Option Entry) :=
  h.set a none

/-- Assignment `a->next = x`. -/
def setNext (h : List (Option Entry)) (a x : Nat) : Option (List (Option Entry)) :=
  match load h a with
  | some e => some (store h a { e with next := x })
  | none => none

/-- Assignment `a->prev = x`. -/
def setPrev (h : List (Option Entry)) (a x : Nat) : Option (List (Option Entry)) :=
  match load h a with
  | some e => some (store h a { e with prev := x })
  | none => none

/-- Member `Entry::Next`. -/
def Next (h : List (Option Entry)) (r : Nat) : Option Nat :=
  match load h r with
  | some e => some e.next
  | none => none

/-- Member `Entry::Prev`. -/
def Prev (h : List (Option Entry)) (r : Nat) : Option Nat :=
  match load h r with
  | some e => some e.prev
  | none => none

/-- Member `Entry::Link`: splice ring `s` after `r`, return the old `r->next`. -/
def Link (h : List (Option Entry)) (r : Nat) (s : Option Nat) :
    Option (List (Option Entry) × Nat) :=
  match Next h r with
  | none => none
  | some n =>
    match s with
    | none => some (h, n)
    | some s =>
      match Prev h s with
      | none => none
      | some p =>
        match setNext h r s with
        | none => none
        | some h1 =>
          match setPrev h1 s r with
          | none => none
          | some h2 =>
            match setPrev h2 n p with
            | none => none
            | some h3 =>
              match setNext h3 p n with
              | none => none
              | some h4 => some (h4, n)

/-- Walk `n` steps along `next`. -/
def stepNext (h : List (Option Entry)) : Nat → Nat → Option Nat
  | 0, r => some r
  | n + 1, r =>
    match Next h r with
    | some r1 => stepNext h n r1
    | none => none

/-- Walk `n` steps along `prev`. -/
def stepPrev (h : List (Option Entry)) : Nat → Nat → Option Nat
  | 0, r => some r
  | n + 1, r =>
    match Prev h r with
    | some r1 => stepPrev h n r1
    | none => none

/-- Member `Entry::Move`. -/
def Move (h : List (Option Entry)) (r : Nat) (n : Int) : Option Nat :=
  if n < 0 then stepPrev h (-n).toNat r
  else if n > 0 then stepNext h n.toNat r
  else some r

/-- Member `Entry::Unlink`: the result pointer is null when `n <= 0`. -/
def Unlink (h : List (Option Entry)) (r : Nat) (n : Int) :
    Option (List (Option Entry) × Option Nat) :=
  if n ≤ 0 then some (h, none)
  else
    match Move h r (n + 1) with
    | none => none
    | some s =>
      match Link h r (some s) with
      | none => none
      | some (h1, x) => some (h1, some x)

/-- Key index `cuckoohash_map::find`. -/
def mapFind (m : List (Nat × Nat)) (k : Nat) : Option Nat :=
  match m with
  | [] => none
  | (k1, a) :: rest => if k1 = k then some a else mapFind rest k

/-- Key index `cuckoohash_map::erase`. -/
def mapErase (m : List (Nat × Nat)) (k : Nat) : List (Nat × Nat) :=
  m.filter (fun p => decide (p.1 ≠ k))

/-- Key index `cuckoohash_map::insert_or_assign`. -/
def mapInsertOrAssign (m : List (Nat × Nat)) (k a : Nat) : List (Nat × Nat) :=
  (k, a) :: mapErase m k

/-- Cache object, `struct Cache` (the mutex and the unused `_test_capacity` are left out). -/
structure Cache where
  heap : List (Option Entry)
  capacity : Nat
  cold_capacity : Nat
  map : List (Nat × Nat)
  hand_hot : Option Nat
  hand_cold : Option Nat
  hand_test : Option Nat
  count_hot : Nat
  count_cold : Nat
  count_test : Nat
  deriving DecidableEq, Repr

/-- Constructor `Cache::Cache(size_t)`: throws when `size < 3`. -/
def Cache.new (size : Nat) : Except String Cache :=
  if size < 3 then
    Except.error "Cache size cannot be less than 3 entries"
  else
    Except.ok
      { heap := []
        capacity := size
        cold_capacity := size
        map := []
        hand_hot := none
        hand_cold := none
        hand_test := none
        count_hot := 0
        count_cold := 0
        count_test := 0 }

/-- Method `Cache::Get`. -/
def Get (c : Cache) (key : Nat) : Option (Cache × Option Nat) :=
  match mapFind c.map key with
  | none => some (c, none)
  | some m =>
    match load c.heap m with
    | none => none
    | some e =>
      if e.val.isNone then some (c, none)
      else some ({ c with heap := store c.heap m { e with ref := true } }, e.val)

/-- Method `Cache::meta_del`. -/
def meta_del (c : Cache) (e : Nat) (deleteNode : Bool) : Option Cache :=
  match load c.heap e with
  | none => none
  | some ent =>
    let h0 := store c.heap e { ent with ptype := ptEmpty, ref := false, val := none }
    let m := mapErase c.map ent.key
    let next := ent.next
    let hh := if some e = c.hand_hot then some next else c.hand_hot
    let hc := if some e = c.hand_cold then some next else c.hand_cold
    let ht := if some e = c.hand_test then some next else c.hand_test
    match Unlink h0 ent.prev 1 with
    | none => none
    | some (h1, _) =>
      some { c with
        heap := if deleteNode then free h1 e else h1
        map := m
        hand_hot := hh
        hand_cold := hc
        hand_test := ht }

/-- Body of `run_hand_hot` after the optional `run_hand_test` call. -/
def hand_hot_body (c : Cache) : Option Cache :=
  match c.hand_hot with
  | none => none
  | some m =>
    match load c.heap m with
    | none => none
    | some e =>
      let c1 :=
        if e.ptype = ptHot then
          if e.ref then { c with heap := store c.heap m { e with ref := false } }
          else
            { c with
              heap := store c.heap m { e with ptype := ptCold }
              count_hot := usub c.count_hot 1
              count_cold := uadd c.count_cold 1 }
        else c
      match Next c1.heap m with
      | none => none
      | some n => some { c1 with hand_hot := some n }

/-- Body of `run_hand_test` after the optional `run_hand_cold` call. -/
def hand_test_body (c : Cache) : Option Cache :=
  match c.hand_test with
  | none => none
  | some m =>
    match load c.heap m with
    | none => none
    | some e =>
      if e.ptype = ptTest then
        match meta_del c m true with
        | none => none
        | some c1 =>
          let c2 :=
            { c1 with
              hand_test := some e.prev
              count_test := usub c1.count_test 1
              cold_capacity := if 1 < c1.cold_capacity then usub c1.cold_capacity 1
                               else c1.cold_capacity }
          match Next c2.heap e.prev with
          | none => none
          | some n => some { c2 with hand_test := some n }
      else
        match Next c.heap m with
        | none => none
        | some n => some { c with hand_test := some n }

/-- Promotion branch of `run_hand_cold`: a referenced cold page becomes hot. -/
def cold_promote (c : Cache) (m : Nat) (e : Entry) : Cache :=
  { c with
    heap := store c.heap m { e with ptype := ptHot, ref := false }
    count_cold := usub c.count_cold 1
    count_hot := uadd c.count_hot 1 }

/-- Eviction branch of `run_hand_cold`: an unreferenced cold page becomes a test page. -/
def cold_demote (c : Cache) (m : Nat) (e : Entry) : Cache :=
  { c with
    heap := store c.heap m { e with ptype := ptTest, val := none }
    count_cold := usub c.count_cold 1
    count_test := uadd c.count_test 1 }

/-- Statement `hand_cold = hand_cold->Next();` of `run_hand_cold`. -/
def cold_advance (c : Cache) : Option Cache :=
  match c.hand_cold with
  | none => none
  | some hc =>
    match Next c.heap hc with
    | none => none
    | some n => some { c with hand_cold := some n }

mutual

/-- Method `Cache::run_hand_cold`; fuel bounds the call depth and loop count. -/
def run_hand_cold : Nat → Cache → Option Cache
  | 0, _ => none
  | fuel + 1, c =>
    match c.hand_cold with
    | none => none
    | some m =>
      match load c.heap m with
      | none => none
      | some e =>
        let r1 : Option Cache :=
          if e.ptype = ptCold then
            if e.ref then some (cold_promote c m e)
            else cold_test_loop fuel (cold_demote c m e)
          else some c
        match r1 with
        | none => none
        | some c1 =>
          match cold_advance c1 with
          | none => none
          | some c2 => cold_hot_loop fuel c2

/-- Loop `while (_capacity < count_test) run_hand_test();` of `run_hand_cold`. -/
def cold_test_loop : Nat → Cache → Option Cache
  | 0, _ => none
  | fuel + 1, c =>
    if c.capacity < c.count_test then
      match run_hand_test fuel c with
      | none => none
      | some c1 => cold_test_loop fuel c1
    else some c

/-- Loop `while (_capacity - _cold_capacity < count_hot) run_hand_hot();` of `run_hand_cold`. -/
def cold_hot_loop : Nat → Cache → Option Cache
  | 0, _ => none
  | fuel + 1, c =>
    if usub c.capacity c.cold_capacity < c.count_hot then
      match run_hand_hot fuel c with
      | none => none
      | some c1 => cold_hot_loop fuel c1
    else some c

/-- Method `Cache::run_hand_hot`. -/
def run_hand_hot : Nat → Cache → Option Cache
  | 0, _ => none
  | fuel + 1, c =>
    let r0 : Option Cache :=
      if c.hand_hot = c.hand_test then run_hand_test fuel c else some c
    match r0 with
    | none => none
    | some c1 => hand_hot_body c1

/-- Method `Cache::run_hand_test`. -/
def run_hand_test : Nat → Cache → Option Cache
  | 0, _ => none
  | fuel + 1, c =>
    let r0 : Option Cache :=
      if c.hand_test = c.hand_cold then run_hand_cold fuel c else some c
    match r0 with
    | none => none
    | some c1 => hand_test_body c1

end

/-- Method `Cache::evict`. -/
def evict : Nat → Cache → Option Cache
  | 0, _ => none
  | fuel + 1, c =>
    if c.capacity ≤ uadd c.count_hot c.count_cold then
      match run_hand_cold fuel c with
      | none => none
      | some c1 => evict fuel c1
    else some c

/-- Method `Cache::meta_add`. -/
def meta_add (fuel : Nat) (c : Cache) (r : Nat) : Option Cache :=
  match evict fuel c with
  | none => none
  | some c1 =>
    let r2 : Option Cache :=
      match c1.hand_hot with
      | none => some { c1 with hand_hot := some r, hand_cold := some r, hand_test := some r }
      | some hh =>
        match Link c1.heap hh (some r) with
        | none => none
        | some (h, _) => some { c1 with heap := h }
    match r2 with
    | none => none
    | some c2 =>
      match Next c2.heap r with
      | none => none
      | some n =>
        some { c2 with
          hand_cold := if c2.hand_cold = c2.hand_hot then some n else c2.hand_cold
          hand_test := if c2.hand_test = c2.hand_hot then some n else c2.hand_test
          hand_hot := some n }

/-- Constructor `Entry(bool ref, k pkey, v pval, PageType type)` at address `self`.
The member `ref` is not assigned by the constructor (the parameter of the same
name shadows it), so it keeps the indeterminate content `garbage` of the
allocation. -/
def Entry.make (self : Nat) (garbage : Bool) (pkey pval : Nat) (type : PageType) : Entry :=
  { next := self, prev := self, ptype := type, ref := garbage, key := pkey, val := some pval }

/-- Method `Cache::Set`.  A fresh descriptor is allocated at the first unused
address; `garbage` is the indeterminate initial content of its `ref` member. -/
def Set (fuel : Nat) (c : Cache) (key value : Nat) (garbage : Bool) : Option (Cache × Bool) :=
  match mapFind c.map key with
  | none =>
    let e := c.heap.length
    let c0 :=
      { c with
        heap := c.heap ++ [some (Entry.make e garbage key value ptCold)]
        map := mapInsertOrAssign c.map key e }
    match meta_add fuel c0 e with
    | none => none
    | some c1 => some ({ c1 with count_cold := uadd c1.count_cold 1 }, true)
  | some m =>
    match load c.heap m with
    | none => none
    | some ent =>
      if ent.ptype = ptTest then
        let c0 :=
          if c.cold_capacity < c.capacity then
            { c with cold_capacity := uadd c.cold_capacity 1 }
          else c
        match meta_del c0 m false with
        | none => none
        | some c1 =>
          let c2 := { c1 with count_test := usub c1.count_test 1 }
          match load c2.heap m with
          | none => none
          | some ent2 =>
            let c3 := { c2 with heap := store c2.heap m { ent2 with ptype := ptHot } }
            match meta_add fuel c3 m with
            | none => none
            | some c4 => some ({ c4 with count_hot := uadd c4.count_hot 1 }, true)
      else
        some ({ c with heap := store c.heap m { ent with val := some value, ref := true } }, false)

/-- Descriptors `x` and `y` are neighbours: `x->next == y` and `y->prev == x`. -/
def Adj (h : List (Option Entry)) (x y : Nat) : Prop :=
  (∃ e, load h x = some e ∧ e.next = y) ∧ (∃ e, load h y = some e ∧ e.prev = x)

/-- The addresses `L`, in this order, form one circular doubly-linked list in `h`. -/
def IsRing (h : List (Option Entry)) (L : List Nat) : Prop :=
  L.Nodup ∧ List.Chain' (Adj h) (L ++ L.take 1)

/-- Follow `next` from `cur` until the walk is back at `start`. -/
def ringWalk (h : List (Option Entry)) : Nat → Nat → Nat → List Nat
  | 0, _, _ => []
  | n + 1, start, cur =>
    cur ::
      (match Next h cur with
       | some nx => if nx = start then [] else ringWalk h n start nx
       | none => [])

/-- The descriptors linked in the ring, listed from `hand_hot` on. -/
def ringOf (c : Cache) : List Nat :=
  match c.hand_hot with
  | none => []
  | some a => ringWalk c.heap c.heap.length a a

/-- Pointer fields of a descriptor after a `Link(r, s)` that found `n = r->next` and
`p = s->prev`. -/
def relink (r s n p b : Nat) (e : Entry) : Entry :=
  { e with
    next := if b = p then n else if b = r then s else e.next
    prev := if b = n then p else if b = s then r else e.prev }

/-- Page type of the descriptor at address `a` (`none` for a dead cell). -/
def tyAt (h : List (Option Entry)) (a : Nat) : Option PageType :=
  (load h a).map (fun e => e.ptype)

/-- Number of descriptors of `L` that have page type `t`. -/
def cnt (h : List (Option Entry)) (L : List Nat) (t : PageType) : Nat :=
  L.countP (fun a => decide (tyAt h a = some t))

/-- Progress rank of a descriptor: every state change made by a hand lowers it. -/
def rank (e : Entry) : Nat :=
  match e.ptype, e.ref with
  | ptEmpty, _ => 0
  | ptTest, _ => 1
  | ptCold, false => 2
  | ptHot, false => 3
  | ptHot, true => 4
  | ptCold, true => 5

/-- Rank of the descriptor at address `a`. -/
def rankAt (h : List (Option Entry)) (a : Nat) : Nat :=
  match load h a with
  | some e => rank e
  | none => 0

/-- Total rank of the descriptors of `L`. -/
def phi (h : List (Option Entry)) (L : List Nat) : Nat :=
  (L.map (rankAt h)).sum

/-- Number of `next` steps from `a` to the first descriptor of type `t`, cut off at `n`. -/
def dist (h : List (Option Entry)) (t : PageType) : Nat → Nat → Nat
  | 0, _ => 0
  | n + 1, a =>
    match load h a with
    | some e => if e.ptype = t then 0 else dist h t n e.next + 1
    | none => 0

/-- Distance `dist` from a hand (zero for the null hand). -/
def distO (h : List (Option Entry)) (t : PageType) (n : Nat) : Option Nat → Nat
  | some a => dist h t n a
  | none => 0

/-- Sum of the distances of the three hands to the next page of their own type. -/
def handDist (s : Cache) : Nat :=
  distO s.heap ptCold s.heap.length s.hand_cold +
    distO s.heap ptTest s.heap.length s.hand_test +
    distO s.heap ptHot s.heap.length s.hand_hot

/-- Condition of the hot loop of `run_hand_cold`. -/
def HC (s : Cache) : Prop := usub s.capacity s.cold_capacity < s.count_hot

/-- One test page more than the capacity: the state in which the test loop runs. -/
def Ex (s : Cache) : Prop := s.count_test = s.capacity + 1

/-- Page type under a hand. -/
def tyO (h : List (Option Entry)) : Option Nat → Option PageType
  | some a => tyAt h a
  | none => none

/-- In an excess state the test hand is on a test page. -/
def ModeA (s : Cache) : Prop := Ex s → tyO s.heap s.hand_test = some ptTest

/-- In an excess state the cold hand is on a test page. -/
def ModeB (s : Cache) : Prop := Ex s → tyO s.heap s.hand_cold = some ptTest

/-- A cold page under the cold hand is not the last resident page. -/
def Rq (s : Cache) : Prop :=
  tyO s.heap s.hand_cold = some ptCold → 2 ≤ s.count_hot + s.count_cold

/-- Structural invariant of the clock: `L` lists the ring, the counters count it,
the index points at live descriptors that are in the ring or pending (`X`). -/
structure Core (s : Cache) (L : List Nat) (X : Nat → Prop) : Prop where
  ring : IsRing s.heap L
  types : ∀ a ∈ L, tyAt s.heap a = some ptHot ∨ tyAt s.heap a = some ptCold ∨
    tyAt s.heap a = some ptTest
  nhot : s.count_hot = cnt s.heap L ptHot
  ncold : s.count_cold = cnt s.heap L ptCold
  ntest : s.count_test = cnt s.heap L ptTest
  cap3 : 3 ≤ s.capacity
  capS : s.capacity + 1 < SIZE
  cc1 : 1 ≤ s.cold_capacity
  ccle : s.cold_capacity ≤ s.capacity
  map : ∀ k a, mapFind s.map k = some a →
    (a ∈ L ∨ X a) ∧ ∃ e, load s.heap a = some e ∧ e.key = k ∧ e.ptype ≠ ptEmpty
  xout : ∀ a, X a → a ∉ L

/-- Invariant of the states the hand routines run in. -/
structure HInv (s : Cache) (L : List Nat) (X : Nat → Prop) extends Core s L X : Prop where
  hh : ∃ a, s.hand_hot = some a ∧ a ∈ L
  hc : ∃ a, s.hand_cold = some a ∧ a ∈ L
  ht : ∃ a, s.hand_test = some a ∧ a ∈ L
  res1 : 1 ≤ s.count_hot + s.count_cold
  resle : s.count_hot + s.count_cold ≤ s.capacity
  testle : s.count_test ≤ s.capacity + 1
  two : s.cold_capacity = s.capacity → 2 ≤ L.length

/-- Progress of a hand routine from `(s, L)` to `(s1, L1)`: the rank drops, or it
stays and no hand moved away from its next page. -/
def Prog (s : Cache) (L : List Nat) (s1 : Cache) (L1 : List Nat) : Prop :=
  phi s1.heap L1 < phi s.heap L ∨
    (phi s1.heap L1 = phi s.heap L ∧ s1.count_hot = s.count_hot ∧
      s1.count_cold = s.count_cold ∧ s1.count_test = s.count_test ∧
      distO s1.heap ptCold s1.heap.length s1.hand_cold ≤
        distO s.heap ptCold s.heap.length s.hand_cold ∧
      distO s1.heap ptTest s1.heap.length s1.hand_test ≤
        distO s.heap ptTest s.heap.length s.hand_test ∧
      distO s1.heap ptHot s1.heap.length s1.hand_hot ≤
        distO s.heap ptHot s.heap.length s.hand_hot)

/-- What a hand routine leaves alone: cells outside the ring, the heap size, the capacity. -/
structure Frame (s : Cache) (L : List Nat) (s1 : Cache) (L1 : List Nat) : Prop where
  sub : ∀ a, a ∈ L1 → a ∈ L
  out : ∀ a, a ∉ L → load s1.heap a = load s.heap a
  len : s1.heap.length = s.heap.length
  cap : s1.capacity = s.capacity

/-- Invariant between public calls (with `X` empty) and on entry to `meta_add`
(with `X` the descriptor about to be linked). -/
structure BInv (s : Cache) (L : List Nat) (X : Nat → Prop) extends Core s L X : Prop where
  hands : (L = [] ∧ s.hand_hot = none ∧ s.hand_cold = none ∧ s.hand_test = none) ∨
    ((∃ a, s.hand_hot = some a ∧ a ∈ L) ∧ (∃ a, s.hand_cold = some a ∧ a ∈ L) ∧
      (∃ a, s.hand_test = some a ∧ a ∈ L) ∧ 1 ≤ s.count_hot + s.count_cold)
  resle : s.count_hot + s.count_cold ≤ s.capacity
  testle : s.count_test ≤ s.capacity

/-- States of a cache object: constructed with a capacity below `SIZE_MAX`, then
used through `Get` and `Set` calls that returned. -/
inductive Reachable : Cache → Prop
  | init (n : Nat) (c : Cache) (hn : n + 1 < SIZE) (hc : Cache.new n = Except.ok c) :
      Reachable c
  | get (c c1 : Cache) (k : Nat) (r : Option Nat) (hr : Reachable c)
      (hg : Get c k = some (c1, r)) : Reachable c1
  | set (c c1 : Cache) (fuel k v : Nat) (g b : Bool) (hr : Reachable c)
      (hs : Set fuel c k v g = some (c1, b)) : Reachable c1

/-- The heap `h1` holds, at every live address of `h`, a descriptor with the same
key, type, reference bit and value (only links may differ). -/
def PayEq (h h1 : List (Option Entry)) : Prop :=
  ∀ a e, load h a = some e →
    ∃ e1, load h1 a = some e1 ∧ e1.key = e.key ∧ e1.ptype = e.ptype ∧ e1.ref = e.ref ∧
      e1.val = e.val

/-- The routines of the replacement engine, as one family. -/
inductive Kind where
  | RC
  | TL
  | HL
  | RH
  | RT
  | EV
  deriving DecidableEq

/-- The routine named by a `Kind`. -/
def runK : Kind → Nat → Cache → Option Cache
  | Kind.RC => run_hand_cold
  | Kind.TL => cold_test_loop
  | Kind.HL => cold_hot_loop
  | Kind.RH => run_hand_hot
  | Kind.RT => run_hand_test
  | Kind.EV => evict

/-- What a routine of the engine needs of the state it is called in. -/
def preK : Kind → Cache → List Nat → Prop
  | Kind.RC, s, L =>
    (Ex s → s.hand_test = s.hand_cold ∧ tyO s.heap s.hand_cold = some ptTest) ∧ Rq s ∧
      2 ≤ L.length
  | Kind.TL, s, _ => ModeB s
  | Kind.HL, s, _ => ModeA s
  | Kind.RH, s, L => ModeA s ∧ 2 ≤ L.length ∧ 1 ≤ s.count_hot
  | Kind.RT, s, L =>
    (Ex s → tyO s.heap s.hand_test = some ptTest ∨ tyO s.heap s.hand_cold = some ptTest) ∧
      (s.hand_test = s.hand_cold → Rq s) ∧ 2 ≤ L.length
  | Kind.EV, s, _ => ¬ Ex s

/-- What a routine of the engine guarantees of the state it returns. -/
def postK : Kind → Cache → List Nat → Cache → List Nat → Prop
  | Kind.RC, s, L, s1, L1 =>
    ModeA s1 ∧ (¬ Ex s → ¬ Ex s1) ∧ ¬ HC s1 ∧
      (phi s1.heap L1 < phi s.heap L ∨
        (1 ≤ s1.count_cold → distO s1.heap ptCold s1.heap.length s1.hand_cold
          < distO s.heap ptCold s.heap.length s.hand_cold))
  | Kind.TL, _, _, s1, _ => ¬ Ex s1 ∧ s1.count_test ≤ s1.capacity
  | Kind.HL, s, _, s1, _ => ModeA s1 ∧ (¬ Ex s → ¬ Ex s1) ∧ ¬ HC s1
  | Kind.RH, s, L, s1, L1 =>
    ModeA s1 ∧ (¬ Ex s → ¬ Ex s1) ∧
      (phi s1.heap L1 < phi s.heap L ∨
        (1 ≤ s1.count_hot → distO s1.heap ptHot s1.heap.length s1.hand_hot
          < distO s.heap ptHot s.heap.length s.hand_hot))
  | Kind.RT, s, L, s1, L1 =>
    ModeB s1 ∧ (ModeA s → ¬ Ex s1) ∧
      (phi s1.heap L1 < phi s.heap L ∨
        (1 ≤ s1.count_test → distO s1.heap ptTest s1.heap.length s1.hand_test
          < distO s.heap ptTest s.heap.length s.hand_test))
  | Kind.EV, _, _, s1, _ => ¬ Ex s1 ∧ s1.count_hot + s1.count_cold < s1.capacity

/-- Tie-break of the termination measure among calls made in one state. -/
def ordK : Kind → Cache → Nat
  | Kind.EV, _ => 9
  | Kind.TL, _ => 9
  | Kind.RC, s => if s.hand_cold.bind (Next s.heap) = s.hand_test then 8 else 4
  | Kind.HL, s => if s.hand_test = s.hand_cold then 7 else 3
  | Kind.RH, s => if s.hand_test = s.hand_cold then 6 else 2
  | Kind.RT, s => if s.hand_test = s.hand_cold then 5 else 1

/-- Lexicographic order on the termination measure. -/
def LexLt (a b : Nat × Nat × Nat) : Prop :=
  a.1 < b.1 ∨ (a.1 = b.1 ∧ (a.2.1 < b.2.1 ∨ (a.2.1 = b.2.1 ∧ a.2.2 < b.2.2)))

/-- Termination measure of a call. -/
def meas (k : Kind) (s : Cache) (L : List Nat) : Nat × Nat × Nat :=
  (phi s.heap L, handDist s, ordK k s)

/-- Total correctness of one call: with enough fuel it returns, in a state that
satisfies the invariant and the routine's guarantee. -/
def Res (X : Nat → Prop) (k : Kind) (s : Cache) (L : List Nat) : Prop :=
  ∃ fuel s1 L1, runK k fuel s = some s1 ∧ HInv s1 L1 X ∧ Frame s L s1 L1 ∧
    Prog s L s1 L1 ∧ postK k s L s1 L1

/-- Every call of smaller measure is totally correct. -/
def Callable (X : Nat → Prop) (b : Nat × Nat × Nat) : Prop :=
  ∀ k s L, HInv s L X → preK k s L → LexLt (meas k s L) b → Res X k s L

/-- One call of the public interface. -/
inductive Call where
  | get (k : Nat)
  | set (k v : Nat)
  deriving DecidableEq, Repr

/-- A freshly constructed cache (`none` when the constructor throws). -/
def fresh (n : Nat) : Option Cache :=
  match Cache.new n with
  | Except.ok c => some c
  | Except.error _ => none

/-- Run a sequence of public calls; every fresh descriptor starts with `ref = g`. -/
def runCalls (fuel : Nat) (g : Bool) : Cache → List Call → Option Cache
  | c, [] => some c
  | c, Call.get k :: rest =>
    match Get c k with
    | none => none
    | some (c1, _) => runCalls fuel g c1 rest
  | c, Call.set k v :: rest =>
    match Set fuel c k v g with
    | none => none
    | some (c1, _) => runCalls fuel g c1 rest

/-- Run a sequence of public calls on a fresh cache of capacity `n`. -/
def runFresh (fuel : Nat) (g : Bool) (n : Nat) (cs : List Call) : Option Cache :=
  match fresh n with
  | none => none
  | some c => runCalls fuel g c cs

/-- Result of `Get` alone. -/
def getVal (c : Cache) (k : Nat) : Option (Option Nat) :=
  (Get c k).map Prod.snd

/-- Descriptor bound to `k` in the index. -/
def descOf (c : Cache) (k : Nat) : Option Entry :=
  (mapFind c.map k).bind (load c.heap)

/-- One step of a hand inside the replacement engine: a branch of `run_hand_cold`,
its hand advance, or the body of `run_hand_hot` or `run_hand_test`. -/
inductive HandStep : Cache → Cache → Prop
  | promote (c : Cache) (m : Nat) (e : Entry) (hh : c.hand_cold = some m)
      (hl : load c.heap m = some e) (ht : e.ptype = ptCold) (hr : e.ref = true) :
      HandStep c (cold_promote c m e)
  | demote (c : Cache) (m : Nat) (e : Entry) (hh : c.hand_cold = some m)
      (hl : load c.heap m = some e) (ht : e.ptype = ptCold) (hr : e.ref = false) :
      HandStep c (cold_demote c m e)
  | advance (c c1 : Cache) (h : cold_advance c = some c1) : HandStep c c1
  | hot (c c1 : Cache) (h : hand_hot_body c = some c1) : HandStep c c1
  | test (c c1 : Cache) (h : hand_test_body c = some c1) : HandStep c c1

/-- States a cache object passes through: the states between public calls, the state
in which `Set` enters `meta_add` (miss path and test-hit path), and every state the
hands step through from there. -/
inductive Visited : Cache → Prop
  | boundary (s : Cache) (hr : Reachable s) : Visited s
  | miss (s : Cache) (k v : Nat) (g : Bool) (hr : Reachable s)
      (hm : mapFind s.map k = none) :
      Visited { s with
        heap := s.heap ++ [some (Entry.make s.heap.length g k v ptCold)]
        map := mapInsertOrAssign s.map k s.heap.length }
  | test (s c1 : Cache) (k m : Nat) (ent ent2 : Entry) (hr : Reachable s)
      (hm : mapFind s.map k = some m) (hl : load s.heap m = some ent)
      (ht : ent.ptype = ptTest)
      (hd : meta_del (if s.cold_capacity < s.capacity then
          { s with cold_capacity := uadd s.cold_capacity 1 } else s) m false = some c1)
      (hl2 : load c1.heap m = some ent2) :
      Visited { c1 with
        count_test := usub c1.count_test 1
        heap := store c1.heap m { ent2 with ptype := ptHot } }
  | step (s s1 : Cache) (hv : Visited s) (hs : HandStep s s1) : Visited s1

/-- Capacity 3 after `Set(7, 1)`. -/
def oneState : Cache :=
  { heap := [some { next := 0, prev := 0, ptype := ptCold, ref := false, key := 7, val := some 1 }]
    capacity := 3
    cold_capacity := 3
    map := [(7, 0)]
    hand_hot := some 0
    hand_cold := some 0
    hand_test := some 0
    count_hot := 0
    count_cold := 1
    count_test := 0 }

/-- The scan scenario of the specification: fill a cache of capacity 3 with keys 1, 2, 3,
read keys 1 and 2, insert key 4. -/
def scanTrace : List Call :=
  [Call.set 1 1, Call.set 2 2, Call.set 3 3, Call.get 1, Call.get 2, Call.set 4 4]

/-- State of a capacity 3 cache after `scanTrace` (fresh descriptors unreferenced). -/
def scanState : Cache :=
  { heap :=
      [some { next := 2, prev := 1, ptype := ptCold, ref := false, key := 1, val := some 1 },
       some { next := 0, prev := 3, ptype := ptCold, ref := false, key := 2, val := some 2 },
       some { next := 3, prev := 0, ptype := ptTest, ref := false, key := 3, val := none },
       some { next := 1, prev := 2, ptype := ptCold, ref := false, key := 4, val := some 4 }]
    capacity := 3
    cold_capacity := 3
    map := [(4, 3), (3, 2), (2, 1), (1, 0)]
    hand_hot := some 1
    hand_cold := some 1
    hand_test := some 1
    count_hot := 0
    count_cold := 3
    count_test := 1 }

/-- State of a capacity 3 cache after `scanTrace` followed by `Set(3, 30)`, a hit on the
test descriptor of key 3. -/
def ghostState : Cache :=
  { heap :=
      [some { next := 3, prev := 2, ptype := ptCold, ref := false, key := 1, val := some 1 },
       some { next := 2, prev := 3, ptype := ptTest, ref := false, key := 2, val := none },
       some { next := 0, prev := 1, ptype := ptHot, ref := false, key := 3, val := none },
       some { next := 1, prev := 0, ptype := ptCold, ref := false, key := 4, val := some 4 }]
    capacity := 3
    cold_capacity := 3
    map := [(4, 3), (2, 1), (1, 0)]
    hand_hot := some 0
    hand_cold := some 0
    hand_test := some 0
    count_hot := 1
    count_cold := 2
    count_test := 1 }

/-- State in which `Set(5, 5)` enters `meta_add` after the scan scenario. -/
def scanEntry : Cache :=
  { scanState with
    heap := scanState.heap ++ [some (Entry.make scanState.heap.length false 5 5 ptCold)]
    map := mapInsertOrAssign scanState.map 5 scanState.heap.length }

/-- Calls after which key 0 is a test page and the cold target equals the capacity 3. -/
def adaptTrace : List Call :=
  [Call.set 0 0, Call.set 2 0, Call.set 1 0, Call.set 3 0, Call.set 2 0]

/-- State of `oneState` once the descriptor of a second key has been allocated at
address 1, before it is linked. -/
def pendingState : Cache :=
  { oneState with
    heap := oneState.heap ++ [some (Entry.make 1 false 8 1 ptCold)] }

/-- Payload of a descriptor: everything but its links. -/
def pay (e : Entry) : PageType × Bool × Nat × Option Nat :=
  (e.ptype, e.ref, e.key, e.val)

/-- The heaps `h` and `h1` have the same live cells with the same payloads. -/
def PaySame (h h1 : List (Option Entry)) : Prop :=
  ∀ a, (load h1 a).map pay = (load h a).map pay

/-- No hot page and no referenced page anywhere. -/
def Plain (s : Cache) : Prop :=
  s.count_hot = 0 ∧ ∀ a e, load s.heap a = some e → e.ref = false ∧ e.ptype ≠ ptHot

/-- Every live descriptor is bound in the index under its key and carries a value
exactly when it is resident. -/
def Tidy (s : Cache) : Prop :=
  ∀ a e, load s.heap a = some e →
    e.ptype ≠ ptEmpty ∧ mapFind s.map e.key = some a ∧
      (e.val ≠ none ↔ (e.ptype = ptCold ∨ e.ptype = ptHot))

/-- Key `k` is readable: `Get` returns a value for it. -/
def readable (s : Cache) (k : Nat) : Bool :=
  match getVal s k with
  | some (some _) => true
  | _ => false

/-- The calls `Set(k, v k)` for the keys of `ks`, in order. -/
def setAll (v : Nat → Nat) (ks : List Nat) : List Call :=
  ks.map (fun k => Call.set k (v k))

/-- Key of the descriptor at address `a` (0 for a dead cell). -/
def keyAt (h : List (Option Entry)) (a : Nat) : Nat :=
  match load h a with
  | some e => e.key
  | none => 0

/-- Invariant of a cache that has only seen `Set` calls on pairwise new keys `ks`,
fresh descriptors unreferenced: the boundary invariant, no hot or referenced page,
index and descriptors in agreement, only keys of `ks` bound, and
`min (number of keys) capacity` cold pages. -/
structure Churn (s : Cache) (L : List Nat) (ks : List Nat) : Prop where
  binv : BInv s L (fun _ => False)
  plain : Plain s
  tidy : Tidy s
  keys : ∀ k a, mapFind s.map k = some a → k ∈ ks
  cold : s.count_cold = min ks.length s.capacity

/-- Key and value of a descriptor. -/
def kv (e : Entry) : Nat × Option Nat :=
  (e.key, e.val)

/-- Invariant of a cache that is being filled with the keys `ks` (values `v k`, fresh
descriptors unreferenced, no eviction yet) and then read at the keys `gs`: every
descriptor is cold, holds the value of its key and is referenced exactly when its key
was read; the hands stand together and the cold target is still the capacity. -/
structure Scan (v : Nat → Nat) (s : Cache) (L : List Nat) (ks gs : List Nat) : Prop where
  binv : BInv s L (fun _ => False)
  tidy : Tidy s
  keys : ∀ k a, mapFind s.map k = some a → k ∈ ks
  bound : ∀ k ∈ ks, ∃ a, mapFind s.map k = some a
  cells : ∀ a e, load s.heap a = some e →
    e.ptype = ptCold ∧ e.val = some (v e.key) ∧ (e.ref = true ↔ e.key ∈ gs)
  hot0 : s.count_hot = 0
  test0 : s.count_test = 0
  ncold : s.count_cold = ks.length
  cc : s.cold_capacity = s.capacity
  hc : s.hand_cold = s.hand_hot
  ht : s.hand_test = s.hand_hot

/-! ## Lemmas -/

/-! ## Heap lemmas -/

theorem load_eq_some_iff {h : List (Option Entry)} {a : Nat} {e : Entry} :
    load h a = some e ↔ h[a]? = some (some e) := by
  unfold load
  split
  · next e1 heq => simp [heq]
  · next hne =>
    constructor
    · intro hc; cases hc
    · intro hc; exact absurd hc (hne e)

theorem load_lt {h : List (Option Entry)} {a : Nat} {e : Entry} (hl : load h a = some e) :
    a < h.length := by
  rw [load_eq_some_iff] at hl
  by_contra hc
  rw [List.getElem?_eq_none (by omega)] at hl
  cases hl

theorem load_store_same {h : List (Option Entry)} {a : Nat} {e : Entry} (ha : a < h.length) :
    load (store h a e) a = some e := by
  rw [load_eq_some_iff]
  simp [store, List.getElem?_set, ha]

theorem load_store_ne {h : List (Option Entry)} {a b : Nat} {e : Entry} (hab : a ≠ b) :
    load (store h a e) b = load h b := by
  unfold load store
  rw [List.getElem?_set_ne hab]

theorem load_store {h : List (Option Entry)} {a b : Nat} {e : Entry} (ha : a < h.length) :
    load (store h a e) b = if b = a then some e else load h b := by
  split
  · next hb => subst hb; exact load_store_same ha
  · next hb => exact load_store_ne (fun hc => hb hc.symm)

theorem load_free_same {h : List (Option Entry)} {a : Nat} : load (free h a) a = none := by
  unfold load free
  by_cases ha : a < h.length
  · simp [List.getElem?_set, ha]
  · rw [List.getElem?_eq_none (by simp; omega)]

theorem load_free_ne {h : List (Option Entry)} {a b : Nat} (hab : a ≠ b) :
    load (free h a) b = load h b := by
  unfold load free
  rw [List.getElem?_set_ne hab]

theorem length_store {h : List (Option Entry)} {a : Nat} {e : Entry} :
    (store h a e).length = h.length := by
  simp [store]

theorem length_free {h : List (Option Entry)} {a : Nat} : (free h a).length = h.length := by
  simp [free]

theorem load_append_of_lt {h : List (Option Entry)} {x : Option Entry} {a : Nat}
    (ha : a < h.length) : load (h ++ [x]) a = load h a := by
  unfold load
  rw [List.getElem?_append_left ha]

theorem load_append_new {h : List (Option Entry)} {e : Entry} :
    load (h ++ [some e]) h.length = some e := by
  rw [load_eq_some_iff]
  simp

theorem load_length_none {h : List (Option Entry)} {a : Nat} (ha : h.length ≤ a) :
    load h a = none := by
  unfold load
  rw [List.getElem?_eq_none ha]

theorem setNext_spec {h : List (Option Entry)} {a x : Nat} (hl : (load h a).isSome) :
    ∃ h1, setNext h a x = some h1 ∧ h1.length = h.length ∧
      ∀ b, load h1 b = (load h b).map (fun e => if b = a then { e with next := x } else e) := by
  obtain ⟨e, he⟩ := Option.isSome_iff_exists.mp hl
  refine ⟨store h a { e with next := x }, by simp [setNext, he], length_store, ?_⟩
  intro b
  rw [load_store (load_lt he)]
  by_cases hb : b = a
  · subst hb; simp [he]
  · simp only [hb, if_false]; cases load h b <;> rfl

theorem setPrev_spec {h : List (Option Entry)} {a x : Nat} (hl : (load h a).isSome) :
    ∃ h1, setPrev h a x = some h1 ∧ h1.length = h.length ∧
      ∀ b, load h1 b = (load h b).map (fun e => if b = a then { e with prev := x } else e) := by
  obtain ⟨e, he⟩ := Option.isSome_iff_exists.mp hl
  refine ⟨store h a { e with prev := x }, by simp [setPrev, he], length_store, ?_⟩
  intro b
  rw [load_store (load_lt he)]
  by_cases hb : b = a
  · subst hb; simp [he]
  · simp only [hb, if_false]; cases load h b <;> rfl

theorem Link_spec {h : List (Option Entry)} {r s : Nat} {er es : Entry}
    (hr : load h r = some er) (hs : load h s = some es)
    (hn : (load h er.next).isSome) (hp : (load h es.prev).isSome) :
    ∃ h4, Link h r (some s) = some (h4, er.next) ∧ h4.length = h.length ∧
      ∀ b, load h4 b = (load h b).map (relink r s er.next es.prev b) := by
  obtain ⟨h1, q1, l1, f1⟩ := setNext_spec (x := s) (show (load h r).isSome by simp [hr])
  obtain ⟨h2, q2, l2, f2⟩ := setPrev_spec (h := h1) (a := s) (x := r)
    (by rw [f1, hs]; simp)
  obtain ⟨h3, q3, l3, f3⟩ := setPrev_spec (h := h2) (a := er.next) (x := es.prev)
    (by rw [f2, f1]; cases hx : load h er.next <;> simp_all)
  obtain ⟨h4, q4, l4, f4⟩ := setNext_spec (h := h3) (a := es.prev) (x := er.next)
    (by rw [f3, f2, f1]; cases hx : load h es.prev <;> simp_all)
  refine ⟨h4, ?_, by omega, ?_⟩
  · simp [Link, Next, Prev, hr, hs, q1, q2, q3, q4]
  · intro b
    rw [f4, f3, f2, f1]
    cases load h b with
    | none => rfl
    | some e =>
      simp only [Option.map_some', relink]
      congr 1
      split_ifs <;> simp_all

/-! ## Ring lemmas -/

theorem chain'_imp_pos {α : Type} {R S : α → α → Prop} :
    ∀ (l : List α), List.Chain' R l →
      (∀ x y, R x y → x ∈ l.dropLast → y ∈ l.tail → S x y) → List.Chain' S l
  | [], _, _ => List.chain'_nil
  | [_], _, _ => List.chain'_singleton _
  | x :: y :: t, hc, H => by
    rw [List.chain'_cons] at hc ⊢
    refine ⟨H x y hc.1 (by simp) (by simp), ?_⟩
    apply chain'_imp_pos (y :: t) hc.2
    intro x1 y1 hR hx hy
    apply H x1 y1 hR
    · simp only [List.dropLast_cons₂]
      exact List.mem_cons_of_mem _ hx
    · simp only [List.tail_cons]
      exact List.mem_of_mem_tail hy

theorem isRing_nil (h : List (Option Entry)) : IsRing h [] := by
  simp [IsRing]

theorem isRing_cons {h : List (Option Entry)} {a : Nat} {xs : List Nat} :
    IsRing h (a :: xs) ↔ (a :: xs).Nodup ∧ List.Chain' (Adj h) (a :: (xs ++ [a])) := by
  simp [IsRing]

theorem IsRing.rotate {h : List (Option Entry)} {xs ys : List Nat}
    (hr : IsRing h (xs ++ ys)) : IsRing h (ys ++ xs) := by
  cases xs with
  | nil => simpa using hr
  | cons a xs =>
    cases ys with
    | nil => simpa using hr
    | cons b ys =>
      obtain ⟨hnd, hch⟩ := hr
      refine ⟨?_, ?_⟩
      · exact (List.perm_append_comm.nodup_iff).mp hnd
      · simp only [List.cons_append, List.take_succ_cons, List.take_zero] at hch ⊢
        have h1 : List.Chain' (Adj h) ((a :: xs) ++ [b]) := by
          have : (a :: (xs ++ b :: ys ++ [a])) = ((a :: xs) ++ [b]) ++ (ys ++ [a]) := by simp
          rw [this] at hch
          exact hch.left_of_append
        have h2 : List.Chain' (Adj h) ((b :: ys) ++ [a]) := by
          have : (a :: (xs ++ b :: ys ++ [a])) = (a :: xs) ++ ((b :: ys) ++ [a]) := by simp
          rw [this] at hch
          exact hch.right_of_append
        have h3 : List.Chain' (Adj h) ([a] ++ (xs ++ [b])) := by simpa using h1
        have := List.Chain'.append_overlap h2 h3 (by simp)
        simpa using this

theorem IsRing.nodup {h : List (Option Entry)} {L : List Nat} (hr : IsRing h L) : L.Nodup :=
  hr.1

theorem IsRing.of_mem {h : List (Option Entry)} {L : List Nat} (hr : IsRing h L) {a : Nat}
    (ha : a ∈ L) : ∃ xs, IsRing h (a :: xs) ∧ L.Perm (a :: xs) := by
  obtain ⟨ys, zs, rfl⟩ := List.append_of_mem ha
  refine ⟨zs ++ ys, ?_, ?_⟩
  · have := hr.rotate
    simpa using this
  · have : (ys ++ a :: zs).Perm ((a :: zs) ++ ys) := List.perm_append_comm
    simpa using this

theorem chain'_adj_transfer {h h1 : List (Option Entry)} {l : List Nat}
    (hc : List.Chain' (Adj h) l)
    (hx : ∀ x ∈ l.dropLast, ∀ e, load h x = some e → ∃ e1, load h1 x = some e1 ∧ e1.next = e.next)
    (hy : ∀ y ∈ l.tail, ∀ e, load h y = some e → ∃ e1, load h1 y = some e1 ∧ e1.prev = e.prev) :
    List.Chain' (Adj h1) l := by
  apply chain'_imp_pos l hc
  intro x y hA hxm hym
  obtain ⟨⟨e, he, hen⟩, ⟨f, hf, hfp⟩⟩ := hA
  obtain ⟨e1, he1, hn1⟩ := hx x hxm e he
  obtain ⟨f1, hf1, hp1⟩ := hy y hym f hf
  exact ⟨⟨e1, he1, by rw [hn1, hen]⟩, ⟨f1, hf1, by rw [hp1, hfp]⟩⟩

theorem IsRing.transfer {h h1 : List (Option Entry)} {L : List Nat} (hr : IsRing h L)
    (hx : ∀ x ∈ L, ∀ e, load h x = some e →
      ∃ e1, load h1 x = some e1 ∧ e1.next = e.next ∧ e1.prev = e.prev) :
    IsRing h1 L := by
  refine ⟨hr.1, chain'_adj_transfer hr.2 ?_ ?_⟩
  · intro x hxm e he
    have : x ∈ L := by
      have := List.mem_of_mem_dropLast hxm
      rcases List.mem_append.mp this with h | h
      · exact h
      · exact List.mem_of_mem_take h
    obtain ⟨e1, h1, h2, _⟩ := hx x this e he
    exact ⟨e1, h1, h2⟩
  · intro y hym e he
    have : y ∈ L := by
      have := List.mem_of_mem_tail hym
      rcases List.mem_append.mp this with h | h
      · exact h
      · exact List.mem_of_mem_take h
    obtain ⟨e1, h1, _, h3⟩ := hx y this e he
    exact ⟨e1, h1, h3⟩

theorem IsRing.head_next {h : List (Option Entry)} {a : Nat} {xs : List Nat}
    (hr : IsRing h (a :: xs)) : ∃ e, load h a = some e ∧ e.next = (xs ++ [a]).headD a := by
  rw [isRing_cons] at hr
  cases xs with
  | nil =>
    have := hr.2
    simp only [List.nil_append, List.chain'_cons] at this
    obtain ⟨⟨e, he, hn⟩, _⟩ := this.1
    exact ⟨e, he, by simpa using hn⟩
  | cons y ys =>
    have := hr.2
    simp only [List.cons_append, List.chain'_cons] at this
    obtain ⟨⟨e, he, hn⟩, _⟩ := this.1
    exact ⟨e, he, by simpa using hn⟩

theorem IsRing.head_adj {h : List (Option Entry)} {a : Nat} {xs : List Nat}
    (hr : IsRing h (a :: xs)) : Adj h a ((xs ++ [a]).headD a) := by
  rw [isRing_cons] at hr
  cases xs with
  | nil =>
    have := hr.2
    simp only [List.nil_append, List.chain'_cons] at this
    simpa using this.1
  | cons y ys =>
    have := hr.2
    simp only [List.cons_append, List.chain'_cons] at this
    simpa using this.1

theorem IsRing.mem_load {h : List (Option Entry)} {L : List Nat} (hr : IsRing h L) {a : Nat}
    (ha : a ∈ L) : ∃ e, load h a = some e ∧ e.next ∈ L ∧ e.prev ∈ L := by
  obtain ⟨xs, hrx, hperm⟩ := hr.of_mem ha
  obtain ⟨⟨e, he, hn⟩, _⟩ := hrx.head_adj
  refine ⟨e, he, ?_, ?_⟩
  · rw [hn]
    apply hperm.symm.subset
    cases xs <;> simp
  · -- rotate the last element to the front
    rcases List.eq_nil_or_concat xs with hnil | ⟨ys, p, rfl⟩
    · subst hnil
      have hadj := hrx.head_adj
      simp only [List.nil_append, List.headD_cons] at hadj
      obtain ⟨_, ⟨f, hf, hp⟩⟩ := hadj
      rw [he] at hf; cases hf
      rw [hp]; exact ha
    · have hrot : IsRing h (p :: a :: ys) := by
        have := @IsRing.rotate _ (a :: ys) [p] (by simpa using hrx)
        simpa using this
      have hadj := hrot.head_adj
      simp only [List.cons_append, List.headD_cons] at hadj
      obtain ⟨_, ⟨f, hf, hp⟩⟩ := hadj
      rw [he] at hf; cases hf
      rw [hp]
      apply hperm.symm.subset
      simp

theorem ne_headD_of_mem_tail {l : List Nat} (hn : l.Nodup) {y d : Nat} (hy : y ∈ l.tail) :
    y ≠ l.headD d := by
  cases l with
  | nil => simp at hy
  | cons x t =>
    simp only [List.tail_cons] at hy
    simp only [List.headD_cons]
    intro hxy
    subst hxy
    exact (List.nodup_cons.mp hn).1 hy

theorem headD_concat_mem {xs : List Nat} {a : Nat} : (xs ++ [a]).headD a ∈ a :: xs := by
  cases xs <;> simp

theorem IsRing.insert {h : List (Option Entry)} {a r : Nat} {xs : List Nat} {er : Entry}
    (hr : IsRing h (a :: xs)) (hnr : r ∉ a :: xs) (hl : load h r = some er)
    (hp : er.prev = r) :
    ∃ h4 ea, load h a = some ea ∧ Link h a (some r) = some (h4, ea.next) ∧
      h4.length = h.length ∧
      (∀ b, load h4 b = (load h b).map (relink a r ea.next r b)) ∧
      IsRing h4 (a :: r :: xs) ∧ ea.next = (xs ++ [a]).headD a := by
  obtain ⟨⟨ea, hea, hnext⟩, ⟨en, hen, _⟩⟩ := hr.head_adj
  obtain ⟨h4, hlink, hlen, hload⟩ :=
    Link_spec hea hl (by rw [hnext, hen]; rfl) (by rw [hp, hl]; rfl)
  rw [hp] at hload
  have hnd : (a :: xs).Nodup := hr.1
  have har : a ≠ r := fun hc => hnr (by rw [← hc]; simp)
  have hnmem : ea.next ∈ a :: xs := by rw [hnext]; exact headD_concat_mem
  have hrn : r ≠ ea.next := fun hc => hnr (by rw [hc]; exact hnmem)
  have hnd2 : (xs ++ [a]).Nodup := (List.perm_append_comm.nodup_iff).mp (by simpa using hnd)
  refine ⟨h4, ea, hea, hlink, hlen, hload, ?_, hnext⟩
  rw [isRing_cons]
  refine ⟨?_, ?_⟩
  · have : (r :: a :: xs).Nodup := List.nodup_cons.mpr ⟨hnr, hnd⟩
    exact (List.Perm.swap a r xs).nodup_iff.mp this
  · have hch := (isRing_cons.mp hr).2
    have htail : List.Chain' (Adj h) (xs ++ [a]) := hch.tail
    have hrest : List.Chain' (Adj h4) (xs ++ [a]) := by
      apply chain'_adj_transfer htail
      · intro x hx e he
        rw [List.dropLast_concat] at hx
        have hxa : x ≠ a := fun hc => (List.nodup_cons.mp hnd).1 (hc ▸ hx)
        have hxr : x ≠ r := fun hc => hnr (by rw [← hc]; exact List.mem_cons_of_mem _ hx)
        refine ⟨_, by rw [hload, he]; rfl, ?_⟩
        simp [relink, hxa, hxr]
      · intro y hy e he
        have hyn : y ≠ ea.next := by rw [hnext]; exact ne_headD_of_mem_tail hnd2 hy
        have hym : y ∈ a :: xs := by
          have := List.mem_of_mem_tail hy
          rcases List.mem_append.mp this with h1 | h1
          · exact List.mem_cons_of_mem _ h1
          · simp at h1; rw [h1]; simp
        have hyr : y ≠ r := fun hc => hnr (hc ▸ hym)
        refine ⟨_, by rw [hload, he]; rfl, ?_⟩
        simp [relink, hyn, hyr]
    have hA1 : Adj h4 a r := by
      refine ⟨⟨_, by rw [hload, hea]; rfl, ?_⟩, ⟨_, by rw [hload, hl]; rfl, ?_⟩⟩
      · simp [relink, har]
      · simp [relink, hrn]
    have hA2 : Adj h4 r ((xs ++ [a]).headD a) := by
      rw [← hnext] at hen ⊢
      refine ⟨⟨_, by rw [hload, hl]; rfl, ?_⟩, ⟨_, by rw [hload, hen]; rfl, ?_⟩⟩
      · simp [relink]
      · simp [relink]
    rw [List.chain'_cons']
    refine ⟨by intro y hy; simp at hy; subst hy; exact hA1, ?_⟩
    show List.Chain' (Adj h4) (r :: (xs ++ [a]))
    rw [List.chain'_cons']
    refine ⟨?_, hrest⟩
    intro y hy
    have : y = (xs ++ [a]).headD a := by
      cases xs <;> simp at hy ⊢ <;> exact hy.symm
    rw [this]; exact hA2

theorem IsRing.remove {h : List (Option Entry)} {p e : Nat} {xs : List Nat}
    (hr : IsRing h (p :: e :: xs)) :
    ∃ h4 ee, load h e = some ee ∧ ee.prev = p ∧ ee.next = (xs ++ [p]).headD p ∧
      Unlink h p 1 = some (h4, some e) ∧ h4.length = h.length ∧
      (∀ b, load h4 b = (load h b).map (relink p ee.next e e b)) ∧
      IsRing h4 (p :: xs) := by
  have hnd : (p :: e :: xs).Nodup := hr.1
  have hch := (isRing_cons.mp hr).2
  simp only [List.cons_append] at hch
  rw [List.chain'_cons] at hch
  obtain ⟨⟨⟨ep, hep, hepn⟩, ⟨ee, hee, heep⟩⟩, hch2⟩ := hch
  have hA2 : Adj h e ((xs ++ [p]).headD p) := by
    have := List.Chain'.rel_head? hch2 (y := (xs ++ [p]).headD p) (by cases xs <;> simp)
    exact this
  obtain ⟨⟨ee2, hee2, heen⟩, ⟨en, hen, henp⟩⟩ := hA2
  rw [hee] at hee2; cases hee2
  have hpe : p ≠ e := by
    intro hc; subst hc; simp at hnd
  have hnd1 : (e :: xs).Nodup := (List.nodup_cons.mp hnd).2
  have hnd2 : (p :: xs).Nodup := by
    have := List.nodup_cons.mp hnd
    refine List.nodup_cons.mpr ⟨fun hc => this.1 (List.mem_cons_of_mem _ hc), ?_⟩
    exact (List.nodup_cons.mp this.2).2
  have hnd3 : (xs ++ [p]).Nodup := (List.perm_append_comm.nodup_iff).mp (by simpa using hnd2)
  have hnmem : ee.next ∈ p :: xs := by rw [heen]; exact headD_concat_mem
  have hne : ee.next ≠ e := by
    intro hc
    rw [hc] at hnmem
    rcases List.mem_cons.mp hnmem with h1 | h1
    · exact hpe h1.symm
    · exact (List.nodup_cons.mp hnd1).1 h1
  have hmove : Move h p ((1 : Int) + 1) = some ee.next := by
    have : ((1 : Int) + 1).toNat = 2 := by decide
    simp [Move, this, stepNext, Next, hep, hepn, hee]
  obtain ⟨h4, hlink, hlen, hload⟩ :=
    Link_spec (r := p) (s := ee.next) hep (by rw [heen]; exact hen)
      (by rw [hepn, hee]; rfl) (by rw [henp, hee]; rfl)
  rw [hepn, henp] at hload
  rw [hepn] at hlink
  refine ⟨h4, ee, hee, heep, heen, ?_, hlen, hload, ?_⟩
  · have hmove2 : Move h p 2 = some ee.next := hmove
    simp [Unlink, hmove2, hlink]
  · rw [isRing_cons]
    refine ⟨hnd2, ?_⟩
    have htail : List.Chain' (Adj h) (xs ++ [p]) := hch2.tail
    have hrest : List.Chain' (Adj h4) (xs ++ [p]) := by
      apply chain'_adj_transfer htail
      · intro x hx f hf
        rw [List.dropLast_concat] at hx
        have hxp : x ≠ p := fun hc => (List.nodup_cons.mp hnd2).1 (hc ▸ hx)
        have hxe : x ≠ e := fun hc => (List.nodup_cons.mp hnd1).1 (hc ▸ hx)
        refine ⟨_, by rw [hload, hf]; rfl, ?_⟩
        simp [relink, hxp, hxe]
      · intro y hy f hf
        have hyn : y ≠ ee.next := by rw [heen]; exact ne_headD_of_mem_tail hnd3 hy
        have hym : y ∈ p :: xs := by
          have := List.mem_of_mem_tail hy
          rcases List.mem_append.mp this with h1 | h1
          · exact List.mem_cons_of_mem _ h1
          · simp at h1; rw [h1]; simp
        have hye : y ≠ e := by
          intro hc
          rw [hc] at hym
          rcases List.mem_cons.mp hym with h1 | h1
          · exact hpe h1.symm
          · exact (List.nodup_cons.mp hnd1).1 h1
        refine ⟨_, by rw [hload, hf]; rfl, ?_⟩
        simp [relink, hyn, hye]
    have hA : Adj h4 p ((xs ++ [p]).headD p) := by
      rw [← heen] at hen ⊢
      refine ⟨⟨_, by rw [hload, hep]; rfl, ?_⟩, ⟨_, by rw [hload, hen]; rfl, ?_⟩⟩
      · simp [relink, hpe]
      · simp [relink, hne]
    rw [List.chain'_cons']
    refine ⟨?_, hrest⟩
    intro y hy
    have : y = (xs ++ [p]).headD p := by
      cases xs <;> simp at hy ⊢ <;> exact hy.symm
    rw [this]; exact hA

theorem IsRing.store {h : List (Option Entry)} {L : List Nat} (hr : IsRing h L) {m : Nat}
    {e e1 : Entry} (he : load h m = some e) (hn : e1.next = e.next) (hp : e1.prev = e.prev) :
    IsRing (store h m e1) L := by
  apply hr.transfer
  intro x _ f hf
  rw [load_store (load_lt he)]
  by_cases hx : x = m
  · subst hx
    rw [he] at hf; cases hf
    exact ⟨e1, by simp, hn, hp⟩
  · exact ⟨f, by simp [hx, hf], rfl, rfl⟩

theorem IsRing.free {h : List (Option Entry)} {L : List Nat} (hr : IsRing h L) {m : Nat}
    (hm : m ∉ L) : IsRing (free h m) L := by
  apply hr.transfer
  intro x hx f hf
  have : m ≠ x := fun hc => hm (hc ▸ hx)
  exact ⟨f, by rw [load_free_ne this, hf], rfl, rfl⟩

theorem IsRing.append {h : List (Option Entry)} {L : List Nat} (hr : IsRing h L)
    (c : Option Entry) : IsRing (h ++ [c]) L := by
  apply hr.transfer
  intro x _ f hf
  exact ⟨f, by rw [load_append_of_lt (load_lt hf), hf], rfl, rfl⟩

theorem ringWalk_chain {h : List (Option Entry)} {a : Nat} :
    ∀ (ys : List Nat) (c n : Nat), List.Chain' (Adj h) (c :: (ys ++ [a])) → a ∉ ys →
      ys.length < n → ringWalk h n a c = c :: ys
  | [], c, n, hch, _, hn => by
    obtain ⟨k, rfl⟩ : ∃ k, n = k + 1 := ⟨n - 1, by simp at hn; omega⟩
    simp only [List.nil_append, List.chain'_cons] at hch
    obtain ⟨⟨e, he, hen⟩, _⟩ := hch.1
    simp [ringWalk, Next, he, hen]
  | y :: ys, c, n, hch, ha, hn => by
    obtain ⟨k, rfl⟩ : ∃ k, n = k + 1 := ⟨n - 1, by simp at hn; omega⟩
    simp only [List.cons_append, List.chain'_cons] at hch
    obtain ⟨⟨e, he, hen⟩, _⟩ := hch.1
    have hya : y ≠ a := fun hc => ha (by rw [hc]; simp)
    have ih := ringWalk_chain ys y k (by simpa using hch.2)
      (fun hc => ha (List.mem_cons_of_mem _ hc)) (by simp at hn; omega)
    simp [ringWalk, Next, he, hen, hya, ih]

theorem IsRing.ringWalk_eq {h : List (Option Entry)} {a : Nat} {xs : List Nat}
    (hr : IsRing h (a :: xs)) {n : Nat} (hn : xs.length < n) :
    ringWalk h n a a = a :: xs :=
  ringWalk_chain xs a n (isRing_cons.mp hr).2 (List.nodup_cons.mp hr.1).1 hn

theorem nodup_length_le {L : List Nat} (hn : L.Nodup) {N : Nat} (hb : ∀ a ∈ L, a < N) :
    L.length ≤ N := by
  have h1 : L.toFinset ⊆ Finset.range N := by
    intro x hx
    simp only [List.mem_toFinset] at hx
    exact Finset.mem_range.mpr (hb x hx)
  have h2 := Finset.card_le_card h1
  rw [List.toFinset_card_of_nodup hn, Finset.card_range] at h2
  exact h2

theorem IsRing.length_le {h : List (Option Entry)} {L : List Nat} (hr : IsRing h L) :
    L.length ≤ h.length :=
  nodup_length_le hr.1 (fun a ha => by
    obtain ⟨e, he, _⟩ := hr.mem_load ha
    exact load_lt he)

/-! ## Counters and ranks -/

theorem SIZE_pos : 0 < SIZE := by unfold SIZE; positivity

theorem uadd_eq {a b : Nat} (h : a + b < SIZE) : uadd a b = a + b := by
  unfold uadd; exact Nat.mod_eq_of_lt h

theorem usub_eq {a b : Nat} (hb : b ≤ a) (ha : a < SIZE) : usub a b = a - b := by
  unfold usub
  have hb2 : b % SIZE = b := Nat.mod_eq_of_lt (by omega)
  rw [hb2]
  have : a + (SIZE - b) = (a - b) + SIZE := by omega
  rw [this, Nat.add_mod_right]
  exact Nat.mod_eq_of_lt (by omega)

theorem tyAt_store {h : List (Option Entry)} {m a : Nat} {e1 : Entry} (hm : m < h.length) :
    tyAt (store h m e1) a = if a = m then some e1.ptype else tyAt h a := by
  unfold tyAt
  rw [load_store hm]
  split <;> rfl

theorem rankAt_store {h : List (Option Entry)} {m a : Nat} {e1 : Entry} (hm : m < h.length) :
    rankAt (store h m e1) a = if a = m then rank e1 else rankAt h a := by
  unfold rankAt
  rw [load_store hm]
  by_cases hc : a = m <;> simp [hc]

theorem cnt_cons (h : List (Option Entry)) (a : Nat) (L : List Nat) (t : PageType) :
    cnt h (a :: L) t = cnt h L t + (if tyAt h a = some t then 1 else 0) := by
  unfold cnt
  rw [List.countP_cons]
  simp

theorem cnt_congr {h h1 : List (Option Entry)} {L : List Nat} (t : PageType)
    (hc : ∀ a ∈ L, tyAt h1 a = tyAt h a) : cnt h1 L t = cnt h L t := by
  unfold cnt
  apply List.countP_congr
  intro a ha
  simp [hc a ha]

theorem cnt_perm {h : List (Option Entry)} {L L1 : List Nat} (t : PageType)
    (hp : L.Perm L1) : cnt h L t = cnt h L1 t := by
  unfold cnt
  exact hp.countP_eq _

theorem phi_cons (h : List (Option Entry)) (a : Nat) (L : List Nat) :
    phi h (a :: L) = rankAt h a + phi h L := by
  simp [phi]

theorem phi_congr {h h1 : List (Option Entry)} {L : List Nat}
    (hc : ∀ a ∈ L, rankAt h1 a = rankAt h a) : phi h1 L = phi h L := by
  unfold phi
  congr 1
  exact List.map_congr_left hc

theorem phi_perm {h : List (Option Entry)} {L L1 : List Nat} (hp : L.Perm L1) :
    phi h L = phi h L1 := by
  unfold phi
  exact (hp.map _).sum_eq

theorem cnt_store {h : List (Option Entry)} {L : List Nat} (hn : L.Nodup) {m : Nat}
    (hm : m ∈ L) {e e1 : Entry} (he : load h m = some e) (t : PageType) :
    cnt (store h m e1) L t + (if e.ptype = t then 1 else 0)
      = cnt h L t + (if e1.ptype = t then 1 else 0) := by
  obtain ⟨ys, zs, rfl⟩ := List.append_of_mem hm
  have hperm : (ys ++ m :: zs).Perm (m :: (ys ++ zs)) := List.perm_middle
  have hnd : (m :: (ys ++ zs)).Nodup := hperm.nodup_iff.mp hn
  rw [cnt_perm t hperm, cnt_perm t hperm, cnt_cons, cnt_cons]
  have hrest : cnt (store h m e1) (ys ++ zs) t = cnt h (ys ++ zs) t := by
    apply cnt_congr
    intro a ha
    rw [tyAt_store (load_lt he)]
    have : a ≠ m := fun hc => (List.nodup_cons.mp hnd).1 (hc ▸ ha)
    simp [this]
  rw [hrest, tyAt_store (load_lt he)]
  have h1 : tyAt h m = some e.ptype := by simp [tyAt, he]
  simp only [if_true, h1, Option.some.injEq]
  omega

theorem phi_store {h : List (Option Entry)} {L : List Nat} (hn : L.Nodup) {m : Nat}
    (hm : m ∈ L) {e e1 : Entry} (he : load h m = some e) :
    phi (store h m e1) L + rank e = phi h L + rank e1 := by
  obtain ⟨ys, zs, rfl⟩ := List.append_of_mem hm
  have hperm : (ys ++ m :: zs).Perm (m :: (ys ++ zs)) := List.perm_middle
  have hnd : (m :: (ys ++ zs)).Nodup := hperm.nodup_iff.mp hn
  rw [phi_perm hperm, phi_perm hperm, phi_cons, phi_cons]
  have hrest : phi (store h m e1) (ys ++ zs) = phi h (ys ++ zs) := by
    apply phi_congr
    intro a ha
    rw [rankAt_store (load_lt he)]
    have : a ≠ m := fun hc => (List.nodup_cons.mp hnd).1 (hc ▸ ha)
    simp [this]
  rw [hrest, rankAt_store (load_lt he)]
  have h1 : rankAt h m = rank e := by simp [rankAt, he]
  simp only [if_true, h1]
  omega

theorem cnt_total {h : List (Option Entry)} :
    ∀ (L : List Nat), (∀ a ∈ L, tyAt h a = some ptHot ∨ tyAt h a = some ptCold ∨
        tyAt h a = some ptTest) →
      cnt h L ptHot + cnt h L ptCold + cnt h L ptTest = L.length
  | [], _ => by simp [cnt]
  | a :: L, ht => by
    have ih := cnt_total L (fun b hb => ht b (List.mem_cons_of_mem _ hb))
    rw [cnt_cons, cnt_cons, cnt_cons, List.length_cons]
    rcases ht a (List.mem_cons_self _ _) with h1 | h1 | h1 <;> simp [h1] <;> omega

theorem cnt_pos_of_mem {h : List (Option Entry)} {L : List Nat} {a : Nat} {t : PageType}
    (ha : a ∈ L) (hty : tyAt h a = some t) : 1 ≤ cnt h L t := by
  unfold cnt
  exact List.countP_pos_iff.mpr ⟨a, ha, by simp [hty]⟩

theorem exists_of_cnt_pos {h : List (Option Entry)} {L : List Nat} {t : PageType}
    (hc : 1 ≤ cnt h L t) : ∃ a ∈ L, tyAt h a = some t := by
  unfold cnt at hc
  obtain ⟨a, ha, hp⟩ := List.countP_pos_iff.mp hc
  exact ⟨a, ha, by simpa using hp⟩

theorem Core.length_eq {s : Cache} {L : List Nat} {X : Nat → Prop} (hc : Core s L X) :
    L.length = s.count_hot + s.count_cold + s.count_test := by
  rw [hc.nhot, hc.ncold, hc.ntest]
  exact (cnt_total L hc.types).symm

/-! ## Distance of a hand to the next page of its type -/

theorem dist_succ_le (h : List (Option Entry)) (t : PageType) :
    ∀ (n a : Nat), dist h t (n + 1) a ≤ dist h t n a + 1
  | 0, a => by
    simp only [dist]
    split
    · split <;> omega
    · omega
  | n + 1, a => by
    rw [dist, dist]
    split
    · next e he =>
      split
      · omega
      · have := dist_succ_le h t n e.next
        omega
    · omega

theorem dist_chain {h : List (Option Entry)} {t : PageType} :
    ∀ (ys : List Nat) (c : Nat), List.Chain' (Adj h) (c :: ys) →
      (∃ b ∈ c :: ys, tyAt h b = some t) → ∀ n, (c :: ys).length ≤ n →
      dist h t n c < (c :: ys).length ∧ dist h t (n + 1) c = dist h t n c
  | [], c, _, hb, n, hn => by
    obtain ⟨b, hb1, hb2⟩ := hb
    simp only [List.mem_singleton] at hb1
    subst hb1
    obtain ⟨k, rfl⟩ : ∃ k, n = k + 1 := ⟨n - 1, by simp at hn; omega⟩
    unfold tyAt at hb2
    cases hl : load h b with
    | none => rw [hl] at hb2; cases hb2
    | some e =>
      rw [hl] at hb2
      simp only [Option.map_some', Option.some.injEq] at hb2
      simp [dist, hl, hb2]
  | y :: ys, c, hch, hb, n, hn => by
    obtain ⟨k, rfl⟩ : ∃ k, n = k + 1 := ⟨n - 1, by simp at hn; omega⟩
    rw [List.chain'_cons] at hch
    obtain ⟨⟨⟨e, he, hen⟩, _⟩, hch2⟩ := hch
    by_cases hc : e.ptype = t
    · simp [dist, he, hc]
    · have hb2 : ∃ b ∈ y :: ys, tyAt h b = some t := by
        obtain ⟨b, hb1, hb2⟩ := hb
        rcases List.mem_cons.mp hb1 with h1 | h1
        · subst h1
          simp [tyAt, he] at hb2
          exact absurd hb2 hc
        · exact ⟨b, h1, hb2⟩
      have ih := dist_chain ys y hch2 hb2 k (by simp at hn ⊢; omega)
      have hd1 : dist h t (k + 1) c = dist h t k y + 1 := by
        rw [dist]; simp [he, hc, hen]
      have hd2 : dist h t (k + 1 + 1) c = dist h t (k + 1) y + 1 := by
        rw [dist]; simp [he, hc, hen]
      simp only [List.length_cons] at ih ⊢
      constructor
      · omega
      · omega

theorem dist_skip {h : List (Option Entry)} {L : List Nat} (hr : IsRing h L) {a : Nat}
    (ha : a ∈ L) {e : Entry} (he : load h a = some e) {t : PageType} (hne : e.ptype ≠ t)
    {N : Nat} (hN : L.length ≤ N) :
    dist h t N e.next ≤ dist h t N a ∧
      ((∃ b ∈ L, tyAt h b = some t) → dist h t N e.next < dist h t N a) := by
  obtain ⟨k, rfl⟩ : ∃ k, N = k + 1 := by
    have : 0 < L.length := List.length_pos_of_mem ha
    exact ⟨N - 1, by omega⟩
  have hd : dist h t (k + 1) a = dist h t k e.next + 1 := by
    rw [dist]; simp [he, hne]
  have h1 := dist_succ_le h t k e.next
  refine ⟨by omega, ?_⟩
  rintro ⟨b, hb, hbt⟩
  obtain ⟨xs, hrx, hperm⟩ := hr.of_mem ha
  have hbx : b ∈ a :: xs := hperm.subset hb
  have hba : b ≠ a := by
    intro hc; subst hc
    simp [tyAt, he] at hbt
    exact hne hbt
  have hbxs : b ∈ xs := by
    rcases List.mem_cons.mp hbx with h2 | h2
    · exact absurd h2 hba
    · exact h2
  cases xs with
  | nil => simp at hbxs
  | cons y ys =>
    have hch := (isRing_cons.mp hrx).2
    simp only [List.cons_append] at hch
    rw [List.chain'_cons] at hch
    obtain ⟨⟨⟨e2, he2, hen⟩, _⟩, hch2⟩ := hch
    rw [he] at he2; cases he2
    have hch3 : List.Chain' (Adj h) (y :: ys) := by
      have : y :: (ys ++ [a]) = (y :: ys) ++ [a] := by simp
      rw [this] at hch2
      exact hch2.left_of_append
    have hlen : (y :: ys).length ≤ k := by
      have := hperm.length_eq
      simp only [List.length_cons] at this ⊢
      omega
    have := dist_chain ys y hch3 ⟨b, hbxs, hbt⟩ k hlen
    rw [hen] at hd h1 ⊢
    omega

/-! ## Fuel -/

theorem run_hand_cold_succ (fuel : Nat) (c : Cache) :
    run_hand_cold (fuel + 1) c =
      match c.hand_cold with
      | none => none
      | some m =>
        match load c.heap m with
        | none => none
        | some e =>
          match (if e.ptype = ptCold then
              if e.ref then some (cold_promote c m e)
              else cold_test_loop fuel (cold_demote c m e)
            else some c) with
          | none => none
          | some c1 =>
            match cold_advance c1 with
            | none => none
            | some c2 => cold_hot_loop fuel c2 := by
  rfl

theorem cold_test_loop_succ (fuel : Nat) (c : Cache) :
    cold_test_loop (fuel + 1) c =
      if c.capacity < c.count_test then
        match run_hand_test fuel c with
        | none => none
        | some c1 => cold_test_loop fuel c1
      else some c := by
  rfl

theorem cold_hot_loop_succ (fuel : Nat) (c : Cache) :
    cold_hot_loop (fuel + 1) c =
      if usub c.capacity c.cold_capacity < c.count_hot then
        match run_hand_hot fuel c with
        | none => none
        | some c1 => cold_hot_loop fuel c1
      else some c := by
  rfl

theorem run_hand_hot_succ (fuel : Nat) (c : Cache) :
    run_hand_hot (fuel + 1) c =
      match (if c.hand_hot = c.hand_test then run_hand_test fuel c else some c) with
      | none => none
      | some c1 => hand_hot_body c1 := by
  rfl

theorem run_hand_test_succ (fuel : Nat) (c : Cache) :
    run_hand_test (fuel + 1) c =
      match (if c.hand_test = c.hand_cold then run_hand_cold fuel c else some c) with
      | none => none
      | some c1 => hand_test_body c1 := by
  rfl

theorem evict_succ (fuel : Nat) (c : Cache) :
    evict (fuel + 1) c =
      if c.capacity ≤ uadd c.count_hot c.count_cold then
        match run_hand_cold fuel c with
        | none => none
        | some c1 => evict fuel c1
      else some c := by
  rfl

theorem fuel_mono_succ : ∀ (f : Nat),
    (∀ c c1, run_hand_cold f c = some c1 → run_hand_cold (f + 1) c = some c1) ∧
    (∀ c c1, cold_test_loop f c = some c1 → cold_test_loop (f + 1) c = some c1) ∧
    (∀ c c1, cold_hot_loop f c = some c1 → cold_hot_loop (f + 1) c = some c1) ∧
    (∀ c c1, run_hand_hot f c = some c1 → run_hand_hot (f + 1) c = some c1) ∧
    (∀ c c1, run_hand_test f c = some c1 → run_hand_test (f + 1) c = some c1)
  | 0 => by
    refine ⟨?_, ?_, ?_, ?_, ?_⟩ <;> intro c c1 h <;> cases h
  | f + 1 => by
    obtain ⟨ihC, ihTL, ihHL, ihH, ihT⟩ := fuel_mono_succ f
    refine ⟨?_, ?_, ?_, ?_, ?_⟩
    · intro c c1 h
      rw [run_hand_cold_succ] at h ⊢
      cases hhc : c.hand_cold with
      | none => rw [hhc] at h; cases h
      | some m =>
        rw [hhc] at h
        simp only at h ⊢
        cases hl : load c.heap m with
        | none => rw [hl] at h; cases h
        | some e =>
          rw [hl] at h
          simp only at h ⊢
          have key : ∀ (r r1 : Option Cache), (∀ x, r = some x → r1 = some x) →
              (match r with
                | none => none
                | some c1 =>
                  match cold_advance c1 with
                  | none => none
                  | some c2 => cold_hot_loop f c2) = some c1 →
              (match r1 with
                | none => none
                | some c1 =>
                  match cold_advance c1 with
                  | none => none
                  | some c2 => cold_hot_loop (f + 1) c2) = some c1 := by
            intro r r1 hrr hm
            cases r with
            | none => cases hm
            | some x =>
              rw [hrr x rfl]
              simp only at hm ⊢
              cases ha : cold_advance x with
              | none => rw [ha] at hm; cases hm
              | some y =>
                rw [ha] at hm
                exact ihHL _ _ hm
          apply key _ _ _ h
          intro x hx
          by_cases ht : e.ptype = ptCold
          · by_cases hr : e.ref = true
            · simpa [ht, hr] using hx
            · simp only [ht, hr, if_true, if_false] at hx ⊢
              exact ihTL _ _ hx
          · simpa [ht] using hx
    · intro c c1 h
      rw [cold_test_loop_succ] at h ⊢
      by_cases hc : c.capacity < c.count_test
      · simp only [hc, if_true] at h ⊢
        cases hr : run_hand_test f c with
        | none => rw [hr] at h; cases h
        | some x =>
          rw [hr] at h
          rw [ihT _ _ hr]
          exact ihTL _ _ h
      · simpa [hc] using h
    · intro c c1 h
      rw [cold_hot_loop_succ] at h ⊢
      by_cases hc : usub c.capacity c.cold_capacity < c.count_hot
      · simp only [hc, if_true] at h ⊢
        cases hr : run_hand_hot f c with
        | none => rw [hr] at h; cases h
        | some x =>
          rw [hr] at h
          rw [ihH _ _ hr]
          exact ihHL _ _ h
      · simpa [hc] using h
    · intro c c1 h
      rw [run_hand_hot_succ] at h ⊢
      by_cases hc : c.hand_hot = c.hand_test
      · simp only [hc, if_true] at h ⊢
        cases hr : run_hand_test f c with
        | none => rw [hr] at h; cases h
        | some x =>
          rw [hr] at h
          rw [ihT _ _ hr]
          exact h
      · simpa [hc] using h
    · intro c c1 h
      rw [run_hand_test_succ] at h ⊢
      by_cases hc : c.hand_test = c.hand_cold
      · simp only [hc, if_true] at h ⊢
        cases hr : run_hand_cold f c with
        | none => rw [hr] at h; cases h
        | some x =>
          rw [hr] at h
          rw [ihC _ _ hr]
          exact h
      · simpa [hc] using h

theorem evict_mono_succ : ∀ (f : Nat) (c c1 : Cache),
    evict f c = some c1 → evict (f + 1) c = some c1
  | 0, c, c1, h => by cases h
  | f + 1, c, c1, h => by
    rw [evict_succ] at h ⊢
    by_cases hc : c.capacity ≤ uadd c.count_hot c.count_cold
    · simp only [hc, if_true] at h ⊢
      cases hr : run_hand_cold f c with
      | none => rw [hr] at h; cases h
      | some x =>
        rw [hr] at h
        rw [(fuel_mono_succ f).1 _ _ hr]
        exact evict_mono_succ f _ _ h
    · simpa [hc] using h

theorem runK_mono_succ (k : Kind) (f : Nat) (c c1 : Cache) (h : runK k f c = some c1) :
    runK k (f + 1) c = some c1 := by
  cases k
  · exact (fuel_mono_succ f).1 c c1 h
  · exact (fuel_mono_succ f).2.1 c c1 h
  · exact (fuel_mono_succ f).2.2.1 c c1 h
  · exact (fuel_mono_succ f).2.2.2.1 c c1 h
  · exact (fuel_mono_succ f).2.2.2.2 c c1 h
  · exact evict_mono_succ f c c1 h

theorem runK_mono (k : Kind) {f g : Nat} (hfg : f ≤ g) {c c1 : Cache}
    (h : runK k f c = some c1) : runK k g c = some c1 := by
  induction hfg with
  | refl => exact h
  | step _ ih => exact runK_mono_succ k _ c c1 ih

/-! ## Primitive steps of the hands -/

theorem Frame.here (s : Cache) (L : List Nat) : Frame s L s L :=
  ⟨fun _ h => h, fun _ _ => rfl, rfl, rfl⟩

theorem Frame.comp {s s1 s2 : Cache} {L L1 L2 : List Nat} (h1 : Frame s L s1 L1)
    (h2 : Frame s1 L1 s2 L2) : Frame s L s2 L2 :=
  ⟨fun a ha => h1.sub a (h2.sub a ha),
   fun a ha => by rw [h2.out a (fun hc => ha (h1.sub a hc)), h1.out a ha],
   by rw [h2.len, h1.len], by rw [h2.cap, h1.cap]⟩

theorem Prog.stay (s : Cache) (L : List Nat) : Prog s L s L :=
  Or.inr ⟨rfl, rfl, rfl, rfl, le_refl _, le_refl _, le_refl _⟩

theorem Prog.seq {s s1 s2 : Cache} {L L1 L2 : List Nat} (h1 : Prog s L s1 L1)
    (h2 : Prog s1 L1 s2 L2) : Prog s L s2 L2 := by
  unfold Prog at *
  omega

theorem Core.retype {s s1 : Cache} {L : List Nat} {X : Nat → Prop} {m : Nat} {e e1 : Entry}
    (hc : Core s L X) (hm : m ∈ L) (he : load s.heap m = some e)
    (hheap : s1.heap = store s.heap m e1) (hcap : s1.capacity = s.capacity)
    (hcc : s1.cold_capacity = s.cold_capacity) (hmap : s1.map = s.map)
    (hn : e1.next = e.next) (hp : e1.prev = e.prev) (hk : e1.key = e.key)
    (hty : e1.ptype ≠ ptEmpty)
    (h1 : s1.count_hot + (if e.ptype = ptHot then 1 else 0)
      = s.count_hot + (if e1.ptype = ptHot then 1 else 0))
    (h2 : s1.count_cold + (if e.ptype = ptCold then 1 else 0)
      = s.count_cold + (if e1.ptype = ptCold then 1 else 0))
    (h3 : s1.count_test + (if e.ptype = ptTest then 1 else 0)
      = s.count_test + (if e1.ptype = ptTest then 1 else 0)) :
    Core s1 L X := by
  have hlt := load_lt he
  refine ⟨?_, ?_, ?_, ?_, ?_, ?_, ?_, ?_, ?_, ?_, hc.xout⟩
  · rw [hheap]; exact hc.ring.store he hn hp
  · intro a ha
    rw [hheap, tyAt_store hlt]
    by_cases hx : a = m
    · simp only [hx, if_true]
      cases hq : e1.ptype <;> simp_all
    · simp only [hx, if_false]; exact hc.types a ha
  · have := @cnt_store _ _ hc.ring.nodup _ hm _ e1 he ptHot
    rw [hheap]; have := hc.nhot; omega
  · have := @cnt_store _ _ hc.ring.nodup _ hm _ e1 he ptCold
    rw [hheap]; have := hc.ncold; omega
  · have := @cnt_store _ _ hc.ring.nodup _ hm _ e1 he ptTest
    rw [hheap]; have := hc.ntest; omega
  · rw [hcap]; exact hc.cap3
  · rw [hcap]; exact hc.capS
  · rw [hcc]; exact hc.cc1
  · rw [hcc, hcap]; exact hc.ccle
  · intro k a hka
    rw [hmap] at hka
    obtain ⟨hin, ea, hea, hkey, hnE⟩ := hc.map k a hka
    refine ⟨hin, ?_⟩
    rw [hheap, load_store hlt]
    by_cases hx : a = m
    · subst hx
      rw [he] at hea; cases hea
      exact ⟨e1, by simp, by rw [hk, hkey], hty⟩
    · exact ⟨ea, by simp [hx, hea], hkey, hnE⟩

theorem Core.move {s s1 : Cache} {L : List Nat} {X : Nat → Prop} (hc : Core s L X)
    (hheap : s1.heap = s.heap) (hcap : s1.capacity = s.capacity)
    (hcc : s1.cold_capacity = s.cold_capacity) (hmap : s1.map = s.map)
    (h1 : s1.count_hot = s.count_hot) (h2 : s1.count_cold = s.count_cold)
    (h3 : s1.count_test = s.count_test) : Core s1 L X := by
  refine ⟨?_, ?_, ?_, ?_, ?_, ?_, ?_, ?_, ?_, ?_, hc.xout⟩
  · rw [hheap]; exact hc.ring
  · rw [hheap]; exact hc.types
  · rw [hheap, h1]; exact hc.nhot
  · rw [hheap, h2]; exact hc.ncold
  · rw [hheap, h3]; exact hc.ntest
  · rw [hcap]; exact hc.cap3
  · rw [hcap]; exact hc.capS
  · rw [hcc]; exact hc.cc1
  · rw [hcc, hcap]; exact hc.ccle
  · rw [hheap, hmap]; exact hc.map

theorem HInv.move_inv {s s1 : Cache} {L : List Nat} {X : Nat → Prop} (hi : HInv s L X)
    (hheap : s1.heap = s.heap) (hcap : s1.capacity = s.capacity)
    (hcc : s1.cold_capacity = s.cold_capacity) (hmap : s1.map = s.map)
    (h1 : s1.count_hot = s.count_hot) (h2 : s1.count_cold = s.count_cold)
    (h3 : s1.count_test = s.count_test)
    (hh : ∃ a, s1.hand_hot = some a ∧ a ∈ L) (hc : ∃ a, s1.hand_cold = some a ∧ a ∈ L)
    (ht : ∃ a, s1.hand_test = some a ∧ a ∈ L) : HInv s1 L X :=
  { toCore := hi.toCore.move hheap hcap hcc hmap h1 h2 h3
    hh := hh, hc := hc, ht := ht
    res1 := by rw [h1, h2]; exact hi.res1
    resle := by rw [h1, h2, hcap]; exact hi.resle
    testle := by rw [h3, hcap]; exact hi.testle
    two := by rw [hcc, hcap]; exact hi.two }

theorem HInv.retype_inv {s s1 : Cache} {L : List Nat} {X : Nat → Prop} {m : Nat} {e e1 : Entry}
    (hi : HInv s L X) (hm : m ∈ L) (he : load s.heap m = some e)
    (hheap : s1.heap = store s.heap m e1) (hcap : s1.capacity = s.capacity)
    (hcc : s1.cold_capacity = s.cold_capacity) (hmap : s1.map = s.map)
    (hhh : ∃ a, s1.hand_hot = some a ∧ a ∈ L) (hhc : ∃ a, s1.hand_cold = some a ∧ a ∈ L)
    (hht : ∃ a, s1.hand_test = some a ∧ a ∈ L)
    (hn : e1.next = e.next) (hp : e1.prev = e.prev) (hk : e1.key = e.key)
    (hty : e1.ptype ≠ ptEmpty)
    (h1 : s1.count_hot + (if e.ptype = ptHot then 1 else 0)
      = s.count_hot + (if e1.ptype = ptHot then 1 else 0))
    (h2 : s1.count_cold + (if e.ptype = ptCold then 1 else 0)
      = s.count_cold + (if e1.ptype = ptCold then 1 else 0))
    (h3 : s1.count_test + (if e.ptype = ptTest then 1 else 0)
      = s.count_test + (if e1.ptype = ptTest then 1 else 0))
    (hres1 : 1 ≤ s1.count_hot + s1.count_cold)
    (hresle : s1.count_hot + s1.count_cold ≤ s1.capacity)
    (htest : s1.count_test ≤ s1.capacity + 1) : HInv s1 L X :=
  { toCore := hi.toCore.retype hm he hheap hcap hcc hmap hn hp hk hty h1 h2 h3
    hh := hhh
    hc := hhc
    ht := hht
    res1 := hres1, resle := hresle, testle := htest
    two := by rw [hcc, hcap]; exact hi.two }

theorem Frame.of_retype {s s1 : Cache} {L : List Nat} {m : Nat} {e1 : Entry}
    (hm : m ∈ L)
    (hheap : s1.heap = store s.heap m e1) (hcap : s1.capacity = s.capacity) :
    Frame s L s1 L :=
  ⟨fun _ h => h,
   fun a ha => by
    rw [hheap, load_store_ne]
    intro hc; exact ha (hc ▸ hm),
   by rw [hheap, length_store], hcap⟩

theorem phi_retype_lt {s s1 : Cache} {L : List Nat} {X : Nat → Prop} {m : Nat} {e e1 : Entry}
    (hc : Core s L X) (hm : m ∈ L) (he : load s.heap m = some e)
    (hheap : s1.heap = store s.heap m e1) (hr : rank e1 < rank e) :
    phi s1.heap L < phi s.heap L := by
  have := @phi_store _ _ hc.ring.nodup _ hm _ e1 he
  rw [hheap]; omega



theorem HInv.count_lt {s : Cache} {L : List Nat} {X : Nat → Prop} (hi : HInv s L X) :
    s.count_hot < SIZE ∧ s.count_cold < SIZE ∧ s.count_test + 1 < SIZE + 1 ∧
      s.count_hot + s.count_cold + 1 < SIZE := by
  have := hi.resle
  have := hi.capS
  have := hi.testle
  omega

theorem tyAt_of_load {h : List (Option Entry)} {a : Nat} {e : Entry} (he : load h a = some e) :
    tyAt h a = some e.ptype := by
  simp [tyAt, he]

theorem Next_of_load {h : List (Option Entry)} {a : Nat} {e : Entry} (he : load h a = some e) :
    Next h a = some e.next := by
  simp [Next, he]

theorem usub_cap_cc {s : Cache} {L : List Nat} {X : Nat → Prop} (hc : Core s L X) :
    usub s.capacity s.cold_capacity = s.capacity - s.cold_capacity :=
  usub_eq hc.ccle (by have := hc.capS; omega)

theorem HC_iff {s : Cache} {L : List Nat} {X : Nat → Prop} (hc : Core s L X) :
    HC s ↔ s.capacity - s.cold_capacity < s.count_hot := by
  unfold HC; rw [usub_cap_cc hc]

theorem hot_body_spec {s : Cache} {L : List Nat} {X : Nat → Prop} (hi : HInv s L X) :
    ∃ s1, hand_hot_body s = some s1 ∧ HInv s1 L X ∧ Frame s L s1 L ∧ Prog s L s1 L ∧
      (phi s1.heap L < phi s.heap L ∨
        (1 ≤ s1.count_hot → distO s1.heap ptHot s1.heap.length s1.hand_hot
          < distO s.heap ptHot s.heap.length s.hand_hot)) ∧
      s1.count_test = s.count_test ∧ s1.hand_test = s.hand_test ∧
      s1.hand_cold = s.hand_cold ∧ s1.cold_capacity = s.cold_capacity ∧
      (∀ a, tyAt s.heap a = some ptTest → tyAt s1.heap a = some ptTest) := by
  obtain ⟨m, hm, hmL⟩ := hi.hh
  obtain ⟨e, he, hnL, _⟩ := hi.ring.mem_load hmL
  have hlt := load_lt he
  have hb := hi.count_lt
  by_cases hty : e.ptype = ptHot
  · have hpos : 1 ≤ s.count_hot := by
      rw [hi.nhot]; exact cnt_pos_of_mem hmL (by rw [tyAt_of_load he, hty])
    by_cases hr : e.ref = true
    · -- second chance: clear the reference bit
      refine ⟨{ s with heap := store s.heap m { e with ref := false },
                       hand_hot := some e.next }, ?_, ?_, ?_, ?_, ?_, rfl, rfl, rfl, rfl, ?_⟩
      · simp [hand_hot_body, hm, he, hty, hr, Next, load_store_same hlt]
      · exact hi.retype_inv hmL he rfl rfl rfl rfl ⟨_, rfl, hnL⟩ hi.hc hi.ht rfl rfl rfl
          (by simp [hty]) (by simp) (by simp) (by simp) hi.res1 hi.resle hi.testle
      · exact Frame.of_retype hmL rfl rfl
      · left
        exact phi_retype_lt hi.toCore hmL he rfl (by simp [rank, hty, hr])
      · left
        exact phi_retype_lt hi.toCore hmL he rfl (by simp [rank, hty, hr])
      · intro a ha
        show tyAt (store s.heap m _) a = _
        rw [tyAt_store hlt]
        by_cases hx : a = m
        · subst hx; rw [tyAt_of_load he, hty] at ha; cases ha
        · simp [hx, ha]
    · -- demotion to cold
      have hr2 : e.ref = false := by simpa using hr
      refine ⟨{ s with heap := store s.heap m { e with ptype := ptCold },
                       count_hot := usub s.count_hot 1,
                       count_cold := uadd s.count_cold 1,
                       hand_hot := some e.next }, ?_, ?_, ?_, ?_, ?_, rfl, rfl, rfl, rfl, ?_⟩
      · simp [hand_hot_body, hm, he, hty, hr2, Next, load_store_same hlt]
      · have h1 : usub s.count_hot 1 = s.count_hot - 1 := usub_eq hpos hb.1
        have h2 : uadd s.count_cold 1 = s.count_cold + 1 := uadd_eq (by omega)
        have r1 := hi.res1
        have r2 := hi.resle
        exact hi.retype_inv hmL he rfl rfl rfl rfl ⟨_, rfl, hnL⟩ hi.hc hi.ht rfl rfl rfl
          (by simp) (by simp [hty, h1]; omega) (by simp [hty, h2]) (by simp [hty])
          (by simp only [h1, h2]; omega) (by simp only [h1, h2]; omega) hi.testle
      · exact Frame.of_retype hmL rfl rfl
      · left
        exact phi_retype_lt hi.toCore hmL he rfl (by simp [rank, hty, hr2])
      · left
        exact phi_retype_lt hi.toCore hmL he rfl (by simp [rank, hty, hr2])
      · intro a ha
        show tyAt (store s.heap m _) a = _
        rw [tyAt_store hlt]
        by_cases hx : a = m
        · subst hx; rw [tyAt_of_load he, hty] at ha; cases ha
        · simp [hx, ha]
  · -- not a hot page: the hand only advances
    have hsk := dist_skip hi.ring hmL he hty (N := s.heap.length) hi.ring.length_le
    refine ⟨{ s with hand_hot := some e.next }, ?_, ?_, ?_, ?_, ?_, rfl, rfl, rfl, rfl, ?_⟩
    · simp [hand_hot_body, hm, he, hty, Next]
    · exact hi.move_inv rfl rfl rfl rfl rfl rfl rfl ⟨_, rfl, hnL⟩ hi.hc hi.ht
    · exact Frame.here s L |>.comp ⟨fun _ h => h, fun _ _ => rfl, rfl, rfl⟩
    · right
      refine ⟨rfl, rfl, rfl, rfl, le_refl _, le_refl _, ?_⟩
      show dist s.heap ptHot s.heap.length e.next ≤ distO s.heap ptHot s.heap.length s.hand_hot
      rw [hm]; exact hsk.1
    · right
      intro hpos
      show dist s.heap ptHot s.heap.length e.next < distO s.heap ptHot s.heap.length s.hand_hot
      rw [hm]
      apply hsk.2
      apply exists_of_cnt_pos
      rw [← hi.nhot]; exact hpos
    · intro a ha; exact ha

theorem mapFind_erase (m : List (Nat × Nat)) (k0 k : Nat) :
    mapFind (mapErase m k0) k = if k = k0 then none else mapFind m k := by
  induction m with
  | nil => simp [mapErase, mapFind]
  | cons x rest ih =>
    obtain ⟨k1, a⟩ := x
    unfold mapErase at ih ⊢
    by_cases h1 : k1 = k0
    · subst h1
      simp only [List.filter_cons, ne_eq, not_true_eq_false, decide_False, Bool.false_eq_true,
        if_false]
      rw [ih]
      by_cases h2 : k = k1
      · simp [h2]
      · have : ¬ k1 = k := fun hc => h2 hc.symm
        simp [h2, mapFind, this]
    · simp only [List.filter_cons, ne_eq, h1, not_false_eq_true, decide_True, if_true]
      simp only [mapFind]
      rw [ih]
      by_cases h2 : k1 = k
      · subst h2; simp [h1]
      · simp [h2]

theorem relink_ptype (r s n p b : Nat) (e : Entry) : (relink r s n p b e).ptype = e.ptype := rfl
theorem relink_key (r s n p b : Nat) (e : Entry) : (relink r s n p b e).key = e.key := rfl
theorem relink_ref (r s n p b : Nat) (e : Entry) : (relink r s n p b e).ref = e.ref := rfl
theorem relink_val (r s n p b : Nat) (e : Entry) : (relink r s n p b e).val = e.val := rfl

theorem relink_id {r s n p b : Nat} (e : Entry) (h1 : b ≠ p) (h2 : b ≠ r) (h3 : b ≠ n)
    (h4 : b ≠ s) : relink r s n p b e = e := by
  simp [relink, h1, h2, h3, h4]

theorem rank_relink (r s n p b : Nat) (e : Entry) : rank (relink r s n p b e) = rank e := rfl

theorem IsRing.pred_form {h : List (Option Entry)} {L : List Nat} (hr : IsRing h L) {m : Nat}
    (hm : m ∈ L) (h2 : 2 ≤ L.length) :
    ∃ p zs, IsRing h (p :: m :: zs) ∧ L.Perm (p :: m :: zs) := by
  obtain ⟨xs, hrx, hperm⟩ := hr.of_mem hm
  rcases List.eq_nil_or_concat xs with hnil | ⟨ys, p, rfl⟩
  · subst hnil
    have := hperm.length_eq
    simp at this; omega
  · refine ⟨p, ys, ?_, ?_⟩
    · have := @IsRing.rotate _ (m :: ys) [p] (by simpa using hrx)
      simpa using this
    · refine hperm.trans ?_
      have : (m :: ys.concat p).Perm ((m :: ys) ++ [p]) := by simp
      refine this.trans ?_
      exact List.perm_append_comm

theorem meta_del_spec {s : Cache} {L : List Nat} {m : Nat} {e : Entry}
    (hr : IsRing s.heap L) (hm : m ∈ L) (he : load s.heap m = some e) (h2 : 2 ≤ L.length)
    (del : Bool) :
    ∃ s1 L1, meta_del s m del = some s1 ∧ L.Perm (m :: L1) ∧ IsRing s1.heap L1 ∧
      e.next ∈ L1 ∧ e.prev ∈ L1 ∧ m ∉ L1 ∧
      s1.map = mapErase s.map e.key ∧
      s1.hand_hot = (if some m = s.hand_hot then some e.next else s.hand_hot) ∧
      s1.hand_cold = (if some m = s.hand_cold then some e.next else s.hand_cold) ∧
      s1.hand_test = (if some m = s.hand_test then some e.next else s.hand_test) ∧
      s1.capacity = s.capacity ∧ s1.cold_capacity = s.cold_capacity ∧
      s1.count_hot = s.count_hot ∧ s1.count_cold = s.count_cold ∧
      s1.count_test = s.count_test ∧ s1.heap.length = s.heap.length ∧
      (∀ a, a ≠ m → load s1.heap a = (load s.heap a).map (relink e.prev e.next m m a)) ∧
      (load s1.heap m = if del then none else
        some { e with ptype := ptEmpty, ref := false, val := none, next := m, prev := m }) ∧
      Next s1.heap e.prev = some e.next := by
  obtain ⟨p, zs, hring, hperm⟩ := hr.pred_form hm h2
  have hlt := load_lt he
  have hring0 : IsRing (store s.heap m { e with ptype := ptEmpty, ref := false, val := none })
      (p :: m :: zs) := hring.store he rfl rfl
  obtain ⟨h4, ee, hee, hprev, hnext, hun, hlen, hloads, hring4⟩ := hring0.remove
  rw [load_store_same hlt] at hee
  cases hee
  simp only at hprev hnext
  have hnd : (p :: m :: zs).Nodup := hring.nodup
  have hmL1 : m ∉ p :: zs := by
    intro hc
    have h1 := List.nodup_cons.mp hnd
    rcases List.mem_cons.mp hc with h3 | h3
    · subst h3; exact h1.1 (List.mem_cons_self _ _)
    · exact (List.nodup_cons.mp h1.2).1 h3
  have hpm : p ≠ m := fun hc => hmL1 (by rw [hc]; simp)
  have hnextL : e.next ∈ p :: zs := by rw [hnext]; exact headD_concat_mem
  have hloadne : ∀ a, a ≠ m → load h4 a = (load s.heap a).map (relink e.prev e.next m m a) := by
    intro a ha
    rw [hloads a, load_store_ne (fun hc => ha hc.symm), hprev]
  have hloadm : load h4 m =
      some { e with ptype := ptEmpty, ref := false, val := none, next := m, prev := m } := by
    rw [hloads m, load_store_same hlt]
    simp [relink]
  refine ⟨{ s with
      heap := if del then free h4 m else h4
      map := mapErase s.map e.key
      hand_hot := if some m = s.hand_hot then some e.next else s.hand_hot
      hand_cold := if some m = s.hand_cold then some e.next else s.hand_cold
      hand_test := if some m = s.hand_test then some e.next else s.hand_test }, p :: zs,
    ?_, ?_, ?_, hnextL, by rw [hprev]; simp, hmL1, rfl, rfl, rfl, rfl, rfl, rfl, rfl, rfl, rfl,
    ?_, ?_, ?_, ?_⟩
  · have hun2 : Unlink (store s.heap m { e with ptype := ptEmpty, ref := false, val := none })
        e.prev 1 = some (h4, some m) := by
      have hq : Unlink (store s.heap m { e with ptype := ptEmpty, ref := false, val := none })
          e.prev 1 = Unlink (store s.heap m { e with ptype := ptEmpty, ref := false, val := none })
          p 1 := congrArg (fun x => Unlink _ x 1) hprev
      rw [hq]; exact hun
    unfold meta_del
    rw [he]
    simp only
    rw [hun2]
  · exact hperm.trans (List.Perm.swap m p zs)
  · show IsRing (if del then free h4 m else h4) (p :: zs)
    cases del
    · simpa using hring4
    · simpa using hring4.free hmL1
  · show (if del then free h4 m else h4).length = s.heap.length
    cases del <;> simp [length_free, hlen, length_store]
  · intro a ha
    show load (if del then free h4 m else h4) a = _
    cases del
    · simpa using hloadne a ha
    · simp only [if_true]
      rw [load_free_ne (fun hc => ha hc.symm)]
      exact hloadne a ha
  · show load (if del then free h4 m else h4) m = _
    cases del
    · simpa using hloadm
    · simp [load_free_same]
  · show Next (if del then free h4 m else h4) e.prev = some e.next
    have hp : e.prev ≠ m := by rw [hprev]; exact hpm
    have hlp : load h4 e.prev = (load s.heap e.prev).map (relink e.prev e.next m m e.prev) :=
      hloadne _ hp
    obtain ⟨ep, hep, _⟩ := hring.mem_load (List.mem_cons_self p (m :: zs))
    rw [← hprev] at hep
    rw [hep] at hlp
    have hn : Next h4 e.prev = some e.next := by
      simp [Next, hlp, relink, hp]
    cases del
    · simpa using hn
    · simp only [if_true]
      unfold Next at hn ⊢
      rw [load_free_ne (fun hc => hp hc.symm)]
      exact hn

theorem load_relinked {h h1 : List (Option Entry)} {r s n p a : Nat}
    (hl : load h1 a = (load h a).map (relink r s n p a)) :
    tyAt h1 a = tyAt h a ∧ rankAt h1 a = rankAt h a ∧
      (∀ e, load h a = some e → ∃ e1, load h1 a = some e1 ∧ e1.key = e.key ∧
        e1.ptype = e.ptype ∧ e1.ref = e.ref ∧ e1.val = e.val) := by
  unfold tyAt rankAt
  rw [hl]
  cases hq : load h a with
  | none => simp
  | some e =>
    refine ⟨rfl, rfl, ?_⟩
    intro e2 he2
    cases he2
    exact ⟨_, rfl, rfl, rfl, rfl, rfl⟩

theorem Core.delete {s s1 : Cache} {L L1 : List Nat} {X : Nat → Prop} {m : Nat} {e : Entry}
    (hc : Core s L X) (he : load s.heap m = some e) (hty : e.ptype = ptTest)
    (hperm : L.Perm (m :: L1)) (hring : IsRing s1.heap L1)
    (hloads : ∀ a, a ≠ m → load s1.heap a = (load s.heap a).map (relink e.prev e.next m m a))
    (hmap : s1.map = mapErase s.map e.key) (hcap : s1.capacity = s.capacity)
    (hcc1 : 1 ≤ s1.cold_capacity) (hccle : s1.cold_capacity ≤ s1.capacity)
    (h1 : s1.count_hot = s.count_hot) (h2 : s1.count_cold = s.count_cold)
    (h3 : s1.count_test + 1 = s.count_test) :
    Core s1 L1 X ∧ phi s1.heap L1 + 1 = phi s.heap L := by
  have hnd : (m :: L1).Nodup := hperm.nodup_iff.mp hc.ring.nodup
  have hmL1 : m ∉ L1 := (List.nodup_cons.mp hnd).1
  have hne : ∀ a ∈ L1, a ≠ m := fun a ha hc => hmL1 (hc ▸ ha)
  have hsub : ∀ a ∈ L1, a ∈ L := fun a ha => hperm.symm.subset (List.mem_cons_of_mem _ ha)
  have hcnt : ∀ t, cnt s1.heap L1 t + (if ptTest = t then 1 else 0) = cnt s.heap L t := by
    intro t
    rw [cnt_perm t hperm, cnt_cons, tyAt_of_load he, hty]
    have : cnt s1.heap L1 t = cnt s.heap L1 t :=
      cnt_congr t (fun a ha => (load_relinked (hloads a (hne a ha))).1)
    rw [this]
    simp
  have hphi : phi s1.heap L1 + 1 = phi s.heap L := by
    rw [phi_perm hperm, phi_cons]
    have : phi s1.heap L1 = phi s.heap L1 :=
      phi_congr (fun a ha => (load_relinked (hloads a (hne a ha))).2.1)
    have hrk : rankAt s.heap m = 1 := by simp [rankAt, he, rank, hty]
    omega
  refine ⟨⟨hring, ?_, ?_, ?_, ?_, ?_, ?_, hcc1, hccle, ?_, ?_⟩, hphi⟩
  · intro a ha
    rw [(load_relinked (hloads a (hne a ha))).1]
    exact hc.types a (hsub a ha)
  · have := hcnt ptHot; simp at this; rw [h1, hc.nhot]; omega
  · have := hcnt ptCold; simp at this; rw [h2, hc.ncold]; omega
  · have := hcnt ptTest; simp at this; have := hc.ntest; omega
  · rw [hcap]; exact hc.cap3
  · rw [hcap]; exact hc.capS
  · intro k a hka
    rw [hmap, mapFind_erase] at hka
    by_cases hk : k = e.key
    · simp [hk] at hka
    · simp only [hk, if_false] at hka
      obtain ⟨hin, ea, hea, hkey, hnE⟩ := hc.map k a hka
      have ham : a ≠ m := by
        intro hcm; subst hcm
        rw [he] at hea; cases hea
        exact hk hkey.symm
      obtain ⟨e1, he1, hk1, ht1, _, _⟩ := (load_relinked (hloads a ham)).2.2 ea hea
      refine ⟨?_, e1, he1, by rw [hk1, hkey], by rw [ht1]; exact hnE⟩
      rcases hin with hin | hin
      · left
        rcases List.mem_cons.mp (hperm.subset hin) with h5 | h5
        · exact absurd h5 ham
        · exact h5
      · right; exact hin
  · intro a hx hcon
    exact hc.xout a hx (hsub a hcon)

theorem Frame.of_delete {s s1 : Cache} {L L1 : List Nat} {m : Nat} {e : Entry}
    (hperm : L.Perm (m :: L1)) (hn : e.next ∈ L1) (hp : e.prev ∈ L1)
    (hloads : ∀ a, a ≠ m → load s1.heap a = (load s.heap a).map (relink e.prev e.next m m a))
    (hlen : s1.heap.length = s.heap.length) (hcap : s1.capacity = s.capacity) :
    Frame s L s1 L1 := by
  have hsub : ∀ a, a ∈ L1 → a ∈ L := fun a ha => hperm.symm.subset (List.mem_cons_of_mem _ ha)
  refine ⟨hsub, ?_, hlen, hcap⟩
  intro a ha
  have h1 : a ≠ m := fun hc => ha (hperm.symm.subset (by rw [hc]; simp))
  have h2 : a ≠ e.prev := fun hc => ha (hc ▸ hsub _ hp)
  have h3 : a ≠ e.next := fun hc => ha (hc ▸ hsub _ hn)
  rw [hloads a h1]
  cases load s.heap a with
  | none => rfl
  | some x => simp [relink_id x h1 h2 h1 h3]

theorem mem_of_perm_cons_ne {L L1 : List Nat} {m a : Nat} (hperm : L.Perm (m :: L1))
    (ha : a ∈ L) (hne : a ≠ m) : a ∈ L1 := by
  rcases List.mem_cons.mp (hperm.subset ha) with h | h
  · exact absurd h hne
  · exact h

theorem hand_after_del {L L1 : List Nat} {m n : Nat} {o : Option Nat}
    (hperm : L.Perm (m :: L1)) (hn : n ∈ L1) (ho : ∃ a, o = some a ∧ a ∈ L) :
    ∃ a, (if some m = o then some n else o) = some a ∧ a ∈ L1 := by
  obtain ⟨a, rfl, ha⟩ := ho
  by_cases hc : m = a
  · subst hc; exact ⟨n, by simp, hn⟩
  · refine ⟨a, ?_, mem_of_perm_cons_ne hperm ha (fun h => hc h.symm)⟩
    simp [hc]

theorem test_body_spec {s : Cache} {L : List Nat} {X : Nat → Prop} (hi : HInv s L X) :
    ∃ s1 L1, hand_test_body s = some s1 ∧ HInv s1 L1 X ∧ Frame s L s1 L1 ∧ Prog s L s1 L1 ∧
      (phi s1.heap L1 < phi s.heap L ∨
        (1 ≤ s1.count_test → distO s1.heap ptTest s1.heap.length s1.hand_test
          < distO s.heap ptTest s.heap.length s.hand_test)) ∧
      s1.count_hot = s.count_hot ∧ s1.count_cold = s.count_cold ∧
      ((tyO s.heap s.hand_test = some ptTest ∧ s1.count_test + 1 = s.count_test) ∨
       (tyO s.heap s.hand_test ≠ some ptTest ∧ s1.count_test = s.count_test ∧
         s1.hand_cold = s.hand_cold ∧ s1.hand_hot = s.hand_hot ∧ s1.heap = s.heap ∧
         s1.cold_capacity = s.cold_capacity)) := by
  obtain ⟨m, hm, hmL⟩ := hi.ht
  obtain ⟨e, he, hnL, _⟩ := hi.ring.mem_load hmL
  have hb := hi.count_lt
  by_cases hty : e.ptype = ptTest
  · have hpos : 1 ≤ s.count_test := by
      rw [hi.ntest]; exact cnt_pos_of_mem hmL (by rw [tyAt_of_load he, hty])
    have h2 : 2 ≤ L.length := by
      rw [hi.toCore.length_eq]; have := hi.res1; omega
    obtain ⟨c1, L1, hmd, hperm, hring, hn, hp, hmL1, hmap, hhh, hhc, _, hcap, hcc, h1, h2c, h3,
      hlen, hloads, _, hnext⟩ := meta_del_spec hi.ring hmL he h2 true
    have hct : usub c1.count_test 1 = s.count_test - 1 := by
      rw [h3]; exact usub_eq hpos (by omega)
    have hccv : (if 1 < c1.cold_capacity then usub c1.cold_capacity 1 else c1.cold_capacity)
        = if 1 < s.cold_capacity then s.cold_capacity - 1 else s.cold_capacity := by
      rw [hcc]
      by_cases hq : 1 < s.cold_capacity
      · simp only [hq, if_true]
        exact usub_eq (by omega) (by have := hi.ccle; have := hi.capS; omega)
      · simp [hq]
    have hcore := @Core.delete _ { c1 with
        hand_test := some e.next
        count_test := usub c1.count_test 1
        cold_capacity := if 1 < c1.cold_capacity then usub c1.cold_capacity 1
                         else c1.cold_capacity } _ _ _ _ _ hi.toCore he hty hperm hring hloads hmap hcap
      (by show 1 ≤ (if 1 < c1.cold_capacity then usub c1.cold_capacity 1 else c1.cold_capacity)
          rw [hccv]; have := hi.cc1; split <;> omega)
      (by show (if 1 < c1.cold_capacity then usub c1.cold_capacity 1 else c1.cold_capacity)
            ≤ c1.capacity
          rw [hccv, hcap]; have := hi.ccle; split <;> omega)
      h1 h2c (by show usub c1.count_test 1 + 1 = s.count_test; rw [hct]; omega)
    refine ⟨_, L1, ?_, ⟨hcore.1, ?_, ?_, ⟨_, rfl, hn⟩, ?_, ?_, ?_, ?_⟩, ?_, ?_, ?_, h1, h2c, ?_⟩
    · simp [hand_test_body, hm, he, hty, hmd, hnext]
    · show ∃ a, c1.hand_hot = some a ∧ a ∈ L1
      rw [hhh]; exact hand_after_del hperm hn hi.hh
    · show ∃ a, c1.hand_cold = some a ∧ a ∈ L1
      rw [hhc]; exact hand_after_del hperm hn hi.hc
    · show 1 ≤ c1.count_hot + c1.count_cold
      rw [h1, h2c]; exact hi.res1
    · show c1.count_hot + c1.count_cold ≤ c1.capacity
      rw [h1, h2c, hcap]; exact hi.resle
    · show usub c1.count_test 1 ≤ c1.capacity + 1
      rw [hct, hcap]; have := hi.testle; omega
    · show (if 1 < c1.cold_capacity then usub c1.cold_capacity 1 else c1.cold_capacity)
          = c1.capacity → 2 ≤ L1.length
      rw [hccv, hcap]
      intro hq
      have := hi.ccle; have := hi.cap3; have := hi.cc1
      split at hq <;> omega
    · exact Frame.of_delete hperm hn hp hloads hlen hcap
    · left
      have hphi : phi c1.heap L1 + 1 = phi s.heap L := hcore.2
      show phi c1.heap L1 < phi s.heap L
      omega
    · left
      have hphi : phi c1.heap L1 + 1 = phi s.heap L := hcore.2
      show phi c1.heap L1 < phi s.heap L
      omega
    · left
      refine ⟨?_, ?_⟩
      · rw [hm]; show tyAt s.heap m = _; rw [tyAt_of_load he, hty]
      · show usub c1.count_test 1 + 1 = s.count_test
        rw [hct]; omega
  · have hsk := dist_skip hi.ring hmL he hty (N := s.heap.length) hi.ring.length_le
    refine ⟨{ s with hand_test := some e.next }, L, ?_, ?_, ?_, ?_, ?_, rfl, rfl, ?_⟩
    · simp [hand_test_body, hm, he, hty, Next]
    · exact hi.move_inv rfl rfl rfl rfl rfl rfl rfl hi.hh hi.hc ⟨_, rfl, hnL⟩
    · exact ⟨fun _ h => h, fun _ _ => rfl, rfl, rfl⟩
    · right
      refine ⟨rfl, rfl, rfl, rfl, le_refl _, ?_, le_refl _⟩
      show dist s.heap ptTest s.heap.length e.next ≤ distO s.heap ptTest s.heap.length s.hand_test
      rw [hm]; exact hsk.1
    · right
      intro hpos
      show dist s.heap ptTest s.heap.length e.next < distO s.heap ptTest s.heap.length s.hand_test
      rw [hm]
      apply hsk.2
      apply exists_of_cnt_pos
      rw [← hi.ntest]; exact hpos
    · right
      refine ⟨?_, rfl, rfl, rfl, rfl, rfl⟩
      rw [hm]; show tyAt s.heap m ≠ _
      rw [tyAt_of_load he]
      intro hc; exact hty (Option.some.inj hc)

theorem cold_promote_spec {s : Cache} {L : List Nat} {X : Nat → Prop} {m : Nat} {e : Entry}
    (hi : HInv s L X) (hmL : m ∈ L) (he : load s.heap m = some e)
    (hty : e.ptype = ptCold) (hr : e.ref = true) :
    HInv (cold_promote s m e) L X ∧ Frame s L (cold_promote s m e) L ∧
      phi (cold_promote s m e).heap L < phi s.heap L := by
  have hb := hi.count_lt
  have hpos : 1 ≤ s.count_cold := by
    rw [hi.ncold]; exact cnt_pos_of_mem hmL (by rw [tyAt_of_load he, hty])
  have h1 : usub s.count_cold 1 = s.count_cold - 1 := usub_eq hpos hb.2.1
  have h2 : uadd s.count_hot 1 = s.count_hot + 1 := uadd_eq (by omega)
  have r1 := hi.res1
  have r2 := hi.resle
  refine ⟨?_, Frame.of_retype hmL rfl rfl, ?_⟩
  · exact @HInv.retype_inv _ (cold_promote s m e) _ _ _ _ _ hi hmL he rfl rfl rfl rfl hi.hh hi.hc hi.ht
      rfl rfl rfl (by simp)
      (by simp [cold_promote, hty, h2]) (by simp [cold_promote, hty, h1]; omega)
      (by simp [cold_promote, hty])
      (by simp only [cold_promote, h1, h2]; omega) (by simp only [cold_promote, h1, h2]; omega)
      hi.testle
  · exact @phi_retype_lt _ (cold_promote s m e) _ _ _ _ _ hi.toCore hmL he rfl
      (by simp [rank, hty, hr])

theorem cold_demote_spec {s : Cache} {L : List Nat} {X : Nat → Prop} {m : Nat} {e : Entry}
    (hi : HInv s L X) (hmL : m ∈ L) (he : load s.heap m = some e)
    (hty : e.ptype = ptCold) (hr : e.ref = false)
    (hres : 2 ≤ s.count_hot + s.count_cold) (htest : s.count_test ≤ s.capacity) :
    HInv (cold_demote s m e) L X ∧ Frame s L (cold_demote s m e) L ∧
      phi (cold_demote s m e).heap L < phi s.heap L ∧
      tyAt (cold_demote s m e).heap m = some ptTest := by
  have hb := hi.count_lt
  have hcs := hi.capS
  have hpos : 1 ≤ s.count_cold := by
    rw [hi.ncold]; exact cnt_pos_of_mem hmL (by rw [tyAt_of_load he, hty])
  have h1 : usub s.count_cold 1 = s.count_cold - 1 := usub_eq hpos hb.2.1
  have h2 : uadd s.count_test 1 = s.count_test + 1 := uadd_eq (by omega)
  have r2 := hi.resle
  refine ⟨?_, Frame.of_retype hmL rfl rfl, ?_, ?_⟩
  · exact @HInv.retype_inv _ (cold_demote s m e) _ _ _ _ _ hi hmL he rfl rfl rfl rfl hi.hh hi.hc hi.ht
      rfl rfl rfl (by simp)
      (by simp [cold_demote, hty]) (by simp [cold_demote, hty, h1]; omega)
      (by simp [cold_demote, hty, h2])
      (by simp only [cold_demote, h1]; omega) (by simp only [cold_demote, h1]; omega)
      (by simp only [cold_demote, h2]; omega)
  · exact @phi_retype_lt _ (cold_demote s m e) _ _ _ _ _ hi.toCore hmL he rfl
      (by simp [rank, hty, hr])
  · show tyAt (store s.heap m _) m = _
    rw [tyAt_store (load_lt he)]; simp

theorem cold_advance_spec {s : Cache} {L : List Nat} {X : Nat → Prop} (hi : HInv s L X) :
    ∃ m e, s.hand_cold = some m ∧ m ∈ L ∧ load s.heap m = some e ∧
      cold_advance s = some { s with hand_cold := some e.next } ∧
      HInv { s with hand_cold := some e.next } L X ∧
      (e.ptype ≠ ptCold →
        dist s.heap ptCold s.heap.length e.next ≤ dist s.heap ptCold s.heap.length m ∧
        (1 ≤ s.count_cold →
          dist s.heap ptCold s.heap.length e.next < dist s.heap ptCold s.heap.length m)) := by
  obtain ⟨m, hm, hmL⟩ := hi.hc
  obtain ⟨e, he, hnL, _⟩ := hi.ring.mem_load hmL
  refine ⟨m, e, hm, hmL, he, ?_, ?_, ?_⟩
  · simp [cold_advance, hm, Next, he]
  · exact hi.move_inv rfl rfl rfl rfl rfl rfl rfl hi.hh ⟨_, rfl, hnL⟩ hi.ht
  · intro hty
    have hsk := dist_skip hi.ring hmL he hty (N := s.heap.length) hi.ring.length_le
    refine ⟨hsk.1, fun hpos => hsk.2 ?_⟩
    apply exists_of_cnt_pos
    rw [← hi.ncold]; exact hpos

theorem next_ne_self {h : List (Option Entry)} {L : List Nat} (hr : IsRing h L) {a : Nat}
    (ha : a ∈ L) (h2 : 2 ≤ L.length) {e : Entry} (he : load h a = some e) : e.next ≠ a := by
  obtain ⟨xs, hrx, hperm⟩ := hr.of_mem ha
  obtain ⟨⟨e1, he1, hn⟩, _⟩ := hrx.head_adj
  rw [he] at he1; cases he1
  cases xs with
  | nil =>
    have := hperm.length_eq
    simp at this; omega
  | cons y ys =>
    simp only [List.cons_append, List.headD_cons] at hn
    rw [hn]
    intro hc
    have := hrx.nodup
    simp [hc] at this

theorem two_of_HC {s : Cache} {L : List Nat} {X : Nat → Prop} (hi : HInv s L X) (hc : HC s) :
    2 ≤ L.length ∧ 1 ≤ s.count_hot := by
  rw [HC_iff hi.toCore] at hc
  have hl := hi.toCore.length_eq
  have htwo := hi.two
  have hle := hi.ccle
  by_cases hq : s.cold_capacity = s.capacity
  · exact ⟨htwo hq, by omega⟩
  · omega

theorem LexLt.of_phi {k k1 : Kind} {s s1 : Cache} {L L1 : List Nat}
    (h : phi s1.heap L1 < phi s.heap L) : LexLt (meas k1 s1 L1) (meas k s L) :=
  Or.inl h

theorem LexLt.of_ord {k k1 : Kind} {s : Cache} {L : List Nat}
    (h : ordK k1 s < ordK k s) : LexLt (meas k1 s L) (meas k s L) :=
  Or.inr ⟨rfl, Or.inr ⟨rfl, h⟩⟩

theorem LexLt.of_dist {k k1 : Kind} {s s1 : Cache} {L L1 : List Nat}
    (h1 : phi s1.heap L1 ≤ phi s.heap L) (h2 : handDist s1 < handDist s) :
    LexLt (meas k1 s1 L1) (meas k s L) := by
  unfold LexLt meas
  simp only
  omega

theorem Prog.phi_le {s s1 : Cache} {L L1 : List Nat} (h : Prog s L s1 L1) :
    phi s1.heap L1 ≤ phi s.heap L := by
  unfold Prog at h; omega

theorem not_Ex_of_le {s : Cache} (h : s.count_test ≤ s.capacity) : ¬ Ex s := by
  unfold Ex; omega

theorem lexlt_of_prog {k k1 : Kind} {s s1 : Cache} {L L1 : List Nat} (hpg : Prog s L s1 L1)
    (hst : phi s1.heap L1 < phi s.heap L ∨
      distO s1.heap ptCold s1.heap.length s1.hand_cold
        < distO s.heap ptCold s.heap.length s.hand_cold ∨
      distO s1.heap ptTest s1.heap.length s1.hand_test
        < distO s.heap ptTest s.heap.length s.hand_test ∨
      distO s1.heap ptHot s1.heap.length s1.hand_hot
        < distO s.heap ptHot s.heap.length s.hand_hot) :
    LexLt (meas k1 s1 L1) (meas k s L) := by
  unfold LexLt meas handDist
  unfold Prog at hpg
  simp only
  omega

theorem TL_case {X : Nat → Prop} {s : Cache} {L : List Nat} (hi : HInv s L X)
    (hpre : preK Kind.TL s L) (call : Callable X (meas Kind.TL s L)) : Res X Kind.TL s L := by
  by_cases hc : s.capacity < s.count_test
  · have hEx : Ex s := by unfold Ex; have := hi.testle; omega
    have hB : tyO s.heap s.hand_cold = some ptTest := hpre hEx
    have h2 : 2 ≤ L.length := by
      rw [hi.toCore.length_eq]; unfold Ex at hEx; have := hi.cap3; omega
    obtain ⟨f1, s1, L1, hrun1, hi1, hfr1, hpg1, hpost1⟩ := call Kind.RT s L hi
      ⟨fun _ => Or.inr hB, fun _ => (by unfold Rq; rw [hB]; intro h; cases h), h2⟩
      (LexLt.of_ord (by simp only [ordK]; split <;> omega))
    obtain ⟨hB1, _, hstrict⟩ := hpost1
    have hlt : LexLt (meas Kind.TL s1 L1) (meas Kind.TL s L) := by
      apply lexlt_of_prog hpg1
      rcases hstrict with h | h
      · exact Or.inl h
      · rcases hpg1 with h3 | ⟨_, _, _, h4, _⟩
        · exact Or.inl h3
        · exact Or.inr (Or.inr (Or.inl (h (by omega))))
    obtain ⟨f2, s2, L2, hrun2, hi2, hfr2, hpg2, hpost2⟩ := call Kind.TL s1 L1 hi1 hB1 hlt
    refine ⟨max f1 f2 + 1, s2, L2, ?_, hi2, hfr1.comp hfr2, hpg1.seq hpg2, hpost2⟩
    show cold_test_loop (max f1 f2 + 1) s = some s2
    rw [cold_test_loop_succ]
    simp only [hc, if_true]
    have e1 : run_hand_test (max f1 f2) s = some s1 :=
      runK_mono Kind.RT (le_max_left _ _) hrun1
    rw [e1]
    exact runK_mono Kind.TL (le_max_right _ _) hrun2
  · refine ⟨1, s, L, ?_, hi, Frame.here _ _, Prog.stay _ _, ?_⟩
    · show cold_test_loop 1 s = some s
      rw [cold_test_loop_succ]; simp [hc]
    · exact ⟨not_Ex_of_le (by omega), by omega⟩

theorem HL_case {X : Nat → Prop} {s : Cache} {L : List Nat} (hi : HInv s L X)
    (hpre : preK Kind.HL s L) (call : Callable X (meas Kind.HL s L)) : Res X Kind.HL s L := by
  by_cases hc : usub s.capacity s.cold_capacity < s.count_hot
  · have hHC : HC s := hc
    obtain ⟨h2, hpos⟩ := two_of_HC hi hHC
    obtain ⟨f1, s1, L1, hrun1, hi1, hfr1, hpg1, hpost1⟩ := call Kind.RH s L hi
      ⟨hpre, h2, hpos⟩ (LexLt.of_ord (by simp only [ordK]; split <;> omega))
    obtain ⟨hA1, hE1, hstrict⟩ := hpost1
    have hlt : LexLt (meas Kind.HL s1 L1) (meas Kind.HL s L) := by
      apply lexlt_of_prog hpg1
      rcases hstrict with h | h
      · exact Or.inl h
      · rcases hpg1 with h3 | ⟨_, h4, _, _, _⟩
        · exact Or.inl h3
        · exact Or.inr (Or.inr (Or.inr (h (by omega))))
    obtain ⟨f2, s2, L2, hrun2, hi2, hfr2, hpg2, hpost2⟩ := call Kind.HL s1 L1 hi1 hA1 hlt
    obtain ⟨hA2, hE2, hH2⟩ := hpost2
    refine ⟨max f1 f2 + 1, s2, L2, ?_, hi2, hfr1.comp hfr2, hpg1.seq hpg2,
      hA2, fun h => hE2 (hE1 h), hH2⟩
    show cold_hot_loop (max f1 f2 + 1) s = some s2
    rw [cold_hot_loop_succ]
    simp only [hc, if_true]
    have e1 : run_hand_hot (max f1 f2) s = some s1 :=
      runK_mono Kind.RH (le_max_left _ _) hrun1
    rw [e1]
    exact runK_mono Kind.HL (le_max_right _ _) hrun2
  · refine ⟨1, s, L, ?_, hi, Frame.here _ _, Prog.stay _ _, hpre, fun h => h, hc⟩
    show cold_hot_loop 1 s = some s
    rw [cold_hot_loop_succ]; simp [hc]

theorem EV_case {X : Nat → Prop} {s : Cache} {L : List Nat} (hi : HInv s L X)
    (hpre : preK Kind.EV s L) (call : Callable X (meas Kind.EV s L)) : Res X Kind.EV s L := by
  have hb := hi.count_lt
  have hadd : uadd s.count_hot s.count_cold = s.count_hot + s.count_cold :=
    uadd_eq (by omega)
  by_cases hc : s.capacity ≤ uadd s.count_hot s.count_cold
  · have hres : s.capacity ≤ s.count_hot + s.count_cold := by rw [← hadd]; exact hc
    have hcap := hi.cap3
    have h2 : 2 ≤ L.length := by rw [hi.toCore.length_eq]; omega
    obtain ⟨f1, s1, L1, hrun1, hi1, hfr1, hpg1, hpost1⟩ := call Kind.RC s L hi
      ⟨fun h => absurd h hpre, fun _ => by omega, h2⟩
      (LexLt.of_ord (by simp only [ordK]; split <;> omega))
    obtain ⟨_, hE1, hH1, hstrict⟩ := hpost1
    have hE1' : ¬ Ex s1 := hE1 hpre
    by_cases hc1 : s1.capacity ≤ s1.count_hot + s1.count_cold
    · have hlt : LexLt (meas Kind.EV s1 L1) (meas Kind.EV s L) := by
        apply lexlt_of_prog hpg1
        rcases hstrict with h | h
        · exact Or.inl h
        · rcases hpg1 with h3 | ⟨_, h4, h5, _, _⟩
          · exact Or.inl h3
          · refine Or.inr (Or.inl (h ?_))
            rw [HC_iff hi1.toCore] at hH1
            have := hi1.cc1
            omega
      obtain ⟨f2, s2, L2, hrun2, hi2, hfr2, hpg2, hpost2⟩ := call Kind.EV s1 L1 hi1 hE1' hlt
      refine ⟨max f1 f2 + 1, s2, L2, ?_, hi2, hfr1.comp hfr2, hpg1.seq hpg2, hpost2⟩
      show evict (max f1 f2 + 1) s = some s2
      rw [evict_succ]
      simp only [hc, if_true]
      have e1 : run_hand_cold (max f1 f2) s = some s1 :=
        runK_mono Kind.RC (le_max_left _ _) hrun1
      rw [e1]
      exact runK_mono Kind.EV (le_max_right _ _) hrun2
    · have hb1 := hi1.count_lt
      have hadd1 : uadd s1.count_hot s1.count_cold = s1.count_hot + s1.count_cold :=
        uadd_eq (by omega)
      refine ⟨f1 + 1 + 1, s1, L1, ?_, hi1, hfr1, hpg1, hE1', by omega⟩
      show evict (f1 + 1 + 1) s = some s1
      rw [evict_succ]
      simp only [hc, if_true]
      have e1 : run_hand_cold (f1 + 1) s = some s1 :=
        runK_mono Kind.RC (Nat.le_succ _) hrun1
      rw [e1]
      show evict (f1 + 1) s1 = some s1
      rw [evict_succ, hadd1]
      simp [hc1]
  · refine ⟨1, s, L, ?_, hi, Frame.here _ _, Prog.stay _ _, hpre, by omega⟩
    show evict 1 s = some s
    rw [evict_succ]; simp [hc]

theorem Rq_of_hot {s : Cache} {L : List Nat} {X : Nat → Prop} (hi : HInv s L X)
    (hpos : 1 ≤ s.count_hot) : Rq s := by
  intro hty
  obtain ⟨a, ha, haL⟩ := hi.hc
  rw [ha] at hty
  have : 1 ≤ s.count_cold := by
    rw [hi.ncold]; exact cnt_pos_of_mem haL hty
  omega

theorem Ex_congr {s s1 : Cache} (h1 : s1.count_test = s.count_test)
    (h2 : s1.capacity = s.capacity) : Ex s1 ↔ Ex s := by
  unfold Ex; rw [h1, h2]

theorem RH_case {X : Nat → Prop} {s : Cache} {L : List Nat} (hi : HInv s L X)
    (hpre : preK Kind.RH s L) (call : Callable X (meas Kind.RH s L)) : Res X Kind.RH s L := by
  obtain ⟨hA, h2, hpos⟩ := hpre
  by_cases hc : s.hand_hot = s.hand_test
  · obtain ⟨f1, s1, L1, hrun1, hi1, hfr1, hpg1, hpost1⟩ := call Kind.RT s L hi
      ⟨fun h => Or.inl (hA h), fun _ => Rq_of_hot hi hpos, h2⟩
      (LexLt.of_ord (by simp only [ordK]; split <;> omega))
    obtain ⟨_, hE1, _⟩ := hpost1
    have hnE1 : ¬ Ex s1 := hE1 hA
    obtain ⟨s2, hbody, hi2, hfr2, hpg2, hst2, hct, _, _, _, _⟩ := hot_body_spec hi1
    have hnE2 : ¬ Ex s2 := fun h => hnE1 ((Ex_congr hct hfr2.cap).mp h)
    refine ⟨f1 + 1, s2, L1, ?_, hi2, hfr1.comp hfr2, hpg1.seq hpg2,
      fun h => absurd h hnE2, fun _ => hnE2, ?_⟩
    · show run_hand_hot (f1 + 1) s = some s2
      rw [run_hand_hot_succ]
      simp only [hc, if_true]
      have e1 : run_hand_test f1 s = some s1 := hrun1
      rw [e1]
      exact hbody
    · rcases hst2 with h | h
      · left; have := hpg1.phi_le; omega
      · rcases hpg1 with h3 | ⟨h3, _, _, _, _, _, h9⟩
        · left; have := hpg2.phi_le; omega
        · right; intro hp; have := h hp; omega
  · obtain ⟨s2, hbody, hi2, hfr2, hpg2, hst2, hct, hht, _, _, hty⟩ := hot_body_spec hi
    have hEx : Ex s2 ↔ Ex s := Ex_congr hct hfr2.cap
    refine ⟨1, s2, L, ?_, hi2, hfr2, hpg2, ?_, fun h h1 => h (hEx.mp h1), hst2⟩
    · show run_hand_hot (0 + 1) s = some s2
      rw [run_hand_hot_succ]
      simp only [hc, if_false]
      exact hbody
    · intro h
      have h1 := hA (hEx.mp h)
      rw [hht]
      cases hq : s.hand_test with
      | none => rw [hq] at h1; cases h1
      | some a => rw [hq] at h1; exact hty a h1

theorem RT_case {X : Nat → Prop} {s : Cache} {L : List Nat} (hi : HInv s L X)
    (hpre : preK Kind.RT s L) (call : Callable X (meas Kind.RT s L)) : Res X Kind.RT s L := by
  obtain ⟨hM, hRq, h2⟩ := hpre
  by_cases hc : s.hand_test = s.hand_cold
  · have hord : ordK Kind.RC s < ordK Kind.RT s := by
      obtain ⟨a, ha, haL⟩ := hi.hc
      obtain ⟨e, he, _⟩ := hi.ring.mem_load haL
      have hne := next_ne_self hi.ring haL h2 he
      simp only [ordK, hc, if_true]
      rw [ha]
      simp only [Option.some_bind, Next_of_load he, Option.some.injEq, hne, if_false]
      omega
    obtain ⟨f1, s1, L1, hrun1, hi1, hfr1, hpg1, hpost1⟩ := call Kind.RC s L hi
      ⟨fun h => ⟨hc, by
          rcases hM h with h1 | h1
          · rw [← hc]; exact h1
          · exact h1⟩, hRq hc, h2⟩
      (LexLt.of_ord hord)
    obtain ⟨hA1, _, _, _⟩ := hpost1
    obtain ⟨s2, L2, hbody, hi2, hfr2, hpg2, hst2, _, _, hcase⟩ := test_body_spec hi1
    have hnE2 : ¬ Ex s2 := by
      rcases hcase with ⟨_, h4⟩ | ⟨h3, h4, _⟩
      · have := hi1.testle
        have := hfr2.cap
        unfold Ex; omega
      · intro h
        exact h3 (hA1 ((Ex_congr h4 hfr2.cap).mp h))
    refine ⟨f1 + 1, s2, L2, ?_, hi2, hfr1.comp hfr2, hpg1.seq hpg2,
      fun h => absurd h hnE2, fun _ => hnE2, ?_⟩
    · show run_hand_test (f1 + 1) s = some s2
      rw [run_hand_test_succ]
      simp only [hc, if_true]
      have e1 : run_hand_cold f1 s = some s1 := hrun1
      rw [e1]
      exact hbody
    · rcases hst2 with h | h
      · left; have := hpg1.phi_le; omega
      · rcases hpg1 with h3 | ⟨h3, _, _, _, _, h8, _⟩
        · left; have := hpg2.phi_le; omega
        · right; intro hp; have := h hp; omega
  · obtain ⟨s2, L2, hbody, hi2, hfr2, hpg2, hst2, _, _, hcase⟩ := test_body_spec hi
    refine ⟨1, s2, L2, ?_, hi2, hfr2, hpg2, ?_, ?_, hst2⟩
    · show run_hand_test (0 + 1) s = some s2
      rw [run_hand_test_succ]
      simp only [hc, if_false]
      exact hbody
    · intro hEx2
      rcases hcase with ⟨_, h4⟩ | ⟨h3, h4, h5, _, h7, _⟩
      · exfalso
        have := hi.testle
        have := hfr2.cap
        unfold Ex at hEx2; omega
      · have hEx : Ex s := (Ex_congr h4 hfr2.cap).mp hEx2
        rcases hM hEx with h1 | h1
        · exact absurd h1 h3
        · rw [h7, h5]; exact h1
    · intro hA hEx2
      rcases hcase with ⟨_, h4⟩ | ⟨h3, h4, _⟩
      · have := hi.testle
        have := hfr2.cap
        unfold Ex at hEx2; omega
      · exact h3 (hA ((Ex_congr h4 hfr2.cap).mp hEx2))

theorem Frame.hands {s s1 : Cache} {L : List Nat} (h1 : s1.heap = s.heap)
    (h2 : s1.capacity = s.capacity) : Frame s L s1 L :=
  ⟨fun _ h => h, fun _ _ => by rw [h1], by rw [h1], h2⟩

theorem RC_case {X : Nat → Prop} {s : Cache} {L : List Nat} (hi : HInv s L X)
    (hpre : preK Kind.RC s L) (call : Callable X (meas Kind.RC s L)) : Res X Kind.RC s L := by
  obtain ⟨hE, hRq, h2⟩ := hpre
  obtain ⟨m, hm, hmL⟩ := hi.hc
  obtain ⟨e, he, hnL, _⟩ := hi.ring.mem_load hmL
  have htym : tyO s.heap s.hand_cold = some e.ptype := by
    rw [hm]; exact tyAt_of_load he
  by_cases hty : e.ptype = ptCold
  · have hnEx : ¬ Ex s := by
      intro h
      have := (hE h).2
      rw [htym, hty] at this
      cases this
    by_cases hr : e.ref = true
    · -- a referenced cold page is promoted
      obtain ⟨hi1, hfr1, hphi1⟩ := cold_promote_spec hi hmL he hty hr
      obtain ⟨m1, e1, _, _, _, hadv, hi2, _⟩ := cold_advance_spec hi1
      have hnE2 : ¬ Ex { cold_promote s m e with hand_cold := some e1.next } := hnEx
      obtain ⟨f, s3, L3, hrun, hi3, hfr3, hpg3, hA3, hE3, hH3⟩ :=
        call Kind.HL _ L hi2 (fun h => absurd h hnE2) (LexLt.of_phi hphi1)
      have hphi3 : phi s3.heap L3 < phi s.heap L := by
        have h4 : phi s3.heap L3 ≤ phi (cold_promote s m e).heap L := hpg3.phi_le
        omega
      have hfr2 : Frame (cold_promote s m e) L
          { cold_promote s m e with hand_cold := some e1.next } L := Frame.hands rfl rfl
      refine ⟨f + 1, s3, L3, ?_, hi3, (hfr1.comp hfr2).comp hfr3,
        Or.inl hphi3, hA3, fun _ => hE3 hnE2, hH3, Or.inl hphi3⟩
      show run_hand_cold (f + 1) s = some s3
      rw [run_hand_cold_succ]
      simp only [hm, he, hty, hr, if_true]
      rw [hadv]
      exact hrun
    · -- an unreferenced cold page becomes a test page
      have hr2 : e.ref = false := by simpa using hr
      have hres : 2 ≤ s.count_hot + s.count_cold := hRq (by rw [htym, hty])
      have htest : s.count_test ≤ s.capacity := by
        have := hi.testle; unfold Ex at hnEx; omega
      obtain ⟨hi1, hfr1, hphi1, hty1⟩ := cold_demote_spec hi hmL he hty hr2 hres htest
      have hB1 : ModeB (cold_demote s m e) := by
        intro _
        show tyO (cold_demote s m e).heap s.hand_cold = some ptTest
        rw [hm]; exact hty1
      obtain ⟨f1, s1, L1, hrun1, hi1', hfr1', hpg1', hnE1, _⟩ :=
        call Kind.TL _ L hi1 hB1 (LexLt.of_phi hphi1)
      obtain ⟨m2, e2, _, _, _, hadv, hi2, _⟩ := cold_advance_spec hi1'
      have hnE2 : ¬ Ex { s1 with hand_cold := some e2.next } := hnE1
      have hphi2 : phi s1.heap L1 < phi s.heap L := by
        have h4 : phi s1.heap L1 ≤ phi (cold_demote s m e).heap L := hpg1'.phi_le
        omega
      obtain ⟨f2, s3, L3, hrun2, hi3, hfr3, hpg3, hA3, hE3, hH3⟩ :=
        call Kind.HL _ L1 hi2 (fun h => absurd h hnE2) (LexLt.of_phi hphi2)
      have hphi3 : phi s3.heap L3 < phi s.heap L := by
        have h4 : phi s3.heap L3 ≤ phi s1.heap L1 := hpg3.phi_le
        omega
      have hfr2 : Frame s1 L1 { s1 with hand_cold := some e2.next } L1 := Frame.hands rfl rfl
      refine ⟨max f1 f2 + 1, s3, L3, ?_, hi3,
        ((hfr1.comp hfr1').comp hfr2).comp hfr3,
        Or.inl hphi3, hA3, fun _ => hE3 hnE2, hH3, Or.inl hphi3⟩
      show run_hand_cold (max f1 f2 + 1) s = some s3
      rw [run_hand_cold_succ]
      simp only [hm, he, hty, hr, if_true, if_false]
      have e1 : cold_test_loop (max f1 f2) (cold_demote s m e) = some s1 :=
        runK_mono Kind.TL (le_max_left _ _) hrun1
      rw [e1]
      show (match cold_advance s1 with
        | none => none
        | some c2 => cold_hot_loop (max f1 f2) c2) = some s3
      rw [hadv]
      exact runK_mono Kind.HL (le_max_right _ _) hrun2
  · -- the cold hand is not on a cold page: it only advances
    obtain ⟨m1, e1, hm1, _, he1, hadv, hi2, hdist⟩ := cold_advance_spec hi
    rw [hm] at hm1; cases hm1
    rw [he] at he1; cases he1
    obtain ⟨hd1, hd2⟩ := hdist hty
    have hA2 : ModeA { s with hand_cold := some e.next } := by
      intro hEx
      obtain ⟨hht, hT⟩ := hE hEx
      show tyO s.heap s.hand_test = some ptTest
      rw [hht]; exact hT
    have hdC : distO s.heap ptCold s.heap.length (some e.next)
        ≤ distO s.heap ptCold s.heap.length s.hand_cold := by
      rw [hm]; exact hd1
    have hdC2 : 1 ≤ s.count_cold → distO s.heap ptCold s.heap.length (some e.next)
        < distO s.heap ptCold s.heap.length s.hand_cold := by
      rw [hm]; exact hd2
    have hpg2 : Prog s L { s with hand_cold := some e.next } L :=
      Or.inr ⟨rfl, rfl, rfl, rfl, hdC, le_refl _, le_refl _⟩
    have hord : ordK Kind.HL { s with hand_cold := some e.next } < ordK Kind.RC s := by
      simp only [ordK]
      rw [hm]
      simp only [Option.some_bind, Next_of_load he]
      by_cases hq : s.hand_test = some e.next
      · simp [hq]
      · have hq2 : ¬ some e.next = s.hand_test := fun h => hq h.symm
        simp [hq, hq2]
    have hlt : LexLt (meas Kind.HL { s with hand_cold := some e.next } L)
        (meas Kind.RC s L) := by
      have hd : handDist { s with hand_cold := some e.next } ≤ handDist s := by
        show distO s.heap ptCold s.heap.length (some e.next)
            + distO s.heap ptTest s.heap.length s.hand_test
            + distO s.heap ptHot s.heap.length s.hand_hot
          ≤ distO s.heap ptCold s.heap.length s.hand_cold
            + distO s.heap ptTest s.heap.length s.hand_test
            + distO s.heap ptHot s.heap.length s.hand_hot
        omega
      rcases Nat.lt_or_eq_of_le hd with h | h
      · exact Or.inr ⟨rfl, Or.inl h⟩
      · exact Or.inr ⟨rfl, Or.inr ⟨h, hord⟩⟩
    obtain ⟨f, s3, L3, hrun, hi3, hfr3, hpg3, hA3, hE3, hH3⟩ :=
      call Kind.HL _ L hi2 hA2 hlt
    have hfr2 : Frame s L { s with hand_cold := some e.next } L := Frame.hands rfl rfl
    refine ⟨f + 1, s3, L3, ?_, hi3, hfr2.comp hfr3, hpg2.seq hpg3,
      hA3, fun h => hE3 h, hH3, ?_⟩
    · show run_hand_cold (f + 1) s = some s3
      rw [run_hand_cold_succ]
      simp only [hm, he, hty, if_false]
      rw [hadv]
      exact hrun
    · rcases hpg3 with h3 | ⟨_, _, h5, _, h7, _, _⟩
      · left; exact h3
      · right
        intro hp
        have h8 : s3.count_cold = s.count_cold := h5
        have h9 := hdC2 (by omega)
        have h10 : distO s3.heap ptCold s3.heap.length s3.hand_cold
            ≤ distO s.heap ptCold s.heap.length (some e.next) := h7
        omega

theorem total_aux (X : Nat → Prop) :
    ∀ (n1 n2 n3 : Nat) (k : Kind) (s : Cache) (L : List Nat), HInv s L X → preK k s L →
      meas k s L = (n1, n2, n3) → Res X k s L := by
  intro n1
  induction n1 using Nat.strong_induction_on with
  | _ n1 ih1 =>
    intro n2
    induction n2 using Nat.strong_induction_on with
    | _ n2 ih2 =>
      intro n3
      induction n3 using Nat.strong_induction_on with
      | _ n3 ih3 =>
        intro k s L hi hpre hm
        have call : Callable X (meas k s L) := by
          intro k1 s1 L1 hi1 hpre1 hlt
          rw [hm] at hlt
          rcases hlt with h | ⟨h1, h | ⟨h2, h3⟩⟩
          · exact ih1 _ h _ _ k1 s1 L1 hi1 hpre1 rfl
          · exact ih2 _ h (ordK k1 s1) k1 s1 L1 hi1 hpre1 (by
              have : phi s1.heap L1 = n1 := h1
              simp only [meas, this])
          · exact ih3 _ h3 k1 s1 L1 hi1 hpre1 (by
              have e1 : phi s1.heap L1 = n1 := h1
              have e2 : handDist s1 = n2 := h2
              simp only [meas, e1, e2])
        cases k
        · exact RC_case hi hpre call
        · exact TL_case hi hpre call
        · exact HL_case hi hpre call
        · exact RH_case hi hpre call
        · exact RT_case hi hpre call
        · exact EV_case hi hpre call

/-- Total correctness of the engine's routines: every call made in a state that
satisfies the invariant and the routine's precondition returns, given enough
fuel, in a state that satisfies the invariant and the routine's guarantee. -/
theorem engine_total {X : Nat → Prop} (k : Kind) {s : Cache} {L : List Nat}
    (hi : HInv s L X) (hpre : preK k s L) : Res X k s L :=
  total_aux X _ _ _ k s L hi hpre rfl

theorem engine_sound {X : Nat → Prop} (k : Kind) {s : Cache} {L : List Nat}
    (hi : HInv s L X) (hpre : preK k s L) {fuel : Nat} {s1 : Cache}
    (hrun : runK k fuel s = some s1) :
    ∃ L1, HInv s1 L1 X ∧ Frame s L s1 L1 ∧ Prog s L s1 L1 ∧ postK k s L s1 L1 := by
  obtain ⟨f0, s0, L0, hrun0, hi0, hfr0, hpg0, hpost0⟩ := engine_total k hi hpre
  have e1 := runK_mono k (le_max_left fuel f0) hrun
  have e2 := runK_mono k (le_max_right fuel f0) hrun0
  rw [e1] at e2
  cases e2
  exact ⟨L0, hi0, hfr0, hpg0, hpost0⟩

theorem Core.weaken {s : Cache} {L : List Nat} {X Y : Nat → Prop} (hc : Core s L X)
    (hxy : ∀ a, X a → Y a) (hy : ∀ a, Y a → a ∉ L) : Core s L Y :=
  { hc with
    map := fun k a h => by
      obtain ⟨h1, h2⟩ := hc.map k a h
      exact ⟨h1.imp id (hxy a), h2⟩
    xout := hy }

theorem BInv.counts_lt {s : Cache} {L : List Nat} {X : Nat → Prop} (hb : BInv s L X) :
    s.count_hot + s.count_cold + 1 < SIZE ∧ s.count_test + 1 < SIZE := by
  have h1 := hb.resle
  have h2 := hb.testle
  have h3 := hb.capS
  omega

theorem BInv.ring_length {s : Cache} {L : List Nat} {X : Nat → Prop} (hb : BInv s L X) :
    L.length = s.count_hot + s.count_cold + s.count_test :=
  hb.toCore.length_eq

/-- At the boundary, `evict` returns (with enough fuel) in a boundary state with
room for one more resident page. -/
theorem evict_boundary {s : Cache} {L : List Nat} {X : Nat → Prop} (hb : BInv s L X) :
    ∃ fuel s1 L1, evict fuel s = some s1 ∧ BInv s1 L1 X ∧ Frame s L s1 L1 ∧
      s1.count_hot + s1.count_cold < s1.capacity ∧
      (s.count_hot + s.count_cold < s.capacity → s1 = s ∧ L1 = L) := by
  have hlt := hb.counts_lt
  have hadd : uadd s.count_hot s.count_cold = s.count_hot + s.count_cold :=
    uadd_eq (by omega)
  by_cases hc : s.capacity ≤ s.count_hot + s.count_cold
  · have hcap := hb.cap3
    have hlen := hb.ring_length
    have hne : L ≠ [] := by
      intro h0
      rw [h0] at hlen
      simp at hlen
      omega
    have hh : (∃ a, s.hand_hot = some a ∧ a ∈ L) ∧ (∃ a, s.hand_cold = some a ∧ a ∈ L) ∧
        (∃ a, s.hand_test = some a ∧ a ∈ L) ∧ 1 ≤ s.count_hot + s.count_cold := by
      rcases hb.hands with h | h
      · exact absurd h.1 hne
      · exact h
    have hi : HInv s L X :=
      { hb.toCore with
        hh := hh.1
        hc := hh.2.1
        ht := hh.2.2.1
        res1 := hh.2.2.2
        resle := hb.resle
        testle := by have := hb.testle; omega
        two := fun _ => by omega }
    obtain ⟨fuel, s1, L1, hrun, hi1, hfr, _, hpost⟩ :=
      engine_total Kind.EV hi (not_Ex_of_le hb.testle)
    refine ⟨fuel, s1, L1, hrun, ?_, hfr, hpost.2, fun h => by omega⟩
    exact
      { hi1.toCore with
        hands := Or.inr ⟨hi1.hh, hi1.hc, hi1.ht, hi1.res1⟩
        resle := hi1.resle
        testle := by
          have h1 := hi1.testle
          have h2 := hpost.1
          unfold Ex at h2
          omega }
  · refine ⟨1, s, L, ?_, hb, Frame.here _ _, by omega, fun _ => ⟨rfl, rfl⟩⟩
    rw [evict_succ, hadd]
    simp [hc]

theorem isRing_singleton {h : List (Option Entry)} {r : Nat} {er : Entry}
    (hl : load h r = some er) (hn : er.next = r) (hp : er.prev = r) : IsRing h [r] := by
  refine ⟨List.nodup_singleton r, ?_⟩
  simp only [List.take, List.singleton_append, List.chain'_cons, List.chain'_singleton,
    and_true]
  exact ⟨⟨er, hl, hn⟩, ⟨er, hl, hp⟩⟩

/-- Placement by `meta_add` into an empty ring: all three hands end on the new descriptor. -/
theorem meta_add_first {fuel : Nat} {c c1 : Cache} {r : Nat} {er : Entry}
    (hev : evict fuel c = some c1) (hh : c1.hand_hot = none)
    (hl : load c1.heap r = some er) (hn : er.next = r) :
    meta_add fuel c r =
      some { c1 with hand_hot := some r, hand_cold := some r, hand_test := some r } := by
  unfold meta_add
  rw [hev]
  simp only [hh]
  rw [Next_of_load hl, hn]
  simp

/-- Placement by `meta_add` into a non-empty ring `a :: xs` listed from `hand_hot = a`:
the new descriptor `r` is spliced right after `a`, `hand_hot` moves to the former
successor of `a`, and so does each of the other hands that was on `a`. -/
theorem meta_add_link {fuel : Nat} {c c1 : Cache} {r a : Nat} {xs : List Nat} {er : Entry}
    (hev : evict fuel c = some c1) (hh : c1.hand_hot = some a)
    (hr : IsRing c1.heap (a :: xs)) (hnr : r ∉ a :: xs)
    (hl : load c1.heap r = some er) (hp : er.prev = r) :
    ∃ h4 ea, load c1.heap a = some ea ∧ ea.next = (xs ++ [a]).headD a ∧
      h4.length = c1.heap.length ∧
      (∀ b, load h4 b = (load c1.heap b).map (relink a r ea.next r b)) ∧
      IsRing h4 (a :: r :: xs) ∧
      meta_add fuel c r =
        some { c1 with
          heap := h4
          hand_cold := if c1.hand_cold = some a then some ea.next else c1.hand_cold
          hand_test := if c1.hand_test = some a then some ea.next else c1.hand_test
          hand_hot := some ea.next } := by
  obtain ⟨h4, ea, hea, hlink, hlen, hloads, hring, hnext⟩ := hr.insert hnr hl hp
  refine ⟨h4, ea, hea, hnext, hlen, hloads, hring, ?_⟩
  have hra : r ≠ a := fun h => hnr (by rw [h]; simp)
  have hlr : load h4 r = some (relink a r ea.next r r er) := by rw [hloads r, hl]; rfl
  have hnx : Next h4 r = some ea.next := by
    rw [Next_of_load hlr]
    simp [relink]
  unfold meta_add
  rw [hev]
  simp only [hh, hlink, hnx]

theorem PayEq.same (h : List (Option Entry)) : PayEq h h :=
  fun _ e he => ⟨e, he, rfl, rfl, rfl, rfl⟩

theorem PayEq.chain {h h1 h2 : List (Option Entry)} (p1 : PayEq h h1) (p2 : PayEq h1 h2) :
    PayEq h h2 := by
  intro a e he
  obtain ⟨e1, he1, k1, t1, r1, v1⟩ := p1 a e he
  obtain ⟨e2, he2, k2, t2, r2, v2⟩ := p2 a e1 he1
  exact ⟨e2, he2, k2.trans k1, t2.trans t1, r2.trans r1, v2.trans v1⟩

theorem PayEq.tyAt {h h1 : List (Option Entry)} (p : PayEq h h1) {a : Nat} {e : Entry}
    (he : load h a = some e) : tyAt h1 a = tyAt h a := by
  obtain ⟨e1, he1, _, t1, _, _⟩ := p a e he
  rw [tyAt_of_load he1, tyAt_of_load he, t1]

theorem PayEq.of_relink {h h1 : List (Option Entry)} {r s n p : Nat}
    (hl : ∀ b, load h1 b = (load h b).map (relink r s n p b)) : PayEq h h1 := by
  intro a e he
  exact (load_relinked (hl a)).2.2 e he

/-- Linking a pending descriptor `r` of a resident type into the ring turns the
boundary invariant with `r` pending into the plain boundary invariant, once the
counter of its type is bumped. -/
theorem BInv.admit {c1 s1 : Cache} {L1 L2 : List Nat} {r : Nat} {er : Entry}
    (hb : BInv c1 L1 (fun a => a = r)) (hres : c1.count_hot + c1.count_cold < c1.capacity)
    (hl : load c1.heap r = some er) (hty : er.ptype = ptCold ∨ er.ptype = ptHot)
    (hring : IsRing s1.heap L2) (hperm : L2.Perm (r :: L1)) (hpay : PayEq c1.heap s1.heap)
    (hcap : s1.capacity = c1.capacity) (hcc : s1.cold_capacity = c1.cold_capacity)
    (hmap : s1.map = c1.map)
    (hhh : ∃ a, s1.hand_hot = some a ∧ a ∈ L2) (hhc : ∃ a, s1.hand_cold = some a ∧ a ∈ L2)
    (hht : ∃ a, s1.hand_test = some a ∧ a ∈ L2)
    (h1 : s1.count_hot = c1.count_hot + (if er.ptype = ptHot then 1 else 0))
    (h2 : s1.count_cold = c1.count_cold + (if er.ptype = ptCold then 1 else 0))
    (h3 : s1.count_test = c1.count_test) :
    BInv s1 L2 (fun _ => False) := by
  have hrL : r ∉ L1 := hb.xout r rfl
  have hty1 : ∀ b, b ∈ L1 → tyAt s1.heap b = tyAt c1.heap b := by
    intro b hbL
    obtain ⟨e, he, _, _⟩ := hb.ring.mem_load hbL
    exact hpay.tyAt he
  have htyr : tyAt s1.heap r = some er.ptype := by
    rw [hpay.tyAt hl, tyAt_of_load hl]
  have hcnt : ∀ t, cnt s1.heap L2 t = cnt c1.heap L1 t + (if er.ptype = t then 1 else 0) := by
    intro t
    rw [cnt_perm t hperm, cnt_cons, cnt_congr t hty1, htyr]
    simp
  refine
    { ring := hring
      types := ?_
      nhot := by rw [hcnt, h1, hb.nhot]
      ncold := by rw [hcnt, h2, hb.ncold]
      ntest := by
        rw [hcnt, h3, hb.ntest]
        rcases hty with h | h <;> simp [h]
      cap3 := by rw [hcap]; exact hb.cap3
      capS := by rw [hcap]; exact hb.capS
      cc1 := by rw [hcc]; exact hb.cc1
      ccle := by rw [hcc, hcap]; exact hb.ccle
      map := ?_
      xout := fun _ h => h.elim
      hands := Or.inr ⟨hhh, hhc, hht, by rw [h1, h2]; rcases hty with h | h <;> simp [h] <;> omega⟩
      resle := by
        rw [h1, h2, hcap]
        rcases hty with h | h <;> simp [h] <;> omega
      testle := by rw [h3, hcap]; exact hb.testle }
  · intro b hbL
    rcases List.mem_cons.mp (hperm.mem_iff.mp hbL) with h | h
    · rw [h, htyr]
      rcases hty with h | h <;> simp [h]
    · rw [hty1 b h]
      exact hb.types b h
  · intro k a hk
    rw [hmap] at hk
    obtain ⟨hin, e, he, hkey, hne⟩ := hb.map k a hk
    obtain ⟨e1, he1, k1, t1, _, _⟩ := hpay a e he
    refine ⟨Or.inl (hperm.mem_iff.mpr ?_), e1, he1, k1.trans hkey, by rw [t1]; exact hne⟩
    rcases hin with h | h
    · exact List.mem_cons_of_mem _ h
    · rw [h]; exact List.mem_cons_self _ _

/-- Admission of a pending, self-linked descriptor `r` of a resident type: `meta_add`
returns with enough fuel, and bumping the counter of the descriptor's type gives a
boundary state again. -/
theorem admit_spec {c : Cache} {L : List Nat} {r : Nat} {er : Entry}
    (hb : BInv c L (fun a => a = r)) (hl : load c.heap r = some er)
    (hn : er.next = r) (hp : er.prev = r) (hty : er.ptype = ptCold ∨ er.ptype = ptHot) :
    ∃ fuel c2 L2, meta_add fuel c r = some c2 ∧ c2.capacity = c.capacity ∧
      c2.count_hot + c2.count_cold + 1 < SIZE ∧
      (∃ e2, load c2.heap r = some e2 ∧ e2.key = er.key ∧ e2.ptype = er.ptype ∧
        e2.ref = er.ref ∧ e2.val = er.val) ∧
      ∀ s1 : Cache, s1.heap = c2.heap → s1.capacity = c2.capacity →
        s1.cold_capacity = c2.cold_capacity → s1.map = c2.map →
        s1.hand_hot = c2.hand_hot → s1.hand_cold = c2.hand_cold →
        s1.hand_test = c2.hand_test →
        s1.count_hot = c2.count_hot + (if er.ptype = ptHot then 1 else 0) →
        s1.count_cold = c2.count_cold + (if er.ptype = ptCold then 1 else 0) →
        s1.count_test = c2.count_test → BInv s1 L2 (fun _ => False) := by
  obtain ⟨fuel, c1, L1, hev, hb1, hfr, hres, _⟩ := evict_boundary hb
  have hrL : r ∉ L := hb.xout r rfl
  have hrL1 : r ∉ L1 := fun h => hrL (hfr.sub r h)
  have hl1 : load c1.heap r = some er := by rw [hfr.out r hrL]; exact hl
  have hlt1 := hb1.counts_lt
  rcases hb1.hands with ⟨hnil, hh, hc, ht⟩ | ⟨⟨a, hh, haL⟩, ⟨b, hc, hbL⟩, ⟨d, ht, hdL⟩, _⟩
  · refine ⟨fuel, _, [r], meta_add_first hev hh hl1 hn, hfr.cap, hlt1.1,
      ⟨er, hl1, rfl, rfl, rfl, rfl⟩, ?_⟩
    intro s1 e1 e2 e3 e4 e5 e6 e7 e8 e9 e10
    have hring : IsRing s1.heap [r] := by
      rw [e1]; exact isRing_singleton hl1 hn hp
    refine BInv.admit hb1 hres hl1 hty hring (by rw [hnil]) (by rw [e1]; exact PayEq.same _)
      e2 e3 e4 ⟨r, e5, by simp⟩ ⟨r, e6, by simp⟩ ⟨r, e7, by simp⟩ e8 e9 e10
  · obtain ⟨xs, hrx, hperm⟩ := hb1.ring.of_mem haL
    have hnr : r ∉ a :: xs := fun h => hrL1 (hperm.mem_iff.mpr h)
    obtain ⟨h4, ea, hea, hnext, hlen, hloads, hring, hadd⟩ :=
      meta_add_link hev hh hrx hnr hl1 hp
    have hnL : ea.next ∈ a :: r :: xs := by
      have := @headD_concat_mem xs a
      rw [← hnext] at this
      rcases List.mem_cons.mp this with h | h
      · rw [h]; simp
      · simp [h]
    have hsub : ∀ x, x ∈ L1 → x ∈ a :: r :: xs := by
      intro x hx
      rcases List.mem_cons.mp (hperm.mem_iff.mp hx) with h | h
      · rw [h]; simp
      · simp [h]
    have hpay : PayEq c1.heap h4 := PayEq.of_relink hloads
    refine ⟨fuel, _, a :: r :: xs, hadd, hfr.cap, hlt1.1, ?_, ?_⟩
    · obtain ⟨e2, he2, k2, t2, r2, v2⟩ := hpay r er hl1
      exact ⟨e2, he2, k2, t2, r2, v2⟩
    · intro s1 e1 e2 e3 e4 e5 e6 e7 e8 e9 e10
      have hperm2 : (a :: r :: xs).Perm (r :: L1) :=
        (List.Perm.swap r a xs).trans (List.Perm.cons r hperm.symm)
      refine BInv.admit hb1 hres hl1 hty (by rw [e1]; exact hring) hperm2
        (by rw [e1]; exact hpay) e2 e3 e4 ⟨ea.next, e5, hnL⟩ ?_ ?_ e8 e9 e10
      · rw [e6]
        show ∃ x, (if c1.hand_cold = some a then some ea.next else c1.hand_cold) = some x ∧ _
        split
        · exact ⟨ea.next, rfl, hnL⟩
        · exact ⟨b, hc, hsub b hbL⟩
      · rw [e7]
        show ∃ x, (if c1.hand_test = some a then some ea.next else c1.hand_test) = some x ∧ _
        split
        · exact ⟨ea.next, rfl, hnL⟩
        · exact ⟨d, ht, hsub d hdL⟩

theorem mapFind_insert (m : List (Nat × Nat)) (k0 a0 k : Nat) :
    mapFind (mapInsertOrAssign m k0 a0) k = if k = k0 then some a0 else mapFind m k := by
  unfold mapInsertOrAssign
  rw [mapFind]
  by_cases h : k0 = k
  · simp [h]
  · have h1 : ¬ k = k0 := fun x => h x.symm
    simp only [h, if_false, h1]
    rw [mapFind_erase]
    simp [h1]

theorem tyAt_append_of_lt {h : List (Option Entry)} {x : Option Entry} {a : Nat}
    (ha : a < h.length) : tyAt (h ++ [x]) a = tyAt h a := by
  unfold tyAt
  rw [load_append_of_lt ha]

theorem IsRing.mem_lt {h : List (Option Entry)} {L : List Nat} (hr : IsRing h L) {a : Nat}
    (ha : a ∈ L) : a < h.length := by
  obtain ⟨e, he, _, _⟩ := hr.mem_load ha
  exact load_lt he

/-- Allocating the descriptor of a missing key and binding it in the index gives the
boundary invariant with that descriptor pending. -/
theorem BInv.alloc {c : Cache} {L : List Nat} (hb : BInv c L (fun _ => False)) (k : Nat)
    (e : Entry) (hk : e.key = k) (hty : e.ptype ≠ ptEmpty) :
    BInv { c with heap := c.heap ++ [some e], map := mapInsertOrAssign c.map k c.heap.length }
      L (fun a => a = c.heap.length) := by
  have hlt : ∀ a, a ∈ L → a < c.heap.length := fun a ha => hb.ring.mem_lt ha
  have hty1 : ∀ a, a ∈ L → tyAt (c.heap ++ [some e]) a = tyAt c.heap a :=
    fun a ha => tyAt_append_of_lt (hlt a ha)
  exact
    { ring := hb.ring.append _
      types := fun a ha => by
        show tyAt (c.heap ++ [some e]) a = _ ∨ tyAt (c.heap ++ [some e]) a = _ ∨
          tyAt (c.heap ++ [some e]) a = _
        rw [hty1 a ha]; exact hb.types a ha
      nhot := by
        show c.count_hot = cnt (c.heap ++ [some e]) L ptHot
        rw [cnt_congr ptHot hty1]; exact hb.nhot
      ncold := by
        show c.count_cold = cnt (c.heap ++ [some e]) L ptCold
        rw [cnt_congr ptCold hty1]; exact hb.ncold
      ntest := by
        show c.count_test = cnt (c.heap ++ [some e]) L ptTest
        rw [cnt_congr ptTest hty1]; exact hb.ntest
      cap3 := hb.cap3
      capS := hb.capS
      cc1 := hb.cc1
      ccle := hb.ccle
      map := fun k1 a hf => by
        have hf1 : mapFind (mapInsertOrAssign c.map k c.heap.length) k1 = some a := hf
        rw [mapFind_insert] at hf1
        show (a ∈ L ∨ a = c.heap.length) ∧ ∃ e1, load (c.heap ++ [some e]) a = some e1 ∧ _
        by_cases hk1 : k1 = k
        · simp only [hk1, if_true, Option.some.injEq] at hf1
          subst hf1
          exact ⟨Or.inr rfl, e, load_append_new, by rw [hk, hk1], hty⟩
        · simp only [hk1, if_false] at hf1
          obtain ⟨hin, e1, he1, hkey, hne⟩ := hb.map k1 a hf1
          rcases hin with hin | hin
          · exact ⟨Or.inl hin, e1, by rw [load_append_of_lt (hlt a hin)]; exact he1, hkey, hne⟩
          · exact hin.elim
      xout := fun a ha hin => by
        have := hlt a hin
        omega
      hands := hb.hands
      resle := hb.resle
      testle := hb.testle }

/-- The miss path of `Set` returns `true` in a boundary state. -/
theorem Set_miss {c : Cache} {L : List Nat} (hb : BInv c L (fun _ => False)) {k : Nat}
    (v : Nat) (g : Bool) (hm : mapFind c.map k = none) :
    ∃ fuel s1 L1, Set fuel c k v g = some (s1, true) ∧ BInv s1 L1 (fun _ => False) ∧
      s1.capacity = c.capacity := by
  have hb0 := hb.alloc k (Entry.make c.heap.length g k v ptCold) rfl (by simp [Entry.make])
  obtain ⟨fuel, c2, L2, hadd, hcap, hlt, ⟨e2, he2, hk2, ht2, hr2, hv2⟩, hfin⟩ :=
    admit_spec hb0 load_append_new rfl rfl (Or.inl rfl)
  have hu : uadd c2.count_cold 1 = c2.count_cold + 1 := uadd_eq (by omega)
  refine ⟨fuel, { c2 with count_cold := uadd c2.count_cold 1 }, L2, ?_, ?_, hcap⟩
  · unfold Set
    rw [hm]
    simp only
    rw [hadd]
  · refine hfin _ rfl rfl rfl rfl rfl rfl rfl ?_ ?_ rfl
    · simp [Entry.make]
    · simp [Entry.make, hu]

/-- Rewriting payload fields of an indexed descriptor, its type kept, keeps the
boundary invariant. -/
theorem BInv.touch {c : Cache} {L : List Nat} (hb : BInv c L (fun _ => False)) {m : Nat}
    {ent e1 : Entry} (hmL : m ∈ L) (he : load c.heap m = some ent)
    (hn : e1.next = ent.next) (hp : e1.prev = ent.prev) (hk : e1.key = ent.key)
    (ht : e1.ptype = ent.ptype) :
    BInv { c with heap := store c.heap m e1 } L (fun _ => False) := by
  have hne : ent.ptype ≠ ptEmpty := by
    have h1 := hb.types m hmL
    rw [tyAt_of_load he] at h1
    rcases h1 with h | h | h <;> simp only [Option.some.injEq] at h <;> rw [h] <;> simp
  have hcore : Core { c with heap := store c.heap m e1 } L (fun _ => False) :=
    Core.retype hb.toCore hmL he rfl rfl rfl rfl hn hp hk (by rw [ht]; exact hne)
      (by rw [ht]) (by rw [ht]) (by rw [ht])
  exact { hcore with hands := hb.hands, resle := hb.resle, testle := hb.testle }

/-- The resident-hit path of `Set` returns `false` after an in-place update. -/
theorem Set_hit {c : Cache} {k m : Nat} {ent : Entry} (fuel v : Nat) (g : Bool)
    (hm : mapFind c.map k = some m) (he : load c.heap m = some ent)
    (hty : ent.ptype ≠ ptTest) :
    Set fuel c k v g =
      some ({ c with heap := store c.heap m { ent with val := some v, ref := true } }, false) := by
  unfold Set
  rw [hm]
  simp only
  rw [he]
  simp [hty]

/-- Method `Get` on a boundary state: it returns, and the state stays a boundary state. -/
theorem Get_boundary {c : Cache} {L : List Nat} (hb : BInv c L (fun _ => False)) (k : Nat) :
    ∃ c1 r, Get c k = some (c1, r) ∧ BInv c1 L (fun _ => False) := by
  unfold Get
  cases hm : mapFind c.map k with
  | none => exact ⟨c, none, rfl, hb⟩
  | some m =>
    obtain ⟨hin, ent, he, _, _⟩ := hb.map k m hm
    have hmL : m ∈ L := hin.resolve_right id
    simp only [he]
    by_cases hv : ent.val.isNone = true
    · exact ⟨c, none, by simp [hv], hb⟩
    · refine ⟨{ c with heap := store c.heap m { ent with ref := true } }, ent.val,
        by simp [hv], ?_⟩
      exact hb.touch hmL he rfl rfl rfl rfl

/-- Overwriting a live cell outside the ring, links kept, keeps the structural invariant
of a state whose index only points into the ring. -/
theorem Core.store_out {s : Cache} {L : List Nat} (hc : Core s L (fun _ => False)) {m : Nat}
    {e e1 : Entry} (hm : m ∉ L) (he : load s.heap m = some e) (hn : e1.next = e.next)
    (hp : e1.prev = e.prev) :
    Core { s with heap := store s.heap m e1 } L (fun a => a = m) := by
  have hlt := load_lt he
  have hty1 : ∀ a, a ∈ L → tyAt (store s.heap m e1) a = tyAt s.heap a := by
    intro a ha
    rw [tyAt_store hlt]
    have : a ≠ m := fun h => hm (h ▸ ha)
    simp [this]
  exact
    { ring := hc.ring.store he hn hp
      types := fun a ha => by
        show tyAt (store s.heap m e1) a = _ ∨ tyAt (store s.heap m e1) a = _ ∨
          tyAt (store s.heap m e1) a = _
        rw [hty1 a ha]; exact hc.types a ha
      nhot := by
        show s.count_hot = cnt (store s.heap m e1) L ptHot
        rw [cnt_congr ptHot hty1]; exact hc.nhot
      ncold := by
        show s.count_cold = cnt (store s.heap m e1) L ptCold
        rw [cnt_congr ptCold hty1]; exact hc.ncold
      ntest := by
        show s.count_test = cnt (store s.heap m e1) L ptTest
        rw [cnt_congr ptTest hty1]; exact hc.ntest
      cap3 := hc.cap3
      capS := hc.capS
      cc1 := hc.cc1
      ccle := hc.ccle
      map := fun k a hf => by
        obtain ⟨hin, ea, hea, hkey, hne⟩ := hc.map k a hf
        have haL : a ∈ L := hin.resolve_right id
        have ham : a ≠ m := fun h => hm (h ▸ haL)
        refine ⟨Or.inl haL, ea, ?_, hkey, hne⟩
        show load (store s.heap m e1) a = some ea
        rw [load_store hlt]
        simp [ham, hea]
      xout := fun a ha => by rw [ha]; exact hm }

/-- The adaptation step of the test-hit path keeps the boundary invariant. -/
theorem BInv.grow {c : Cache} {L : List Nat} {X : Nat → Prop} (hb : BInv c L X) :
    BInv (if c.cold_capacity < c.capacity then
        { c with cold_capacity := uadd c.cold_capacity 1 } else c) L X := by
  by_cases h : c.cold_capacity < c.capacity
  · simp only [h, if_true]
    have hu : uadd c.cold_capacity 1 = c.cold_capacity + 1 :=
      uadd_eq (by have := hb.capS; omega)
    exact
      { ring := hb.ring
        types := hb.types
        nhot := hb.nhot
        ncold := hb.ncold
        ntest := hb.ntest
        cap3 := hb.cap3
        capS := hb.capS
        cc1 := by show 1 ≤ uadd c.cold_capacity 1; rw [hu]; omega
        ccle := by show uadd c.cold_capacity 1 ≤ c.capacity; rw [hu]; omega
        map := hb.map
        xout := hb.xout
        hands := hb.hands
        resle := hb.resle
        testle := hb.testle }
  · simp only [h, if_false]
    exact hb

/-- The test-hit path of `Set` returns `true` in a boundary state. -/
theorem Set_test {c : Cache} {L : List Nat} (hb : BInv c L (fun _ => False)) {k m : Nat}
    {ent : Entry} (v : Nat) (g : Bool) (hm : mapFind c.map k = some m)
    (he : load c.heap m = some ent) (hty : ent.ptype = ptTest) :
    ∃ fuel s1 L1, Set fuel c k v g = some (s1, true) ∧ BInv s1 L1 (fun _ => False) ∧
      s1.capacity = c.capacity := by
  obtain ⟨c0, hc0⟩ : ∃ c0, c0 = (if c.cold_capacity < c.capacity then
      { c with cold_capacity := uadd c.cold_capacity 1 } else c) := ⟨_, rfl⟩
  have hb0 : BInv c0 L (fun _ => False) := by rw [hc0]; exact hb.grow
  have hheap0 : c0.heap = c.heap := by rw [hc0]; split <;> rfl
  have hcap0 : c0.capacity = c.capacity := by rw [hc0]; split <;> rfl
  have he0 : load c0.heap m = some ent := by rw [hheap0]; exact he
  have hmL : m ∈ L := ((hb.map k m hm).1).resolve_right id
  have hne : L ≠ [] := fun h => by rw [h] at hmL; cases hmL
  obtain ⟨hh0, hhc0, hht0, hres0⟩ := (hb0.hands).resolve_left (fun h => hne h.1)
  have htest1 : 1 ≤ c0.count_test := by
    rw [hb0.ntest]
    exact cnt_pos_of_mem hmL (by rw [tyAt_of_load he0, hty])
  have h2 : 2 ≤ L.length := by rw [hb0.ring_length]; omega
  obtain ⟨s1, L1, hdel, hperm, hring1, hnL1, hpL1, hmL1, hmap1, hhh, hhc, hht, hcap1, hcc1, hnh,
    hnc, hnt, hlen1, hloads, hloadm, _⟩ := meta_del_spec hb0.ring hmL he0 h2 false
  have hu : usub s1.count_test 1 = s1.count_test - 1 :=
    usub_eq (by omega) (by have := hb0.counts_lt; omega)
  obtain ⟨c2, hc2⟩ : ∃ c2 : Cache, c2 = { s1 with count_test := usub s1.count_test 1 } :=
    ⟨_, rfl⟩
  have f1 : c2.heap = s1.heap := by rw [hc2]
  have f2 : c2.map = s1.map := by rw [hc2]
  have f3 : c2.capacity = s1.capacity := by rw [hc2]
  have f4 : c2.cold_capacity = s1.cold_capacity := by rw [hc2]
  have f5 : c2.count_hot = s1.count_hot := by rw [hc2]
  have f6 : c2.count_cold = s1.count_cold := by rw [hc2]
  have f7 : c2.count_test = s1.count_test - 1 := by rw [hc2]; exact hu
  have f8 : c2.hand_hot = s1.hand_hot := by rw [hc2]
  have f9 : c2.hand_cold = s1.hand_cold := by rw [hc2]
  have f10 : c2.hand_test = s1.hand_test := by rw [hc2]
  have hcore2 : Core c2 L1 (fun _ => False) :=
    (Core.delete hb0.toCore he0 hty hperm (by rw [f1]; exact hring1)
      (by rw [f1]; exact hloads) (by rw [f2]; exact hmap1) (by rw [f3]; exact hcap1)
      (by rw [f4, hcc1]; exact hb0.cc1) (by rw [f4, f3, hcc1, hcap1]; exact hb0.ccle)
      (by rw [f5]; exact hnh) (by rw [f6]; exact hnc) (by rw [f7]; omega)).1
  have hload2 : load s1.heap m =
      some { ent with ptype := ptEmpty, ref := false, val := none, next := m, prev := m } := by
    rw [hloadm]; simp
  obtain ⟨e3, he3⟩ : ∃ e3 : Entry, e3 = { ent with
      ptype := ptHot, ref := false, val := none, next := m, prev := m } := ⟨_, rfl⟩
  have hcore3 : Core { c2 with heap := store c2.heap m e3 } L1 (fun a => a = m) :=
    Core.store_out hcore2 hmL1 (by rw [f1]; exact hload2) (by rw [he3]) (by rw [he3])
  have hb3 : BInv { c2 with heap := store c2.heap m e3 } L1 (fun a => a = m) :=
    { hcore3 with
      hands := Or.inr
        ⟨by show ∃ a, c2.hand_hot = some a ∧ _
            rw [f8, hhh]; exact hand_after_del hperm hnL1 hh0,
         by show ∃ a, c2.hand_cold = some a ∧ _
            rw [f9, hhc]; exact hand_after_del hperm hnL1 hhc0,
         by show ∃ a, c2.hand_test = some a ∧ _
            rw [f10, hht]; exact hand_after_del hperm hnL1 hht0,
         by show 1 ≤ c2.count_hot + c2.count_cold
            rw [f5, f6, hnh, hnc]; exact hres0⟩
      resle := by
        show c2.count_hot + c2.count_cold ≤ c2.capacity
        rw [f5, f6, f3, hnh, hnc, hcap1]; exact hb0.resle
      testle := by
        show c2.count_test ≤ c2.capacity
        rw [f7, f3, hnt, hcap1]; have := hb0.testle; omega }
  obtain ⟨fuel, c4, L4, hadd, hcap4, hlt4, _, hfin⟩ :=
    admit_spec hb3 (load_store_same (by rw [f1]; exact load_lt hload2)) (by rw [he3])
      (by rw [he3]) (Or.inr (by rw [he3]))
  have hu4 : uadd c4.count_hot 1 = c4.count_hot + 1 := uadd_eq (by omega)
  refine ⟨fuel, { c4 with count_hot := uadd c4.count_hot 1 }, L4, ?_, ?_, ?_⟩
  · unfold Set
    rw [hm]
    simp only
    rw [he]
    simp only [hty, if_true]
    rw [← hc0, hdel]
    simp only
    rw [hload2]
    simp only
    rw [he3, hc2] at hadd
    rw [hadd]
  · refine hfin _ rfl rfl rfl rfl rfl rfl rfl ?_ ?_ rfl
    · simp [hu4, he3]
    · simp [he3]
  · show c4.capacity = c.capacity
    rw [hcap4]
    show c2.capacity = c.capacity
    rw [f3, hcap1, hcap0]

theorem meta_add_mono {f g : Nat} (hfg : f ≤ g) {c : Cache} {r : Nat} {c2 : Cache}
    (h : meta_add f c r = some c2) : meta_add g c r = some c2 := by
  unfold meta_add at h ⊢
  cases hev : evict f c with
  | none => rw [hev] at h; cases h
  | some c1 =>
    have hev2 : evict g c = some c1 := runK_mono Kind.EV hfg hev
    rw [hev] at h
    rw [hev2]
    exact h

/-- More fuel does not change what `Set` returns. -/
theorem Set_mono {f g : Nat} (hfg : f ≤ g) {c : Cache} {k v : Nat} {b : Bool}
    {r : Cache × Bool} (h : Set f c k v b = some r) : Set g c k v b = some r := by
  unfold Set at h ⊢
  cases hm : mapFind c.map k with
  | none =>
    rw [hm] at h
    simp only at h ⊢
    cases ha : meta_add f { c with
        heap := c.heap ++ [some (Entry.make c.heap.length b k v ptCold)]
        map := mapInsertOrAssign c.map k c.heap.length } c.heap.length with
    | none => rw [ha] at h; cases h
    | some c1 =>
      rw [ha] at h
      rw [meta_add_mono hfg ha]
      exact h
  | some m =>
    rw [hm] at h
    simp only at h ⊢
    cases hl : load c.heap m with
    | none => rw [hl] at h; cases h
    | some ent =>
      rw [hl] at h
      simp only at h ⊢
      by_cases hty : ent.ptype = ptTest
      · simp only [hty, if_true] at h ⊢
        cases hd : meta_del (if c.cold_capacity < c.capacity then
            { c with cold_capacity := uadd c.cold_capacity 1 } else c) m false with
        | none => rw [hd] at h; cases h
        | some c1 =>
          rw [hd] at h
          simp only at h ⊢
          cases hl2 : load c1.heap m with
          | none => rw [hl2] at h; cases h
          | some ent2 =>
            rw [hl2] at h
            simp only at h ⊢
            cases ha : meta_add f { c1 with
                count_test := usub c1.count_test 1
                heap := store c1.heap m { ent2 with ptype := ptHot } } m with
            | none => rw [ha] at h; cases h
            | some c4 =>
              rw [ha] at h
              rw [meta_add_mono hfg ha]
              exact h
      · simp only [hty, if_false] at h ⊢
        exact h

/-- On a boundary state every `Set` call returns, given enough fuel, in a boundary state. -/
theorem Set_boundary {c : Cache} {L : List Nat} (hb : BInv c L (fun _ => False))
    (k v : Nat) (g : Bool) :
    ∃ fuel s1 b L1, Set fuel c k v g = some (s1, b) ∧ BInv s1 L1 (fun _ => False) ∧
      s1.capacity = c.capacity := by
  cases hm : mapFind c.map k with
  | none =>
    obtain ⟨fuel, s1, L1, h1, h2, h3⟩ := Set_miss hb v g hm
    exact ⟨fuel, s1, true, L1, h1, h2, h3⟩
  | some m =>
    obtain ⟨hin, ent, he, _, _⟩ := hb.map k m hm
    by_cases hty : ent.ptype = ptTest
    · obtain ⟨fuel, s1, L1, h1, h2, h3⟩ := Set_test hb v g hm he hty
      exact ⟨fuel, s1, true, L1, h1, h2, h3⟩
    · exact ⟨0, _, false, L, Set_hit 0 v g hm he hty,
        hb.touch (hin.resolve_right id) he rfl rfl rfl rfl, rfl⟩

theorem binv_new {n : Nat} {c : Cache} (hn : n + 1 < SIZE) (hc : Cache.new n = Except.ok c) :
    BInv c [] (fun _ => False) := by
  unfold Cache.new at hc
  by_cases h3 : n < 3
  · simp [h3] at hc
  · simp only [h3, if_false, Except.ok.injEq] at hc
    subst hc
    exact
      { ring := isRing_nil _
        types := fun a ha => by cases ha
        nhot := by simp [cnt]
        ncold := by simp [cnt]
        ntest := by simp [cnt]
        cap3 := by show 3 ≤ n; omega
        capS := hn
        cc1 := by show 1 ≤ n; omega
        ccle := le_refl _
        map := fun k a h => by simp [mapFind] at h
        xout := fun _ h => h.elim
        hands := Or.inl ⟨rfl, rfl, rfl, rfl⟩
        resle := by show 0 + 0 ≤ n; omega
        testle := by show 0 ≤ n; omega }

/-- Every reachable state satisfies the boundary invariant for some listing of its ring. -/
theorem reachable_binv {s : Cache} (hr : Reachable s) : ∃ L, BInv s L (fun _ => False) := by
  induction hr with
  | init n c hn hc => exact ⟨[], binv_new hn hc⟩
  | get c c1 k r _ hg ih =>
    obtain ⟨L, hb⟩ := ih
    obtain ⟨c2, r2, hg2, hb2⟩ := Get_boundary hb k
    rw [hg] at hg2
    cases hg2
    exact ⟨L, hb2⟩
  | set c c1 fuel k v g b _ hs ih =>
    obtain ⟨L, hb⟩ := ih
    obtain ⟨f0, s1, b1, L1, hs1, hb1, _⟩ := Set_boundary hb k v g
    have e1 := Set_mono (le_max_left fuel f0) hs
    have e2 := Set_mono (le_max_right fuel f0) hs1
    rw [e1] at e2
    cases e2
    exact ⟨L1, hb1⟩

/-- The walk `ringOf` lists the ring of a boundary state, from `hand_hot` on. -/
theorem ringOf_spec {s : Cache} {L : List Nat} {X : Nat → Prop} (hb : BInv s L X) :
    (L = [] ∧ ringOf s = [] ∧ s.hand_hot = none ∧ s.hand_cold = none ∧ s.hand_test = none) ∨
    (∃ a xs, s.hand_hot = some a ∧ ringOf s = a :: xs ∧ L.Perm (a :: xs) ∧
      IsRing s.heap (a :: xs) ∧ (∃ b, s.hand_cold = some b ∧ b ∈ a :: xs) ∧
      (∃ d, s.hand_test = some d ∧ d ∈ a :: xs)) := by
  rcases hb.hands with ⟨h0, h1, h2, h3⟩ | ⟨⟨a, hh, haL⟩, ⟨b, hc, hbL⟩, ⟨d, ht, hdL⟩, _⟩
  · exact Or.inl ⟨h0, by simp [ringOf, h1], h1, h2, h3⟩
  · obtain ⟨xs, hrx, hperm⟩ := hb.ring.of_mem haL
    have hlen := hrx.length_le
    refine Or.inr ⟨a, xs, hh, ?_, hperm, hrx, ⟨b, hc, hperm.mem_iff.mp hbL⟩,
      ⟨d, ht, hperm.mem_iff.mp hdL⟩⟩
    unfold ringOf
    rw [hh]
    exact hrx.ringWalk_eq (by simp at hlen; omega)

/-- Chains of hand steps. -/
theorem steps_trans {a b c : Cache} (h1 : Relation.ReflTransGen HandStep a b)
    (h2 : Relation.ReflTransGen HandStep b c) : Relation.ReflTransGen HandStep a c :=
  Relation.ReflTransGen.trans h1 h2

/-- Every run of a hand routine is a chain of hand steps. -/
theorem hand_steps : ∀ (f : Nat),
    (∀ c c1, run_hand_cold f c = some c1 → Relation.ReflTransGen HandStep c c1) ∧
    (∀ c c1, cold_test_loop f c = some c1 → Relation.ReflTransGen HandStep c c1) ∧
    (∀ c c1, cold_hot_loop f c = some c1 → Relation.ReflTransGen HandStep c c1) ∧
    (∀ c c1, run_hand_hot f c = some c1 → Relation.ReflTransGen HandStep c c1) ∧
    (∀ c c1, run_hand_test f c = some c1 → Relation.ReflTransGen HandStep c c1)
  | 0 => by
    refine ⟨?_, ?_, ?_, ?_, ?_⟩ <;> intro c c1 h <;> cases h
  | f + 1 => by
    obtain ⟨ihC, ihTL, ihHL, ihH, ihT⟩ := hand_steps f
    refine ⟨?_, ?_, ?_, ?_, ?_⟩
    · intro c c1 h
      rw [run_hand_cold_succ] at h
      cases hhc : c.hand_cold with
      | none => rw [hhc] at h; cases h
      | some m =>
        rw [hhc] at h
        simp only at h
        cases hl : load c.heap m with
        | none => rw [hl] at h; cases h
        | some e =>
          rw [hl] at h
          simp only at h
          have tail : ∀ x : Cache, Relation.ReflTransGen HandStep c x →
              (match cold_advance x with
                | none => none
                | some c2 => cold_hot_loop f c2) = some c1 →
              Relation.ReflTransGen HandStep c c1 := by
            intro x hx hrest
            cases ha : cold_advance x with
            | none => rw [ha] at hrest; cases hrest
            | some c2 =>
              rw [ha] at hrest
              exact steps_trans hx (Relation.ReflTransGen.head (HandStep.advance x c2 ha)
                (ihHL c2 c1 hrest))
          by_cases hty : e.ptype = ptCold
          · by_cases hr : e.ref = true
            · simp only [hty, hr, if_true] at h
              exact tail _ (Relation.ReflTransGen.single (HandStep.promote c m e hhc hl hty hr)) h
            · have hr0 : e.ref = false := by simpa using hr
              simp only [hty, hr0, if_true] at h
              cases ht : cold_test_loop f (cold_demote c m e) with
              | none => rw [ht] at h; simp at h
              | some x =>
                rw [ht] at h
                simp only [Bool.false_eq_true, if_false] at h
                exact tail x (Relation.ReflTransGen.head (HandStep.demote c m e hhc hl hty hr0)
                  (ihTL _ _ ht)) h
          · simp only [hty, if_false] at h
            exact tail c Relation.ReflTransGen.refl h
    · intro c c1 h
      rw [cold_test_loop_succ] at h
      by_cases hc : c.capacity < c.count_test
      · simp only [hc, if_true] at h
        cases hr : run_hand_test f c with
        | none => rw [hr] at h; cases h
        | some x =>
          rw [hr] at h
          exact steps_trans (ihT c x hr) (ihTL x c1 h)
      · simp only [hc, if_false, Option.some.injEq] at h
        rw [← h]
    · intro c c1 h
      rw [cold_hot_loop_succ] at h
      by_cases hc : usub c.capacity c.cold_capacity < c.count_hot
      · simp only [hc, if_true] at h
        cases hr : run_hand_hot f c with
        | none => rw [hr] at h; cases h
        | some x =>
          rw [hr] at h
          exact steps_trans (ihH c x hr) (ihHL x c1 h)
      · simp only [hc, if_false, Option.some.injEq] at h
        rw [← h]
    · intro c c1 h
      rw [run_hand_hot_succ] at h
      by_cases hc : c.hand_hot = c.hand_test
      · simp only [hc, if_true] at h
        cases hr : run_hand_test f c with
        | none => rw [hr] at h; cases h
        | some x =>
          rw [hr] at h
          exact steps_trans (ihT c x hr) (Relation.ReflTransGen.single (HandStep.hot x c1 h))
      · simp only [hc, if_false] at h
        exact Relation.ReflTransGen.single (HandStep.hot c c1 h)
    · intro c c1 h
      rw [run_hand_test_succ] at h
      by_cases hc : c.hand_test = c.hand_cold
      · simp only [hc, if_true] at h
        cases hr : run_hand_cold f c with
        | none => rw [hr] at h; cases h
        | some x =>
          rw [hr] at h
          exact steps_trans (ihC c x hr) (Relation.ReflTransGen.single (HandStep.test x c1 h))
      · simp only [hc, if_false] at h
        exact Relation.ReflTransGen.single (HandStep.test c c1 h)

theorem evict_steps : ∀ (f : Nat) (c c1 : Cache), evict f c = some c1 →
    Relation.ReflTransGen HandStep c c1
  | 0, c, c1, h => by cases h
  | f + 1, c, c1, h => by
    rw [evict_succ] at h
    by_cases hc : c.capacity ≤ uadd c.count_hot c.count_cold
    · simp only [hc, if_true] at h
      cases hr : run_hand_cold f c with
      | none => rw [hr] at h; cases h
      | some x =>
        rw [hr] at h
        exact steps_trans ((hand_steps f).1 c x hr) (evict_steps f x c1 h)
    · simp only [hc, if_false, Option.some.injEq] at h
      rw [← h]

/-- Every run of a routine of the engine is a chain of hand steps. -/
theorem runK_steps (k : Kind) {f : Nat} {c c1 : Cache} (h : runK k f c = some c1) :
    Relation.ReflTransGen HandStep c c1 := by
  cases k
  · exact (hand_steps f).1 c c1 h
  · exact (hand_steps f).2.1 c c1 h
  · exact (hand_steps f).2.2.1 c c1 h
  · exact (hand_steps f).2.2.2.1 c c1 h
  · exact (hand_steps f).2.2.2.2 c c1 h
  · exact evict_steps f c c1 h

theorem meta_del_fields {c c1 : Cache} {e : Nat} {d : Bool} (h : meta_del c e d = some c1) :
    c1.capacity = c.capacity ∧ c1.cold_capacity = c.cold_capacity ∧
      c1.count_hot = c.count_hot ∧ c1.count_cold = c.count_cold ∧
      c1.count_test = c.count_test := by
  unfold meta_del at h
  cases hl : load c.heap e with
  | none => rw [hl] at h; cases h
  | some ent =>
    rw [hl] at h
    simp only at h
    cases hu : Unlink (store c.heap e { ent with ptype := ptEmpty, ref := false, val := none })
        ent.prev 1 with
    | none => rw [hu] at h; cases h
    | some p =>
      rw [hu] at h
      simp only [Option.some.injEq] at h
      rw [← h]
      exact ⟨rfl, rfl, rfl, rfl, rfl⟩

theorem cold_advance_fields {c c1 : Cache} (h : cold_advance c = some c1) :
    c1.capacity = c.capacity ∧ c1.cold_capacity = c.cold_capacity ∧
      c1.count_hot = c.count_hot ∧ c1.count_cold = c.count_cold ∧
      c1.count_test = c.count_test ∧ c1.heap = c.heap ∧ c1.map = c.map := by
  unfold cold_advance at h
  cases hh : c.hand_cold with
  | none => rw [hh] at h; cases h
  | some m =>
    rw [hh] at h
    simp only at h
    cases hn : Next c.heap m with
    | none => rw [hn] at h; cases h
    | some n =>
      rw [hn] at h
      simp only [Option.some.injEq] at h
      rw [← h]
      exact ⟨rfl, rfl, rfl, rfl, rfl, rfl, rfl⟩

theorem hand_hot_body_fields {c c1 : Cache} (h : hand_hot_body c = some c1) :
    c1.capacity = c.capacity ∧ c1.cold_capacity = c.cold_capacity ∧
      c1.count_test = c.count_test ∧ c1.map = c.map := by
  unfold hand_hot_body at h
  cases hh : c.hand_hot with
  | none => rw [hh] at h; cases h
  | some m =>
    rw [hh] at h
    simp only at h
    cases hl : load c.heap m with
    | none => rw [hl] at h; cases h
    | some e =>
      rw [hl] at h
      simp only at h
      split at h
      · cases h
      · simp only [Option.some.injEq] at h
        rw [← h]
        refine ⟨?_, ?_, ?_, ?_⟩ <;> (simp only; split <;> [split; skip] <;> rfl)

theorem hand_test_body_fields {c c1 : Cache} (h : hand_test_body c = some c1) :
    c1.capacity = c.capacity ∧
      (c1.cold_capacity = c.cold_capacity ∨
        (1 < c.cold_capacity ∧ c1.cold_capacity = usub c.cold_capacity 1)) ∧
      c1.count_hot = c.count_hot ∧ c1.count_cold = c.count_cold := by
  unfold hand_test_body at h
  cases hh : c.hand_test with
  | none => rw [hh] at h; cases h
  | some m =>
    rw [hh] at h
    simp only at h
    cases hl : load c.heap m with
    | none => rw [hl] at h; cases h
    | some e =>
      rw [hl] at h
      simp only at h
      by_cases hty : e.ptype = ptTest
      · simp only [hty, if_true] at h
        cases hd : meta_del c m true with
        | none => rw [hd] at h; cases h
        | some c2 =>
          rw [hd] at h
          simp only at h
          obtain ⟨f1, f2, f3, f4, _⟩ := meta_del_fields hd
          split at h
          · cases h
          · simp only [Option.some.injEq] at h
            rw [← h]
            refine ⟨f1, ?_, f3, f4⟩
            show (if 1 < c2.cold_capacity then usub c2.cold_capacity 1 else c2.cold_capacity)
                = c.cold_capacity ∨ _
            rw [f2]
            by_cases h1 : 1 < c.cold_capacity
            · right; simp [h1]
            · left; simp [h1]
      · simp only [hty, if_false] at h
        split at h
        · cases h
        · simp only [Option.some.injEq] at h
          rw [← h]
          exact ⟨rfl, Or.inl rfl, rfl, rfl⟩

/-- A hand step keeps the capacity and never raises the cold target; a cold target in
the range `1 .. capacity` stays in that range. -/
theorem HandStep.cold_capacity {s s1 : Cache} (h : HandStep s s1)
    (hc : s.cold_capacity ≤ s.capacity) (hS : s.capacity < SIZE) :
    s1.capacity = s.capacity ∧ s1.cold_capacity ≤ s.cold_capacity ∧
      (1 ≤ s.cold_capacity → 1 ≤ s1.cold_capacity) := by
  cases h with
  | promote m e hh hl ht hr => exact ⟨rfl, le_refl _, id⟩
  | demote m e hh hl ht hr => exact ⟨rfl, le_refl _, id⟩
  | advance _ h =>
    obtain ⟨f1, f2, _⟩ := cold_advance_fields h
    exact ⟨f1, by rw [f2], by rw [f2]; exact id⟩
  | hot _ h =>
    obtain ⟨f1, f2, _⟩ := hand_hot_body_fields h
    exact ⟨f1, by rw [f2], by rw [f2]; exact id⟩
  | test _ h =>
    obtain ⟨f1, f2, _⟩ := hand_test_body_fields h
    rcases f2 with f2 | ⟨h1, f2⟩
    · exact ⟨f1, by rw [f2], by rw [f2]; exact id⟩
    · have hu : usub s.cold_capacity 1 = s.cold_capacity - 1 := usub_eq (by omega) (by omega)
      rw [hu] at f2
      exact ⟨f1, by omega, by omega⟩

theorem steps_cold_capacity {s s1 : Cache} (h : Relation.ReflTransGen HandStep s s1)
    (hc : s.cold_capacity ≤ s.capacity) (hS : s.capacity < SIZE) :
    s1.capacity = s.capacity ∧ s1.cold_capacity ≤ s.cold_capacity ∧
      (1 ≤ s.cold_capacity → 1 ≤ s1.cold_capacity) := by
  induction h with
  | refl => exact ⟨rfl, le_refl _, id⟩
  | tail _ hstep ih =>
    obtain ⟨i1, i2, i3⟩ := ih
    obtain ⟨j1, j2, j3⟩ := hstep.cold_capacity (by omega) (by omega)
    exact ⟨by omega, by omega, fun h => j3 (i3 h)⟩

theorem reachable_runCalls (fuel : Nat) (g : Bool) :
    ∀ (cs : List Call) (c c1 : Cache), Reachable c → runCalls fuel g c cs = some c1 →
      Reachable c1
  | [], c, c1, hr, h => by
    simp only [runCalls, Option.some.injEq] at h
    rw [← h]; exact hr
  | Call.get k :: rest, c, c1, hr, h => by
    rw [runCalls] at h
    cases hg : Get c k with
    | none => rw [hg] at h; cases h
    | some p =>
      obtain ⟨c2, r⟩ := p
      rw [hg] at h
      exact reachable_runCalls fuel g rest c2 c1 (Reachable.get c c2 k r hr hg) h
  | Call.set k v :: rest, c, c1, hr, h => by
    rw [runCalls] at h
    cases hs : Set fuel c k v g with
    | none => rw [hs] at h; cases h
    | some p =>
      obtain ⟨c2, b⟩ := p
      rw [hs] at h
      exact reachable_runCalls fuel g rest c2 c1 (Reachable.set c c2 fuel k v g b hr hs) h

/-- The states produced by call sequences on a fresh cache are reachable. -/
theorem reachable_runFresh {fuel : Nat} {g : Bool} {n : Nat} {cs : List Call} {c : Cache}
    (hn : n + 1 < SIZE) (h : runFresh fuel g n cs = some c) : Reachable c := by
  unfold runFresh fresh at h
  cases hc : Cache.new n with
  | error e => rw [hc] at h; cases h
  | ok c0 =>
    rw [hc] at h
    exact reachable_runCalls fuel g cs c0 c (Reachable.init n c0 hn hc) h

theorem three_lt_SIZE : 3 + 1 < SIZE := by unfold SIZE; norm_num

theorem oneState_run : runFresh 1 false 3 [Call.set 7 1] = some oneState := by decide!

theorem scanState_run : runFresh 10 false 3 scanTrace = some scanState := by decide!

theorem ghostState_run :
    runFresh 10 false 3 (scanTrace ++ [Call.set 3 30]) = some ghostState := by decide!

theorem oneState_reachable : Reachable oneState := reachable_runFresh three_lt_SIZE oneState_run

theorem scanState_reachable : Reachable scanState :=
  reachable_runFresh three_lt_SIZE scanState_run

theorem ghostState_reachable : Reachable ghostState :=
  reachable_runFresh three_lt_SIZE ghostState_run

theorem ringWalk_congr {h h1 : List (Option Entry)} (hn : ∀ a, Next h1 a = Next h a) :
    ∀ (n start cur : Nat), ringWalk h1 n start cur = ringWalk h n start cur
  | 0, _, _ => rfl
  | n + 1, start, cur => by
    simp only [ringWalk, hn cur]
    cases Next h cur with
    | none => rfl
    | some nx =>
      simp only
      rw [ringWalk_congr hn n start nx]

/-- Rewriting only the reference bit and the value of one descriptor leaves the walk
around the ring as it was. -/
theorem ringOf_touch {c : Cache} {m : Nat} {e e1 : Entry} (he : load c.heap m = some e)
    (hn : e1.next = e.next) : ringOf { c with heap := store c.heap m e1 } = ringOf c := by
  have hN : ∀ a, Next (store c.heap m e1) a = Next c.heap a := by
    intro a
    unfold Next
    rw [load_store (load_lt he)]
    by_cases ha : a = m
    · subst ha; simp [he, hn]
    · simp [ha]
  unfold ringOf
  cases c.hand_hot with
  | none => rfl
  | some a =>
    show ringWalk (store c.heap m e1) (store c.heap m e1).length a a = _
    rw [length_store]
    exact ringWalk_congr hN _ _ _

theorem evict_noop {fuel : Nat} {c c1 : Cache}
    (hres : ¬ c.capacity ≤ uadd c.count_hot c.count_cold) (h : evict fuel c = some c1) :
    c1 = c := by
  cases fuel with
  | zero => cases h
  | succ f =>
    rw [evict_succ] at h
    simp only [hres, if_false, Option.some.injEq] at h
    exact h.symm

theorem evict_one {c : Cache} (hres : ¬ c.capacity ≤ uadd c.count_hot c.count_cold)
    (fuel : Nat) : evict (fuel + 1) c = some c := by
  rw [evict_succ]
  simp [hres]

/-- What `meta_add` does after its `evict`: it keeps the capacity, the cold target and
the counters. -/
theorem meta_add_fields {fuel : Nat} {c c2 : Cache} {r : Nat}
    (h : meta_add fuel c r = some c2) :
    ∃ c1, evict fuel c = some c1 ∧ c2.capacity = c1.capacity ∧
      c2.cold_capacity = c1.cold_capacity ∧ c2.count_hot = c1.count_hot ∧
      c2.count_cold = c1.count_cold ∧ c2.count_test = c1.count_test ∧ c2.map = c1.map := by
  unfold meta_add at h
  cases hev : evict fuel c with
  | none => rw [hev] at h; cases h
  | some c1 =>
    rw [hev] at h
    refine ⟨c1, rfl, ?_⟩
    simp only at h
    cases hh : c1.hand_hot with
    | none =>
      rw [hh] at h
      simp only at h
      split at h
      · cases h
      · simp only [Option.some.injEq] at h
        rw [← h]
        exact ⟨rfl, rfl, rfl, rfl, rfl, rfl⟩
    | some a =>
      rw [hh] at h
      simp only at h
      cases hl : Link c1.heap a (some r) with
      | none => rw [hl] at h; cases h
      | some p =>
        rw [hl] at h
        simp only at h
        split at h
        · cases h
        · simp only [Option.some.injEq] at h
          rw [← h]
          exact ⟨rfl, rfl, rfl, rfl, rfl, rfl⟩

theorem PaySame.refl_pay (h : List (Option Entry)) : PaySame h h := fun _ => rfl

theorem PaySame.trans_pay {h h1 h2 : List (Option Entry)} (p1 : PaySame h h1)
    (p2 : PaySame h1 h2) : PaySame h h2 := fun a => (p2 a).trans (p1 a)

theorem PaySame.of_store {h : List (Option Entry)} {m : Nat} {e e1 : Entry}
    (he : load h m = some e) (hp : pay e1 = pay e) : PaySame h (store h m e1) := by
  intro a
  rw [load_store (load_lt he)]
  by_cases ha : a = m
  · subst ha; simp [he, hp]
  · simp [ha]

/-- Forward reading of `PaySame`: a live cell of the new heap was live before, with the
same payload. -/
theorem PaySame.back {h h1 : List (Option Entry)} (p : PaySame h h1) {a : Nat} {e1 : Entry}
    (he : load h1 a = some e1) : ∃ e, load h a = some e ∧ pay e = pay e1 := by
  have := p a
  rw [he] at this
  cases hl : load h a with
  | none => rw [hl] at this; cases this
  | some e =>
    rw [hl] at this
    simp only [Option.map_some', Option.some.injEq] at this
    exact ⟨e, rfl, this.symm⟩

theorem PaySame.fwd {h h1 : List (Option Entry)} (p : PaySame h h1) {a : Nat} {e : Entry}
    (he : load h a = some e) : ∃ e1, load h1 a = some e1 ∧ pay e1 = pay e := by
  have := p a
  rw [he] at this
  cases hl : load h1 a with
  | none => rw [hl] at this; cases this
  | some e1 =>
    rw [hl] at this
    simp only [Option.map_some', Option.some.injEq] at this
    exact ⟨e1, rfl, this⟩

theorem setNext_pay {h h1 : List (Option Entry)} {a x : Nat} (hs : setNext h a x = some h1) :
    PaySame h h1 := by
  unfold setNext at hs
  cases hl : load h a with
  | none => rw [hl] at hs; cases hs
  | some e =>
    rw [hl] at hs
    simp only [Option.some.injEq] at hs
    rw [← hs]
    exact PaySame.of_store hl rfl

theorem setPrev_pay {h h1 : List (Option Entry)} {a x : Nat} (hs : setPrev h a x = some h1) :
    PaySame h h1 := by
  unfold setPrev at hs
  cases hl : load h a with
  | none => rw [hl] at hs; cases hs
  | some e =>
    rw [hl] at hs
    simp only [Option.some.injEq] at hs
    rw [← hs]
    exact PaySame.of_store hl rfl

/-- Re-linking never touches a payload. -/
theorem Link_pay {h h4 : List (Option Entry)} {r n : Nat} {s : Option Nat}
    (hl : Link h r s = some (h4, n)) : PaySame h h4 := by
  unfold Link at hl
  cases h0 : Next h r with
  | none => rw [h0] at hl; cases hl
  | some n0 =>
    rw [h0] at hl
    simp only at hl
    cases s with
    | none =>
      simp only [Option.some.injEq, Prod.mk.injEq] at hl
      rw [← hl.1]; exact PaySame.refl_pay _
    | some s =>
      simp only at hl
      cases hp : Prev h s with
      | none => rw [hp] at hl; cases hl
      | some p =>
        rw [hp] at hl
        simp only at hl
        cases e1 : setNext h r s with
        | none => rw [e1] at hl; cases hl
        | some h1 =>
          rw [e1] at hl
          simp only at hl
          cases e2 : setPrev h1 s r with
          | none => rw [e2] at hl; cases hl
          | some h2 =>
            rw [e2] at hl
            simp only at hl
            cases e3 : setPrev h2 n0 p with
            | none => rw [e3] at hl; cases hl
            | some h3 =>
              rw [e3] at hl
              simp only at hl
              cases e4 : setNext h3 p n0 with
              | none => rw [e4] at hl; cases hl
              | some h5 =>
                rw [e4] at hl
                simp only [Option.some.injEq, Prod.mk.injEq] at hl
                rw [← hl.1]
                exact (((setNext_pay e1).trans_pay (setPrev_pay e2)).trans_pay (setPrev_pay e3)).trans_pay
                  (setNext_pay e4)

theorem Unlink_pay {h h4 : List (Option Entry)} {r : Nat} {n : Int} {x : Option Nat}
    (hu : Unlink h r n = some (h4, x)) : PaySame h h4 := by
  unfold Unlink at hu
  by_cases hn : n ≤ 0
  · simp only [hn, if_true, Option.some.injEq, Prod.mk.injEq] at hu
    rw [← hu.1]; exact PaySame.refl_pay _
  · simp only [hn, if_false] at hu
    cases hm : Move h r (n + 1) with
    | none => rw [hm] at hu; cases hu
    | some s =>
      rw [hm] at hu
      simp only at hu
      cases hl : Link h r (some s) with
      | none => rw [hl] at hu; cases hu
      | some p =>
        obtain ⟨h5, y⟩ := p
        rw [hl] at hu
        simp only [Option.some.injEq, Prod.mk.injEq] at hu
        rw [← hu.1]
        exact Link_pay hl

/-- What `meta_del` does to the payloads and to the index. -/
theorem meta_del_pay {c c1 : Cache} {m : Nat} {d : Bool} (h : meta_del c m d = some c1) :
    ∃ ent, load c.heap m = some ent ∧ c1.map = mapErase c.map ent.key ∧
      (∀ b, b ≠ m → (load c1.heap b).map pay = (load c.heap b).map pay) ∧
      (load c1.heap m).map pay =
        (if d then none else some (ptEmpty, false, ent.key, none)) := by
  unfold meta_del at h
  cases hl : load c.heap m with
  | none => rw [hl] at h; cases h
  | some ent =>
    rw [hl] at h
    simp only at h
    cases hu : Unlink (store c.heap m { ent with ptype := ptEmpty, ref := false, val := none })
        ent.prev 1 with
    | none => rw [hu] at h; cases h
    | some p =>
      obtain ⟨h1, x⟩ := p
      rw [hu] at h
      simp only [Option.some.injEq] at h
      have hps := Unlink_pay hu
      have hlt := load_lt hl
      have hb : ∀ b, (load h1 b).map pay =
          if b = m then some (ptEmpty, false, ent.key, none) else (load c.heap b).map pay := by
        intro b
        rw [hps b, load_store hlt]
        by_cases hbm : b = m
        · simp [hbm, pay]
        · simp [hbm]
      refine ⟨ent, rfl, by rw [← h], ?_, ?_⟩
      · intro b hbm
        rw [← h]
        show (load (if d = true then free h1 m else h1) b).map pay = _
        cases d with
        | true =>
          simp only [if_true]
          rw [load_free_ne (fun x => hbm x.symm), hb b]
          simp [hbm]
        | false =>
          simp only [Bool.false_eq_true, if_false]
          rw [hb b]
          simp [hbm]
      · rw [← h]
        show (load (if d = true then free h1 m else h1) m).map pay = _
        cases d with
        | true => simp [load_free_same]
        | false =>
          simp only [Bool.false_eq_true, if_false]
          rw [hb m]
          simp

theorem Tidy.store_tidy {c s1 : Cache} (ht : Tidy c) {m : Nat} {e e1 : Entry}
    (he : load c.heap m = some e) (hheap : s1.heap = store c.heap m e1)
    (hmap : s1.map = c.map) (hk : e1.key = e.key) (hty : e1.ptype ≠ ptEmpty)
    (hv : e1.val ≠ none ↔ (e1.ptype = ptCold ∨ e1.ptype = ptHot)) : Tidy s1 := by
  intro a x hx
  rw [hheap, load_store (load_lt he)] at hx
  rw [hmap]
  by_cases ha : a = m
  · simp only [ha, if_true, Option.some.injEq] at hx
    subst hx
    exact ⟨hty, by rw [hk, ha]; exact (ht m e he).2.1, hv⟩
  · simp only [ha, if_false] at hx
    exact ht a x hx

theorem Tidy.move_tidy {c s1 : Cache} (ht : Tidy c) (hheap : s1.heap = c.heap)
    (hmap : s1.map = c.map) : Tidy s1 := by
  intro a x hx
  rw [hheap] at hx
  rw [hmap]
  exact ht a x hx

theorem Tidy.pay_tidy {c s1 : Cache} (ht : Tidy c) (hp : PaySame c.heap s1.heap)
    (hmap : s1.map = c.map) : Tidy s1 := by
  intro a x hx
  obtain ⟨e, he, hpay⟩ := hp.back hx
  simp only [pay, Prod.mk.injEq] at hpay
  obtain ⟨p1, _, p3, p4⟩ := hpay
  obtain ⟨t1, t2, t3⟩ := ht a e he
  rw [hmap, ← p1, ← p3, ← p4]
  exact ⟨t1, t2, t3⟩

theorem Plain.pay_plain {c s1 : Cache} (hq : Plain c) (hp : PaySame c.heap s1.heap)
    (hh : s1.count_hot = c.count_hot) : Plain s1 := by
  refine ⟨by rw [hh]; exact hq.1, ?_⟩
  intro a x hx
  obtain ⟨e, he, hpay⟩ := hp.back hx
  simp only [pay, Prod.mk.injEq] at hpay
  obtain ⟨p1, p2, _, _⟩ := hpay
  rw [← p1, ← p2]
  exact hq.2 a e he

theorem hand_hot_body_heap {c c1 : Cache} (h : hand_hot_body c = some c1) :
    c1.map = c.map ∧
    ((c1.heap = c.heap ∧ c1.count_hot = c.count_hot ∧ c1.count_cold = c.count_cold) ∨
      ∃ m e, c.hand_hot = some m ∧ load c.heap m = some e ∧ e.ptype = ptHot ∧
        ((e.ref = true ∧ c1.heap = store c.heap m { e with ref := false } ∧
            c1.count_hot = c.count_hot ∧ c1.count_cold = c.count_cold) ∨
          (e.ref = false ∧ c1.heap = store c.heap m { e with ptype := ptCold } ∧
            c1.count_hot = usub c.count_hot 1 ∧ c1.count_cold = uadd c.count_cold 1))) := by
  unfold hand_hot_body at h
  cases hh : c.hand_hot with
  | none => rw [hh] at h; cases h
  | some m =>
    rw [hh] at h
    simp only at h
    cases hl : load c.heap m with
    | none => rw [hl] at h; cases h
    | some e =>
      rw [hl] at h
      simp only at h
      split at h
      · cases h
      · simp only [Option.some.injEq] at h
        rw [← h]
        by_cases hty : e.ptype = ptHot
        · by_cases hr : e.ref = true
          · rw [if_pos hty, if_pos hr]
            exact ⟨rfl, Or.inr ⟨m, e, rfl, hl, hty, Or.inl ⟨hr, rfl, rfl, rfl⟩⟩⟩
          · have hr0 : e.ref = false := by simpa using hr
            rw [if_pos hty, if_neg hr]
            exact ⟨rfl, Or.inr ⟨m, e, rfl, hl, hty, Or.inr ⟨hr0, rfl, rfl, rfl⟩⟩⟩
        · rw [if_neg hty]
          exact ⟨rfl, Or.inl ⟨rfl, rfl, rfl⟩⟩

theorem hand_test_body_heap {c c1 : Cache} (h : hand_test_body c = some c1) :
    (c1.heap = c.heap ∧ c1.map = c.map ∧ c1.count_test = c.count_test ∧
      c1.hand_cold = c.hand_cold ∧ c1.hand_hot = c.hand_hot ∧
      ∃ m e, c.hand_test = some m ∧ load c.heap m = some e ∧ e.ptype ≠ ptTest) ∨
    (∃ m e c2, c.hand_test = some m ∧ load c.heap m = some e ∧ e.ptype = ptTest ∧
      meta_del c m true = some c2 ∧ c1.heap = c2.heap ∧ c1.map = c2.map ∧
      c1.count_test = usub c.count_test 1 ∧ c1.hand_cold = c2.hand_cold ∧
      c1.hand_hot = c2.hand_hot) := by
  unfold hand_test_body at h
  cases hh : c.hand_test with
  | none => rw [hh] at h; cases h
  | some m =>
    rw [hh] at h
    simp only at h
    cases hl : load c.heap m with
    | none => rw [hl] at h; cases h
    | some e =>
      rw [hl] at h
      simp only at h
      by_cases hty : e.ptype = ptTest
      · simp only [hty, if_true] at h
        cases hd : meta_del c m true with
        | none => rw [hd] at h; cases h
        | some c2 =>
          rw [hd] at h
          simp only at h
          obtain ⟨_, _, _, _, f5⟩ := meta_del_fields hd
          split at h
          · cases h
          · simp only [Option.some.injEq] at h
            rw [← h]
            exact Or.inr ⟨m, e, c2, rfl, hl, hty, hd, rfl, rfl, by rw [← f5], rfl, rfl⟩
      · simp only [hty, if_false] at h
        split at h
        · cases h
        · simp only [Option.some.injEq] at h
          rw [← h]
          exact Or.inl ⟨rfl, rfl, rfl, rfl, rfl, m, e, rfl, hl, hty⟩

/-- A hand step keeps the index and the payloads in agreement. -/
theorem HandStep.tidy {s s1 : Cache} (h : HandStep s s1) (ht : Tidy s) : Tidy s1 := by
  cases h with
  | promote m e hh hl hty hr =>
    refine ht.store_tidy hl rfl rfl rfl (by simp) ?_
    have := (ht m e hl).2.2
    simp only [hty, true_or, iff_true] at this
    simp [this]
  | demote m e hh hl hty hr =>
    exact ht.store_tidy hl rfl rfl rfl (by simp) (by simp)
  | advance _ h =>
    obtain ⟨_, _, _, _, _, f6, f7⟩ := cold_advance_fields h
    exact ht.move_tidy f6 f7
  | hot _ h =>
    obtain ⟨hmap, hc | ⟨m, e, _, hl, hty, hc | hc⟩⟩ := hand_hot_body_heap h
    · exact ht.move_tidy hc.1 hmap
    · exact ht.store_tidy hl hc.2.1 hmap rfl (by simp [hty]) (by
        have := (ht m e hl).2.2
        simpa using this)
    · exact ht.store_tidy hl hc.2.1 hmap rfl (by simp) (by
        have := (ht m e hl).2.2
        simp only [hty, or_true, iff_true] at this
        simp [this])
  | test _ h =>
    rcases hand_test_body_heap h with ⟨f1, f2, _⟩ | ⟨m, e, c2, _, hl, hty, hd, f1, f2, _⟩
    · exact ht.move_tidy f1 f2
    · obtain ⟨ent, hent, hmap, hothers, hself⟩ := meta_del_pay hd
      rw [hl] at hent
      cases hent
      intro a x hx
      rw [f1] at hx
      rw [f2, hmap]
      by_cases ha : a = m
      · subst ha
        have := hself
        rw [hx] at this
        simp at this
      · have hp := hothers a ha
        rw [hx] at hp
        cases hla : load s.heap a with
        | none => rw [hla] at hp; cases hp
        | some y =>
          rw [hla] at hp
          simp only [Option.map_some', Option.some.injEq, pay, Prod.mk.injEq] at hp
          obtain ⟨p1, _, p3, p4⟩ := hp
          obtain ⟨t1, t2, t3⟩ := ht a y hla
          have hkne : y.key ≠ e.key := by
            intro hk
            have t2m := (ht m e hl).2.1
            rw [hk, t2m] at t2
            exact ha (Option.some.inj t2).symm
          rw [p1, p3, p4, mapFind_erase]
          simp only [hkne, if_false]
          exact ⟨t1, t2, t3⟩

/-- A hand step keeps a cache free of hot and referenced pages. -/
theorem HandStep.plain {s s1 : Cache} (h : HandStep s s1) (hq : Plain s) : Plain s1 := by
  cases h with
  | promote m e hh hl hty hr =>
    have := (hq.2 m e hl).1
    rw [hr] at this
    cases this
  | demote m e hh hl hty hr =>
    refine ⟨hq.1, ?_⟩
    intro a x hx
    have hx1 : load (store s.heap m { e with ptype := ptTest, val := none }) a = some x := hx
    rw [load_store (load_lt hl)] at hx1
    by_cases ha : a = m
    · simp only [ha, if_true, Option.some.injEq] at hx1
      subst hx1
      exact ⟨hr, by simp⟩
    · simp only [ha, if_false] at hx1
      exact hq.2 a x hx1
  | advance _ h =>
    obtain ⟨_, _, f3, _, _, f6, _⟩ := cold_advance_fields h
    refine ⟨by rw [f3]; exact hq.1, ?_⟩
    rw [f6]; exact hq.2
  | hot _ h =>
    obtain ⟨_, hc | ⟨m, e, _, hl, hty, _⟩⟩ := hand_hot_body_heap h
    · refine ⟨by rw [hc.2.1]; exact hq.1, ?_⟩
      rw [hc.1]; exact hq.2
    · exact absurd hty (hq.2 m e hl).2
  | test _ h =>
    obtain ⟨_, _, f3, _⟩ := hand_test_body_fields h
    refine ⟨by rw [f3]; exact hq.1, ?_⟩
    rcases hand_test_body_heap h with ⟨f1, _⟩ | ⟨m, e, c2, _, hl, hty, hd, f1, _⟩
    · rw [f1]; exact hq.2
    · obtain ⟨ent, hent, _, hothers, hself⟩ := meta_del_pay hd
      intro a x hx
      rw [f1] at hx
      by_cases ha : a = m
      · subst ha
        have := hself
        rw [hx] at this
        simp at this
      · have hp := hothers a ha
        rw [hx] at hp
        cases hla : load s.heap a with
        | none => rw [hla] at hp; cases hp
        | some y =>
          rw [hla] at hp
          simp only [Option.map_some', Option.some.injEq, pay, Prod.mk.injEq] at hp
          obtain ⟨p1, p2, _, _⟩ := hp
          rw [p1, p2]
          exact hq.2 a y hla

theorem steps_tidy {s s1 : Cache} (h : Relation.ReflTransGen HandStep s s1) (ht : Tidy s) :
    Tidy s1 := by
  induction h with
  | refl => exact ht
  | tail _ hstep ih => exact hstep.tidy ih

theorem steps_plain {s s1 : Cache} (h : Relation.ReflTransGen HandStep s s1) (hq : Plain s) :
    Plain s1 := by
  induction h with
  | refl => exact hq
  | tail _ hstep ih => exact hstep.plain ih

theorem hot_loop_noop {f : Nat} {c c1 : Cache} (h0 : c.count_hot = 0)
    (h : cold_hot_loop f c = some c1) : c1 = c := by
  cases f with
  | zero => cases h
  | succ f =>
    rw [cold_hot_loop_succ, h0] at h
    simp only [Nat.not_lt_zero, if_false, Option.some.injEq] at h
    exact h.symm

theorem tyO_some {h : List (Option Entry)} {o : Option Nat} {t : PageType}
    (ht : tyO h o = some t) : ∃ m e, o = some m ∧ load h m = some e ∧ e.ptype = t := by
  cases o with
  | none => cases ht
  | some m =>
    simp only [tyO, tyAt] at ht
    cases hl : load h m with
    | none => rw [hl] at ht; cases ht
    | some e =>
      rw [hl] at ht
      simp only [Option.map_some', Option.some.injEq] at ht
      exact ⟨m, e, rfl, hl, ht⟩

/-- With no hot page, `run_hand_cold` on a page that is not cold only advances
`hand_cold`. -/
theorem rc_skip {f : Nat} {c c1 : Cache} {m : Nat} {e : Entry} (h0 : c.count_hot = 0)
    (hh : c.hand_cold = some m) (hl : load c.heap m = some e) (hty : e.ptype ≠ ptCold)
    (h : run_hand_cold f c = some c1) : c1 = { c with hand_cold := some e.next } := by
  cases f with
  | zero => cases h
  | succ f =>
    rw [run_hand_cold_succ, hh] at h
    simp only at h
    rw [hl] at h
    simp only [hty, if_false] at h
    have ha : cold_advance c = some { c with hand_cold := some e.next } := by
      unfold cold_advance
      rw [hh]
      simp only
      rw [Next_of_load hl]
    rw [ha] at h
    exact hot_loop_noop h0 h

/-- With no hot page and `hand_cold` on a test page, `run_hand_test` evicts nothing. -/
theorem rt_keep {f : Nat} {c c1 : Cache} (h0 : c.count_hot = 0)
    (hB : tyO c.heap c.hand_cold = some ptTest) (h : run_hand_test f c = some c1) :
    c1.count_cold = c.count_cold ∧ c1.count_hot = 0 := by
  obtain ⟨m, e, hh, hl, hty⟩ := tyO_some hB
  cases f with
  | zero => cases h
  | succ f =>
    rw [run_hand_test_succ] at h
    by_cases hc : c.hand_test = c.hand_cold
    · simp only [hc, if_true] at h
      cases hr : run_hand_cold f c with
      | none => rw [hr] at h; cases h
      | some c2 =>
        rw [hr] at h
        have e2 := rc_skip h0 hh hl (by rw [hty]; simp) hr
        obtain ⟨_, _, f3, f4⟩ := hand_test_body_fields h
        rw [f3, f4, e2]
        exact ⟨rfl, h0⟩
    · simp only [hc, if_false] at h
      obtain ⟨_, _, f3, f4⟩ := hand_test_body_fields h
      rw [f3, f4]
      exact ⟨rfl, h0⟩

/-- With no hot page, the test loop of `run_hand_cold` evicts nothing. -/
theorem tl_keep {X : Nat → Prop} : ∀ (f : Nat) (c : Cache) (L : List Nat) (c1 : Cache),
    HInv c L X → c.count_hot = 0 → ModeB c → cold_test_loop f c = some c1 →
      c1.count_cold = c.count_cold ∧ c1.count_hot = 0
  | 0, _, _, _, _, _, _, h => by cases h
  | f + 1, c, L, c1, hi, h0, hB, h => by
    rw [cold_test_loop_succ] at h
    by_cases hc : c.capacity < c.count_test
    · simp only [hc, if_true] at h
      have hEx : Ex c := by unfold Ex; have := hi.testle; omega
      have hBt := hB hEx
      have h2 : 2 ≤ L.length := by
        rw [hi.toCore.length_eq]; unfold Ex at hEx; have := hi.cap3; omega
      cases hr : run_hand_test f c with
      | none => rw [hr] at h; cases h
      | some c2 =>
        rw [hr] at h
        obtain ⟨k1, k2⟩ := rt_keep h0 hBt hr
        obtain ⟨L2, hi2, _, _, hpost⟩ := engine_sound Kind.RT hi
          ⟨fun _ => Or.inr hBt, fun _ => (by unfold Rq; rw [hBt]; intro x; cases x), h2⟩ hr
        obtain ⟨k3, k4⟩ := tl_keep f c2 L2 c1 hi2 k2 hpost.1 h
        exact ⟨k3.trans k1, k4⟩
    · simp only [hc, if_false, Option.some.injEq] at h
      rw [← h]
      exact ⟨rfl, h0⟩

/-- With no hot page, `run_hand_cold` on an unreferenced cold page evicts exactly that
page. -/
theorem rc_cold {X : Nat → Prop} {f : Nat} {c c1 : Cache} {L : List Nat} {m : Nat} {e : Entry}
    (hi : HInv c L X) (hE : ¬ Ex c) (hres : 2 ≤ c.count_hot + c.count_cold)
    (h0 : c.count_hot = 0) (hh : c.hand_cold = some m) (hl : load c.heap m = some e)
    (hty : e.ptype = ptCold) (hr : e.ref = false) (h : run_hand_cold f c = some c1) :
    c1.count_cold + 1 = c.count_cold ∧ c1.count_hot = 0 := by
  have hmL : m ∈ L := by
    obtain ⟨a, ha, haL⟩ := hi.hc
    rw [hh] at ha
    cases ha
    exact haL
  have htest : c.count_test ≤ c.capacity := by
    have := hi.testle
    unfold Ex at hE
    omega
  obtain ⟨hid, _, _, htyd⟩ := cold_demote_spec hi hmL hl hty hr hres htest
  have hlt := hi.count_lt
  have hu : usub c.count_cold 1 = c.count_cold - 1 := usub_eq (by omega) hlt.2.1
  cases f with
  | zero => cases h
  | succ f =>
    rw [run_hand_cold_succ, hh] at h
    simp only at h
    rw [hl] at h
    simp only [hty, hr, if_true, Bool.false_eq_true, if_false] at h
    cases ht : cold_test_loop f (cold_demote c m e) with
    | none => rw [ht] at h; cases h
    | some c2 =>
      rw [ht] at h
      simp only at h
      have hBd : ModeB (cold_demote c m e) := by
        intro _
        show tyO (cold_demote c m e).heap c.hand_cold = some ptTest
        rw [hh]
        exact htyd
      obtain ⟨k1, k2⟩ := tl_keep f _ L c2 hid h0 hBd ht
      cases ha : cold_advance c2 with
      | none => rw [ha] at h; cases h
      | some c3 =>
        rw [ha] at h
        simp only at h
        obtain ⟨_, _, g3, g4, _⟩ := cold_advance_fields ha
        have e3 := hot_loop_noop (by rw [g3]; exact k2) h
        rw [e3, g3, g4, k1]
        refine ⟨?_, k2⟩
        show usub c.count_cold 1 + 1 = c.count_cold
        rw [hu]
        omega

/-- In a full cache without hot or referenced pages `evict` evicts exactly one page. -/
theorem evict_one_out {X : Nat → Prop} : ∀ (f : Nat) (c : Cache) (L : List Nat) (c1 : Cache),
    HInv c L X → ¬ Ex c → Plain c → c.count_hot + c.count_cold = c.capacity →
      evict f c = some c1 →
      c1.count_hot + c1.count_cold + 1 = c.capacity ∧ c1.capacity = c.capacity
  | 0, _, _, _, _, _, _, _, h => by cases h
  | f + 1, c, L, c1, hi, hE, hq, hfull, h => by
    have hlt := hi.count_lt
    have hadd : uadd c.count_hot c.count_cold = c.count_hot + c.count_cold :=
      uadd_eq (by omega)
    have hcap := hi.cap3
    rw [evict_succ, hadd] at h
    simp only [hfull, le_refl, if_true] at h
    cases hr : run_hand_cold f c with
    | none => rw [hr] at h; cases h
    | some c2 =>
      rw [hr] at h
      have h2 : 2 ≤ L.length := by rw [hi.toCore.length_eq]; omega
      obtain ⟨L2, hi2, hfr2, _, hpost⟩ := engine_sound Kind.RC hi
        ⟨fun x => absurd x hE, fun _ => by omega, h2⟩ hr
      have hE2 : ¬ Ex c2 := hpost.2.1 hE
      have hq2 : Plain c2 := steps_plain (runK_steps Kind.RC hr) hq
      obtain ⟨m, hh, hmL⟩ := hi.hc
      obtain ⟨e, hl, _, _⟩ := hi.ring.mem_load hmL
      have hty := hi.types m hmL
      rw [tyAt_of_load hl] at hty
      have hnh : e.ptype ≠ ptHot := (hq.2 m e hl).2
      have href : e.ref = false := (hq.2 m e hl).1
      by_cases hcold : e.ptype = ptCold
      · obtain ⟨k1, k2⟩ := rc_cold hi hE (by omega) hq.1 hh hl hcold href hr
        have hlt2 := hi2.count_lt
        have hno : ¬ c2.capacity ≤ uadd c2.count_hot c2.count_cold := by
          rw [uadd_eq (by omega), hfr2.cap, k2]
          have := hq.1
          omega
        have e1 := evict_noop hno h
        rw [e1, k2, hfr2.cap]
        have := hq.1
        exact ⟨by omega, rfl⟩
      · have e2 := rc_skip hq.1 hh hl hcold hr
        have hfull2 : c2.count_hot + c2.count_cold = c2.capacity := by
          rw [e2]; exact hfull
        obtain ⟨k1, k2⟩ := evict_one_out f c2 L2 c1 hi2 hE2 hq2 hfull2 h
        rw [k1, k2, hfr2.cap]
        exact ⟨rfl, rfl⟩

/-- A full boundary state satisfies the invariant of the hand routines. -/
theorem BInv.toHInv {s : Cache} {L : List Nat} {X : Nat → Prop} (hb : BInv s L X)
    (hc : s.capacity ≤ s.count_hot + s.count_cold) : HInv s L X := by
  have hcap := hb.cap3
  have hlen := hb.ring_length
  have hne : L ≠ [] := by
    intro h0
    rw [h0] at hlen
    simp at hlen
    omega
  have hh := (hb.hands).resolve_left (fun h => hne h.1)
  exact
    { hb.toCore with
      hh := hh.1
      hc := hh.2.1
      ht := hh.2.2.1
      res1 := hh.2.2.2
      resle := hb.resle
      testle := by have := hb.testle; omega
      two := fun _ => by omega }

/-- A hand step only removes index entries. -/
theorem HandStep.map_sub {s s1 : Cache} (h : HandStep s s1) {k a : Nat}
    (hf : mapFind s1.map k = some a) : mapFind s.map k = some a := by
  cases h with
  | promote m e hh hl hty hr => exact hf
  | demote m e hh hl hty hr => exact hf
  | advance _ h =>
    obtain ⟨_, _, _, _, _, _, f7⟩ := cold_advance_fields h
    rw [f7] at hf; exact hf
  | hot _ h =>
    obtain ⟨_, _, _, f4⟩ := hand_hot_body_fields h
    rw [f4] at hf; exact hf
  | test _ h =>
    rcases hand_test_body_heap h with ⟨_, f2, _⟩ | ⟨m, e, c2, _, _, _, hd, _, f2, _⟩
    · rw [f2] at hf; exact hf
    · obtain ⟨ent, _, hmap, _, _⟩ := meta_del_pay hd
      rw [f2, hmap, mapFind_erase] at hf
      by_cases hk : k = ent.key
      · simp [hk] at hf
      · simpa [hk] using hf

theorem steps_map_sub {s s1 : Cache} (h : Relation.ReflTransGen HandStep s s1) {k a : Nat}
    (hf : mapFind s1.map k = some a) : mapFind s.map k = some a := by
  induction h with
  | refl => exact hf
  | tail _ hstep ih => exact ih (hstep.map_sub hf)

/-- The linking part of `meta_add` touches no payload. -/
theorem meta_add_pay {fuel : Nat} {c c2 : Cache} {r : Nat}
    (h : meta_add fuel c r = some c2) :
    ∃ c1, evict fuel c = some c1 ∧ PaySame c1.heap c2.heap := by
  unfold meta_add at h
  cases hev : evict fuel c with
  | none => rw [hev] at h; cases h
  | some c1 =>
    rw [hev] at h
    refine ⟨c1, rfl, ?_⟩
    simp only at h
    cases hh : c1.hand_hot with
    | none =>
      rw [hh] at h
      simp only at h
      split at h
      · cases h
      · simp only [Option.some.injEq] at h
        rw [← h]
        exact PaySame.refl_pay _
    | some a =>
      rw [hh] at h
      simp only at h
      cases hl : Link c1.heap a (some r) with
      | none => rw [hl] at h; cases h
      | some p =>
        obtain ⟨h4, n⟩ := p
        rw [hl] at h
        simp only at h
        split at h
        · cases h
        · simp only [Option.some.injEq] at h
          rw [← h]
          exact Link_pay hl

/-- The miss path of `Set`, read backwards from its result. -/
theorem Set_miss_inv {fuel : Nat} {c s1 : Cache} {k v : Nat} {g b : Bool}
    (hm : mapFind c.map k = none) (h : Set fuel c k v g = some (s1, b)) :
    ∃ c2, meta_add fuel { c with
        heap := c.heap ++ [some (Entry.make c.heap.length g k v ptCold)]
        map := mapInsertOrAssign c.map k c.heap.length } c.heap.length = some c2 ∧
      s1 = { c2 with count_cold := uadd c2.count_cold 1 } ∧ b = true := by
  unfold Set at h
  rw [hm] at h
  simp only at h
  cases ha : meta_add fuel { c with
      heap := c.heap ++ [some (Entry.make c.heap.length g k v ptCold)]
      map := mapInsertOrAssign c.map k c.heap.length } c.heap.length with
  | none => rw [ha] at h; cases h
  | some c2 =>
    rw [ha] at h
    simp only [Option.some.injEq, Prod.mk.injEq] at h
    exact ⟨c2, rfl, h.1.symm, h.2.symm⟩

theorem Tidy.alloc_tidy {c : Cache} (ht : Tidy c) {k : Nat} (hm : mapFind c.map k = none)
    (e : Entry) (hk : e.key = k) (hty : e.ptype = ptCold) (hv : e.val ≠ none) :
    Tidy { c with heap := c.heap ++ [some e], map := mapInsertOrAssign c.map k c.heap.length } := by
  intro a x hx
  have hx1 : load (c.heap ++ [some e]) a = some x := hx
  show x.ptype ≠ ptEmpty ∧ mapFind (mapInsertOrAssign c.map k c.heap.length) x.key = some a ∧ _
  rw [mapFind_insert]
  by_cases ha : a < c.heap.length
  · rw [load_append_of_lt ha] at hx1
    obtain ⟨t1, t2, t3⟩ := ht a x hx1
    have hne : x.key ≠ k := by
      intro h
      rw [h, hm] at t2
      cases t2
    simp only [hne, if_false]
    exact ⟨t1, t2, t3⟩
  · have hlt := load_lt hx1
    simp only [List.length_append, List.length_singleton] at hlt
    have hal : a = c.heap.length := by omega
    subst hal
    rw [load_append_new] at hx1
    cases hx1
    rw [if_pos hk]
    refine ⟨by rw [hty]; simp, rfl, ?_⟩
    simp [hty, hv]

theorem Plain.alloc_plain {c : Cache} (hq : Plain c) (e : Entry) (hr : e.ref = false)
    (hty : e.ptype = ptCold) (m : List (Nat × Nat)) :
    Plain { c with heap := c.heap ++ [some e], map := m } := by
  refine ⟨hq.1, ?_⟩
  intro a x hx
  have hx1 : load (c.heap ++ [some e]) a = some x := hx
  by_cases ha : a < c.heap.length
  · rw [load_append_of_lt ha] at hx1
    exact hq.2 a x hx1
  · have hlt := load_lt hx1
    simp only [List.length_append, List.length_singleton] at hlt
    have hal : a = c.heap.length := by omega
    subst hal
    rw [load_append_new] at hx1
    cases hx1
    exact ⟨hr, by rw [hty]; simp⟩

/-- One more `Set` on a new key keeps the churn invariant. -/
theorem Churn.step {s : Cache} {L ks : List Nat} (hc : Churn s L ks) {k : Nat} (hk : k ∉ ks)
    (v : Nat) :
    ∃ fuel s1 L1, Set fuel s k v false = some (s1, true) ∧ Churn s1 L1 (ks ++ [k]) ∧
      s1.capacity = s.capacity := by
  have hm : mapFind s.map k = none := by
    cases h : mapFind s.map k with
    | none => rfl
    | some a => exact absurd (hc.keys k a h) hk
  obtain ⟨fuel, s1, L1, hs, hb1, hcap⟩ := Set_miss hc.binv v false hm
  obtain ⟨c2, hadd, hs1, _⟩ := Set_miss_inv hm hs
  have hb0 := hc.binv.alloc k (Entry.make s.heap.length false k v ptCold) rfl
    (by simp [Entry.make])
  have ht0 := hc.tidy.alloc_tidy hm (Entry.make s.heap.length false k v ptCold) rfl rfl
    (by simp [Entry.make])
  have hq0 := hc.plain.alloc_plain (Entry.make s.heap.length false k v ptCold) rfl rfl
    (mapInsertOrAssign s.map k s.heap.length)
  obtain ⟨c0, hc0⟩ : ∃ c0 : Cache, c0 = { s with
      heap := s.heap ++ [some (Entry.make s.heap.length false k v ptCold)]
      map := mapInsertOrAssign s.map k s.heap.length } := ⟨_, rfl⟩
  rw [← hc0] at hadd hb0 ht0 hq0
  have g1 : c0.count_hot = s.count_hot := by rw [hc0]
  have g2 : c0.count_cold = s.count_cold := by rw [hc0]
  have g3 : c0.capacity = s.capacity := by rw [hc0]
  have g4 : c0.map = mapInsertOrAssign s.map k s.heap.length := by rw [hc0]
  obtain ⟨c1, hev, a1, _, a3, a4, _, a6⟩ := meta_add_fields hadd
  obtain ⟨c1', hev', hpay⟩ := meta_add_pay hadd
  rw [hev] at hev'
  cases hev'
  have hsteps := evict_steps _ _ _ hev
  have ht1 := steps_tidy hsteps ht0
  have hq1 := steps_plain hsteps hq0
  have ht2 : Tidy c2 := ht1.pay_tidy hpay a6
  have hq2 : Plain c2 := hq1.pay_plain hpay a3
  have hres := hc.binv.resle
  have hS := hc.binv.capS
  have h0 := hc.plain.1
  have hcold := hc.cold
  have hcnt : c1.count_cold + 1 = min (ks.length + 1) s.capacity ∧ c1.count_cold < s.capacity := by
    by_cases hfull : s.capacity ≤ s.count_hot + s.count_cold
    · obtain ⟨k1, _⟩ := evict_one_out _ c0 L c1
        (hb0.toHInv (by rw [g1, g2, g3]; exact hfull))
        (not_Ex_of_le hb0.testle) hq0 (by rw [g1, g2, g3]; omega) hev
      have := hq1.1
      rw [g3] at k1
      omega
    · have hno : ¬ c0.capacity ≤ uadd c0.count_hot c0.count_cold := by
        rw [g1, g2, g3, uadd_eq (by omega)]
        exact hfull
      have e1 := evict_noop hno hev
      rw [e1, g2]
      omega
  have hu : uadd c2.count_cold 1 = c2.count_cold + 1 := uadd_eq (by rw [a4]; omega)
  refine ⟨fuel, s1, L1, hs, ?_, hcap⟩
  exact
    { binv := hb1
      plain := by
        rw [hs1]
        exact ⟨hq2.1, hq2.2⟩
      tidy := by
        rw [hs1]
        exact ht2.move_tidy rfl rfl
      keys := by
        intro k1 a hf
        rw [hs1] at hf
        have hf2 : mapFind c2.map k1 = some a := hf
        rw [a6] at hf2
        have hf0 := steps_map_sub hsteps hf2
        rw [g4, mapFind_insert] at hf0
        by_cases hk1 : k1 = k
        · rw [hk1]; simp
        · simp only [hk1, if_false] at hf0
          exact List.mem_append_left _ (hc.keys k1 a hf0)
      cold := by
        rw [hcap, hs1]
        show uadd c2.count_cold 1 = _
        rw [hu, a4, List.length_append, List.length_singleton]
        exact hcnt.1 }

/-- More fuel does not change what a call sequence returns. -/
theorem runCalls_mono {f f1 : Nat} (hf : f ≤ f1) (g : Bool) :
    ∀ (cs : List Call) (c c1 : Cache), runCalls f g c cs = some c1 →
      runCalls f1 g c cs = some c1
  | [], _, _, h => h
  | Call.get k :: rest, c, c1, h => by
    rw [runCalls] at h ⊢
    cases hg : Get c k with
    | none => rw [hg] at h; cases h
    | some p =>
      rw [hg] at h
      exact runCalls_mono hf g rest p.1 c1 h
  | Call.set k v :: rest, c, c1, h => by
    rw [runCalls] at h ⊢
    cases hs : Set f c k v g with
    | none => rw [hs] at h; cases h
    | some p =>
      rw [hs] at h
      rw [Set_mono hf hs]
      exact runCalls_mono hf g rest p.1 c1 h

/-- Inserting pairwise new keys one after the other keeps the churn invariant. -/
theorem churn_run (v : Nat → Nat) :
    ∀ (rest ks : List Nat) (s : Cache) (L : List Nat), Churn s L ks → (∀ k ∈ rest, k ∉ ks) →
      rest.Nodup →
      ∃ fuel s1 L1, runCalls fuel false s (setAll v rest) = some s1 ∧
        Churn s1 L1 (ks ++ rest) ∧ s1.capacity = s.capacity
  | [], ks, s, L, hc, _, _ => ⟨0, s, L, rfl, by rw [List.append_nil]; exact hc, rfl⟩
  | k :: rest, ks, s, L, hc, hnew, hnd => by
    obtain ⟨f1, s1, L1, hs1, hc1, hcap1⟩ := hc.step (hnew k (List.mem_cons_self _ _)) (v k)
    have hnd2 := List.nodup_cons.mp hnd
    obtain ⟨f2, s2, L2, hs2, hc2, hcap2⟩ := churn_run v rest (ks ++ [k]) s1 L1 hc1
      (by
        intro k1 hk1 hmem
        rcases List.mem_append.mp hmem with h | h
        · exact hnew k1 (List.mem_cons_of_mem _ hk1) h
        · rw [List.mem_singleton] at h
          rw [h] at hk1
          exact hnd2.1 hk1)
      hnd2.2
    refine ⟨max f1 f2, s2, L2, ?_, ?_, hcap2.trans hcap1⟩
    · show runCalls (max f1 f2) false s (Call.set k (v k) :: setAll v rest) = some s2
      rw [runCalls, Set_mono (le_max_left f1 f2) hs1]
      exact runCalls_mono (le_max_right f1 f2) false _ _ _ hs2
    · rw [List.append_assoc] at hc2
      exact hc2

/-- A fresh cache satisfies the churn invariant for the empty key list. -/
theorem churn_new {n : Nat} {c : Cache} (hn : n + 1 < SIZE) (hc : Cache.new n = Except.ok c) :
    Churn c [] [] := by
  have hb := binv_new hn hc
  unfold Cache.new at hc
  by_cases h3 : n < 3
  · simp [h3] at hc
  · simp only [h3, if_false, Except.ok.injEq] at hc
    subst hc
    exact
      { binv := hb
        plain := ⟨rfl, fun a e h => by simp [load] at h⟩
        tidy := fun a e h => by simp [load] at h
        keys := fun k a h => by simp [mapFind] at h
        cold := by simp }

theorem keyAt_of_load {h : List (Option Entry)} {a : Nat} {e : Entry}
    (he : load h a = some e) : keyAt h a = e.key := by
  unfold keyAt
  rw [he]

/-- Reading of `readable`: the key is bound to a descriptor that holds a value. -/
theorem readable_iff {s : Cache} {k : Nat} :
    readable s k = true ↔
      ∃ a e, mapFind s.map k = some a ∧ load s.heap a = some e ∧ e.val ≠ none := by
  unfold readable getVal Get
  cases hm : mapFind s.map k with
  | none => simp
  | some a =>
    simp only
    cases hl : load s.heap a with
    | none => simp [hl]
    | some e =>
      simp only
      cases hv : e.val with
      | none => simp [hl, hv]
      | some x => simp [hl, hv]

/-- In a churn state the readable keys among `ks` are as many as the cold pages. -/
theorem Churn.readable_count {s : Cache} {L ks : List Nat} (hc : Churn s L ks)
    (hnd : ks.Nodup) : (ks.filter (fun k => readable s k)).length = s.count_cold := by
  have hb := hc.binv
  obtain ⟨K, hK⟩ : ∃ K, K = (L.filter (fun a => decide (tyAt s.heap a = some ptCold))).map
      (keyAt s.heap) := ⟨_, rfl⟩
  have hlen : K.length = s.count_cold := by
    rw [hK, List.length_map, hb.ncold]
    unfold cnt
    rw [List.countP_eq_length_filter]
  have hKnd : K.Nodup := by
    rw [hK]
    refine List.Nodup.map_on ?_ (hb.ring.nodup.filter _)
    intro a ha b hb2 hab
    have haL := (List.mem_filter.mp ha).1
    have hbL := (List.mem_filter.mp hb2).1
    obtain ⟨ea, hea, _⟩ := hb.ring.mem_load haL
    obtain ⟨eb, heb, _⟩ := hb.ring.mem_load hbL
    rw [keyAt_of_load hea, keyAt_of_load heb] at hab
    have t1 := (hc.tidy a ea hea).2.1
    have t2 := (hc.tidy b eb heb).2.1
    rw [hab, t2] at t1
    exact (Option.some.inj t1).symm
  have hmem : ∀ k, k ∈ ks.filter (fun k => readable s k) ↔ k ∈ K := by
    intro k
    rw [List.mem_filter, hK, List.mem_map]
    constructor
    · rintro ⟨_, hr⟩
      obtain ⟨a, e, hm, hl, hv⟩ := readable_iff.mp hr
      obtain ⟨hin, e1, he1, hkey, _⟩ := hb.map k a hm
      rw [hl] at he1
      cases he1
      have hres := (hc.tidy a e hl).2.2.mp hv
      have hnh := (hc.plain.2 a e hl).2
      have hcold : e.ptype = ptCold := hres.resolve_right hnh
      refine ⟨a, List.mem_filter.mpr ⟨hin.resolve_right id, ?_⟩, ?_⟩
      · rw [tyAt_of_load hl, hcold]; simp
      · rw [keyAt_of_load hl, hkey]
    · rintro ⟨a, ha, hka⟩
      obtain ⟨haL, hty⟩ := List.mem_filter.mp ha
      obtain ⟨e, he, _⟩ := hb.ring.mem_load haL
      rw [tyAt_of_load he] at hty
      have hcold : e.ptype = ptCold := by simpa using hty
      rw [keyAt_of_load he] at hka
      obtain ⟨_, t2, t3⟩ := hc.tidy a e he
      rw [hka] at t2
      refine ⟨hc.keys k a t2, readable_iff.mpr ⟨a, e, t2, he, t3.mpr (Or.inl hcold)⟩⟩
  have hperm : (ks.filter (fun k => readable s k)).Perm K :=
    (List.perm_ext_iff_of_nodup (hnd.filter _) hKnd).mpr hmem
  rw [hperm.length_eq, hlen]

theorem store_store (h : List (Option Entry)) (a : Nat) (e1 e2 : Entry) :
    store (store h a e1) a e2 = store h a e2 := by
  unfold store
  rw [List.set_set]

/-- One turn of `evict` on a referenced cold page when the three hands stand together,
there is no hot page and the hot budget is zero: the page is promoted by `hand_cold`,
demoted again by `hand_hot`, and all three hands move on; only its reference bit is
lost. -/
theorem rc_pass {c : Cache} {x y : Nat} {e : Entry} (hh : c.hand_hot = some x)
    (hc : c.hand_cold = some x) (ht : c.hand_test = some x) (hl : load c.heap x = some e)
    (hty : e.ptype = ptCold) (hr : e.ref = true) (hn : e.next = y) (hyx : y ≠ x)
    (h0 : c.count_hot = 0) (hcc : c.cold_capacity = c.capacity)
    (hcold : 1 ≤ c.count_cold) (hS : c.count_cold < SIZE) (hcap : c.capacity < SIZE)
    (f : Nat) :
    run_hand_cold (f + 4) c =
      some { c with
        heap := store c.heap x { e with ref := false }
        hand_hot := some y
        hand_cold := some y
        hand_test := some y } := by
  have hlt := load_lt hl
  have hu0 : usub c.capacity c.capacity = 0 := by
    rw [usub_eq (le_refl _) hcap]; omega
  have hsub : usub c.count_cold 1 = c.count_cold - 1 := usub_eq hcold hS
  have hback : uadd (usub c.count_cold 1) 1 = c.count_cold := by
    rw [hsub, uadd_eq (by omega)]; omega
  have h1 : uadd c.count_hot 1 = 1 := by rw [h0]; exact uadd_eq (by unfold SIZE; norm_num)
  have h10 : usub 1 1 = 0 := by rw [usub_eq (le_refl _) (by unfold SIZE; norm_num)]
  -- the promoted state
  obtain ⟨ca, hca⟩ : ∃ ca, ca = cold_promote c x e := ⟨_, rfl⟩
  have la : load ca.heap x = some { e with ptype := ptHot, ref := false } := by
    rw [hca]; exact load_store_same hlt
  -- hand_cold advanced
  obtain ⟨cb, hcb⟩ : ∃ cb : Cache, cb = { ca with hand_cold := some y } := ⟨_, rfl⟩
  have adv : cold_advance ca = some cb := by
    unfold cold_advance
    have : ca.hand_cold = some x := by rw [hca]; exact hc
    rw [this]
    simp only
    rw [Next_of_load la, hcb]
    simp only [hn]
  have lb : load cb.heap x = some { e with ptype := ptHot, ref := false } := by
    rw [hcb]; exact la
  -- run_hand_test inside run_hand_hot: the test hand passes the hot page
  obtain ⟨cc, hcx⟩ : ∃ cc : Cache, cc = { cb with hand_test := some y } := ⟨_, rfl⟩
  have rt : run_hand_test (f + 1) cb = some cc := by
    rw [run_hand_test_succ]
    have e1 : cb.hand_test = some x := by rw [hcb, hca]; exact ht
    have e2 : cb.hand_cold = some y := by rw [hcb]
    have hne : ¬ cb.hand_test = cb.hand_cold := by
      rw [e1, e2]; intro h; exact hyx (Option.some.inj h).symm
    simp only [hne, if_false]
    unfold hand_test_body
    rw [e1]
    simp only
    rw [lb]
    simp only [reduceCtorEq, if_false]
    rw [Next_of_load lb, hcx]
    simp only [hn]
  have lc : load cc.heap x = some { e with ptype := ptHot, ref := false } := by
    rw [hcx]; exact lb
  -- body of run_hand_hot: the page becomes cold again
  obtain ⟨cd, hcd⟩ : ∃ cd : Cache, cd = { c with
      heap := store c.heap x { e with ref := false }
      hand_hot := some y
      hand_cold := some y
      hand_test := some y } := ⟨_, rfl⟩
  have hb : hand_hot_body cc = some cd := by
    unfold hand_hot_body
    have e1 : cc.hand_hot = some x := by rw [hcx, hcb, hca]; exact hh
    rw [e1]
    simp only
    rw [lc]
    simp only [if_true, Bool.false_eq_true, if_false]
    have hx2 : x < cc.heap.length := load_lt lc
    rw [Next_of_load (load_store_same hx2)]
    simp only [hn]
    rw [hcd, hcx, hcb, hca]
    simp only [cold_promote, store_store, h1, h10, hback, Option.some.injEq]
    rw [h0, ← hn, hty]
  have rh : run_hand_hot (f + 2) cb = some cd := by
    rw [run_hand_hot_succ]
    have e1 : cb.hand_hot = cb.hand_test := by
      rw [hcb, hca]
      show c.hand_hot = c.hand_test
      rw [hh, ht]
    simp only [e1, if_true]
    rw [rt]
    exact hb
  have hl2 : cold_hot_loop (f + 3) cb = some cd := by
    rw [cold_hot_loop_succ]
    have e1 : usub cb.capacity cb.cold_capacity < cb.count_hot := by
      rw [hcb, hca]
      show usub c.capacity c.cold_capacity < uadd c.count_hot 1
      rw [hcc, hu0, h1]
      omega
    simp only [e1, if_true]
    rw [rh]
    simp only
    rw [cold_hot_loop_succ]
    have e2 : ¬ usub cd.capacity cd.cold_capacity < cd.count_hot := by
      rw [hcd]
      show ¬ usub c.capacity c.cold_capacity < c.count_hot
      rw [h0]
      omega
    simp only [e2, if_false]
  rw [run_hand_cold_succ, hc]
  simp only
  rw [hl]
  simp only [hty, hr, if_true]
  rw [← hca, adv]
  simp only
  rw [hl2, hcd]
  simp only [hty]

/-- One turn of `evict` on an unreferenced cold page when there is no hot page and the
test history has room: the page becomes a test page, its value is dropped, and
`hand_cold` moves on. -/
theorem rc_evict {c : Cache} {x y : Nat} {e : Entry} (hc : c.hand_cold = some x)
    (hl : load c.heap x = some e) (hty : e.ptype = ptCold) (hr : e.ref = false)
    (hn : e.next = y) (h0 : c.count_hot = 0) (htest : uadd c.count_test 1 ≤ c.capacity)
    (f : Nat) :
    run_hand_cold (f + 2) c =
      some { c with
        heap := store c.heap x { e with ptype := ptTest, val := none }
        count_cold := usub c.count_cold 1
        count_test := uadd c.count_test 1
        hand_cold := some y } := by
  have hlt := load_lt hl
  rw [run_hand_cold_succ, hc]
  simp only
  rw [hl]
  simp only [hty, hr, if_true, Bool.false_eq_true, if_false]
  rw [cold_test_loop_succ]
  have e1 : ¬ (cold_demote c x e).capacity < (cold_demote c x e).count_test := by
    show ¬ c.capacity < uadd c.count_test 1
    omega
  simp only [e1, if_false]
  have la : load (cold_demote c x e).heap x = some { e with ptype := ptTest, val := none } :=
    load_store_same hlt
  have adv : cold_advance (cold_demote c x e) =
      some { cold_demote c x e with hand_cold := some y } := by
    unfold cold_advance
    have : (cold_demote c x e).hand_cold = some x := hc
    rw [this]
    simp only
    rw [Next_of_load la]
    simp only [hn]
  rw [adv]
  simp only
  rw [cold_hot_loop_succ]
  have e2 : ¬ usub c.capacity c.cold_capacity < c.count_hot := by
    rw [h0]; omega
  simp only [cold_demote, e2, if_false, hr]

theorem evict_full_succ {c : Cache} (f : Nat) (h : c.capacity ≤ uadd c.count_hot c.count_cold) :
    evict (f + 1) c = (run_hand_cold f c).bind (evict f) := by
  rw [evict_succ, if_pos h]
  cases run_hand_cold f c <;> rfl

/-- The eviction run of the scan scenario.  The ring is `pre ++ au :: post` listed from
the three hands, all pages before `au` are referenced cold pages, `au` is an
unreferenced cold page, there is no hot or test page, the cache is full and the hot
budget is zero: `evict` passes over `pre` clearing reference bits and evicts `au`. -/
theorem evict_scan : ∀ (pre : List Nat) (c : Cache) (au : Nat) (post : List Nat) (eu : Entry),
    IsRing c.heap (pre ++ au :: post) →
    c.hand_hot = some ((pre ++ [au]).headD au) → c.hand_cold = c.hand_hot →
    c.hand_test = c.hand_hot →
    (∀ a ∈ pre, ∃ e, load c.heap a = some e ∧ e.ptype = ptCold ∧ e.ref = true) →
    load c.heap au = some eu → eu.ptype = ptCold → eu.ref = false →
    c.count_hot = 0 → c.count_cold = c.capacity → c.cold_capacity = c.capacity →
    3 ≤ c.capacity → c.capacity + 1 < SIZE → c.count_test = 0 →
    2 ≤ (pre ++ au :: post).length →
    ∃ c1, evict (pre.length + 5) c = some c1 ∧ c1.map = c.map ∧ c1.hand_hot = some au ∧
      IsRing c1.heap (au :: (post ++ pre)) ∧
      (∀ a, a ∉ pre ++ au :: post → load c1.heap a = load c.heap a) ∧
      (∀ a, a ≠ au → (load c1.heap a).map kv = (load c.heap a).map kv) ∧
      (load c1.heap au).map kv = some (eu.key, none) ∧
      c1.count_hot = 0 ∧ c1.count_cold + 1 = c.capacity ∧ c1.capacity = c.capacity
  | [], c, au, post, eu, hring, hh, hc, ht, _, hlu, htyu, hru, h0, hfull, hcc, h3, hS, ht0,
      _ => by
    have hhc : c.hand_cold = some au := by rw [hc, hh]; rfl
    have hu1 : uadd c.count_test 1 = 1 := by
      rw [ht0]; exact uadd_eq (by unfold SIZE; norm_num)
    have hrun := @rc_evict c au eu.next eu hhc hlu htyu hru rfl h0 (by rw [hu1]; omega) 2
    have hsub : usub c.count_cold 1 = c.capacity - 1 := by
      rw [usub_eq (by omega) (by omega), hfull]
    obtain ⟨c1, hc1⟩ : ∃ c1 : Cache, c1 = { c with
        heap := store c.heap au { eu with ptype := ptTest, val := none }
        count_cold := usub c.count_cold 1
        count_test := uadd c.count_test 1
        hand_cold := some eu.next } := ⟨_, rfl⟩
    rw [← hc1] at hrun
    have q1 : c1.heap = store c.heap au { eu with ptype := ptTest, val := none } := by rw [hc1]
    refine ⟨c1, ?_, by rw [hc1], ?_, ?_, ?_, ?_, ?_, by rw [hc1]; exact h0, ?_, by rw [hc1]⟩
    · show evict (4 + 1) c = _
      rw [evict_full_succ 4 (by rw [h0, hfull, uadd_eq (by omega)]; omega), hrun,
        Option.some_bind, evict_succ]
      have hno : ¬ c1.capacity ≤ uadd c1.count_hot c1.count_cold := by
        rw [hc1]
        show ¬ c.capacity ≤ uadd c.count_hot (usub c.count_cold 1)
        rw [h0, hsub, uadd_eq (by omega)]; omega
      rw [if_neg hno]
    · rw [hc1]
      show c.hand_hot = some au
      rw [hh]; rfl
    · rw [List.append_nil, q1]
      exact hring.store hlu rfl rfl
    · intro a ha
      have hne : a ≠ au := fun h => ha (by rw [h]; simp)
      rw [q1]
      exact load_store_ne (fun h => hne h.symm)
    · intro a ha
      rw [q1, load_store_ne (fun h => ha h.symm)]
    · rw [q1, load_store_same (load_lt hlu)]
      rfl
    · rw [hc1]
      show usub c.count_cold 1 + 1 = c.capacity
      rw [hsub]; omega
  | x :: pre, c, au, post, eu, hring, hh, hc, ht, hpre, hlu, htyu, hru, h0, hfull, hcc, h3, hS,
      ht0, _ => by
    have hhx : c.hand_hot = some x := by rw [hh]; rfl
    obtain ⟨e, hl, hty, hr⟩ := hpre x (List.mem_cons_self _ _)
    have hring1 : IsRing c.heap (x :: (pre ++ au :: post)) := hring
    obtain ⟨e1, hl1, hnext⟩ := hring1.head_next
    rw [hl] at hl1
    cases hl1
    have hnd := hring1.nodup
    have hxnot : x ∉ pre ++ au :: post := (List.nodup_cons.mp hnd).1
    have hy : e.next = (pre ++ [au]).headD au := by
      rw [hnext]
      cases pre <;> rfl
    have hyin : e.next ∈ pre ++ au :: post := by
      rw [hy]
      cases pre <;> simp
    have hyx : e.next ≠ x := fun h => hxnot (h ▸ hyin)
    have hxau : x ≠ au := fun h => hxnot (by rw [h]; simp)
    have hrun := @rc_pass c x e.next e hhx (by rw [hc, hhx]) (by rw [ht, hhx]) hl hty hr rfl hyx
      h0 hcc (by omega) (by omega) (by omega) (pre.length + 1)
    obtain ⟨c2, hc2⟩ : ∃ c2 : Cache, c2 = { c with
        heap := store c.heap x { e with ref := false }
        hand_hot := some e.next
        hand_cold := some e.next
        hand_test := some e.next } := ⟨_, rfl⟩
    rw [← hc2] at hrun
    have q1 : c2.heap = store c.heap x { e with ref := false } := by rw [hc2]
    have hlne : ∀ a, a ≠ x → load c2.heap a = load c.heap a := by
      intro a ha
      rw [q1]; exact load_store_ne (fun h => ha h.symm)
    have hring2 : IsRing c2.heap (pre ++ au :: (post ++ [x])) := by
      have h1 : IsRing c2.heap ([x] ++ (pre ++ au :: post)) := by
        rw [q1]; exact hring1.store hl rfl rfl
      have h2 := h1.rotate
      simpa using h2
    obtain ⟨c1, hev, k1, k2, k3, k4, k5, k6, k7, k8, k9⟩ :=
      evict_scan pre c2 au (post ++ [x]) eu hring2 (by rw [hc2]; simp only; rw [hy])
        (by rw [hc2]) (by rw [hc2])
        (fun a ha => by
          have hax : a ≠ x := fun h => hxnot (by rw [← h]; simp [ha])
          rw [hlne a hax]
          exact hpre a (List.mem_cons_of_mem _ ha))
        (by rw [hlne au (fun h => hxau h.symm)]; exact hlu) htyu hru (by rw [hc2]; exact h0)
        (by rw [hc2]; exact hfull) (by rw [hc2]; exact hcc) (by rw [hc2]; exact h3)
        (by rw [hc2]; exact hS) (by rw [hc2]; exact ht0)
        (by simp only [List.length_append, List.length_cons, List.length_nil]; omega)
    have g1 : c2.map = c.map := by rw [hc2]
    have g2 : c2.capacity = c.capacity := by rw [hc2]
    refine ⟨c1, ?_, k1.trans g1, k2, ?_, ?_, ?_, ?_, k7, by rw [← g2]; exact k8, k9.trans g2⟩
    · show evict ((pre.length + 5) + 1) c = some c1
      rw [evict_full_succ _ (by rw [h0, hfull, uadd_eq (by omega)]; omega)]
      have : pre.length + 1 + 4 = pre.length + 5 := by omega
      rw [this] at hrun
      rw [hrun]
      exact hev
    · have : post ++ [x] ++ pre = post ++ x :: pre := by simp
      rw [this] at k3
      exact k3
    · intro a ha
      have hax : a ≠ x := fun h => ha (by rw [h]; simp)
      have hmem : a ∉ pre ++ au :: (post ++ [x]) := by
        intro h
        apply ha
        simp only [List.cons_append, List.mem_cons, List.mem_append, List.mem_singleton,
          List.not_mem_nil, or_false] at h ⊢
        tauto
      rw [k4 a hmem, hlne a hax]
    · intro a ha
      rw [k5 a ha, q1, load_store (load_lt hl)]
      by_cases hax : a = x
      · simp [hax, hl, kv]
      · simp [hax]
    · rw [k6]

/-- When the hands stand together after `evict`, they stand together after `meta_add`. -/
theorem meta_add_hands {fuel : Nat} {c c1 c2 : Cache} {r : Nat}
    (h : meta_add fuel c r = some c2) (hev : evict fuel c = some c1)
    (hc : c1.hand_cold = c1.hand_hot) (ht : c1.hand_test = c1.hand_hot) :
    c2.hand_cold = c2.hand_hot ∧ c2.hand_test = c2.hand_hot := by
  unfold meta_add at h
  rw [hev] at h
  simp only at h
  cases hh : c1.hand_hot with
  | none =>
    rw [hh] at h
    simp only at h
    split at h
    · cases h
    · simp only [if_true, Option.some.injEq] at h
      rw [← h]
      exact ⟨rfl, rfl⟩
  | some a =>
    rw [hh] at h
    simp only at h
    cases hl : Link c1.heap a (some r) with
    | none => rw [hl] at h; cases h
    | some p =>
      rw [hl] at h
      simp only at h
      split at h
      · cases h
      · simp only [hc, ht, hh, if_true, Option.some.injEq] at h
        rw [← h]
        exact ⟨rfl, rfl⟩

theorem Scan.cap {v : Nat → Nat} {s : Cache} {L ks gs : List Nat} (hs : Scan v s L ks gs) :
    ks.length ≤ s.capacity := by
  have := hs.binv.resle
  rw [hs.hot0, hs.ncold] at this
  omega

/-- Filling: one more `Set` on a new key while the cache is not full. -/
theorem Scan.fill {v : Nat → Nat} {s : Cache} {L ks : List Nat} (hs : Scan v s L ks [])
    {k : Nat} (hk : k ∉ ks) (hroom : ks.length < s.capacity) :
    ∃ fuel s1 L1, Set fuel s k (v k) false = some (s1, true) ∧ Scan v s1 L1 (ks ++ [k]) [] ∧
      s1.capacity = s.capacity := by
  have hm : mapFind s.map k = none := by
    cases h : mapFind s.map k with
    | none => rfl
    | some a => exact absurd (hs.keys k a h) hk
  obtain ⟨fuel, s1, L1, hset, hb1, hcap⟩ := Set_miss hs.binv (v k) false hm
  obtain ⟨c2, hadd, hs1, _⟩ := Set_miss_inv hm hset
  have ht0 := hs.tidy.alloc_tidy hm (Entry.make s.heap.length false k (v k) ptCold) rfl rfl
    (by simp [Entry.make])
  obtain ⟨c0, hc0⟩ : ∃ c0 : Cache, c0 = { s with
      heap := s.heap ++ [some (Entry.make s.heap.length false k (v k) ptCold)]
      map := mapInsertOrAssign s.map k s.heap.length } := ⟨_, rfl⟩
  rw [← hc0] at hadd ht0
  have g1 : c0.count_hot = s.count_hot := by rw [hc0]
  have g2 : c0.count_cold = s.count_cold := by rw [hc0]
  have g3 : c0.capacity = s.capacity := by rw [hc0]
  have g4 : c0.map = mapInsertOrAssign s.map k s.heap.length := by rw [hc0]
  have g5 : c0.heap = s.heap ++ [some (Entry.make s.heap.length false k (v k) ptCold)] := by
    rw [hc0]
  have g6 : c0.count_test = s.count_test := by rw [hc0]
  have g7 : c0.cold_capacity = s.cold_capacity := by rw [hc0]
  have g8 : c0.hand_cold = c0.hand_hot := by rw [hc0]; exact hs.hc
  have g9 : c0.hand_test = c0.hand_hot := by rw [hc0]; exact hs.ht
  obtain ⟨c1, hev, a1, a2, a3, a4, a5, a6⟩ := meta_add_fields hadd
  obtain ⟨c1', hev', hpay⟩ := meta_add_pay hadd
  rw [hev] at hev'
  cases hev'
  have hS := hs.binv.capS
  have hno : ¬ c0.capacity ≤ uadd c0.count_hot c0.count_cold := by
    rw [g1, g2, g3, hs.hot0, hs.ncold, uadd_eq (by omega)]
    omega
  have e1 := evict_noop hno hev
  subst e1
  obtain ⟨hh1, hh2⟩ := meta_add_hands hadd hev g8 g9
  have ht2 : Tidy c2 := ht0.pay_tidy hpay a6
  have hu : uadd c2.count_cold 1 = c2.count_cold + 1 := by
    rw [a4, g2, hs.ncold]; exact uadd_eq (by omega)
  have hcells0 : ∀ a e, load c1.heap a = some e →
      e.ptype = ptCold ∧ e.val = some (v e.key) ∧ (e.ref = true ↔ e.key ∈ ([] : List Nat)) := by
    intro a e he
    rw [g5] at he
    by_cases ha : a < s.heap.length
    · rw [load_append_of_lt ha] at he
      exact hs.cells a e he
    · have hlt := load_lt he
      simp only [List.length_append, List.length_singleton] at hlt
      have hal : a = s.heap.length := by omega
      subst hal
      rw [load_append_new] at he
      cases he
      simp [Entry.make]
  refine ⟨fuel, s1, L1, hset, ?_, hcap⟩
  exact
    { binv := hb1
      tidy := by rw [hs1]; exact ht2.move_tidy rfl rfl
      keys := by
        intro k1 a hf
        rw [hs1] at hf
        have hf2 : mapFind c2.map k1 = some a := hf
        rw [a6, g4, mapFind_insert] at hf2
        by_cases hk1 : k1 = k
        · rw [hk1]; simp
        · simp only [hk1, if_false] at hf2
          exact List.mem_append_left _ (hs.keys k1 a hf2)
      bound := by
        intro k1 hk1
        rw [hs1]
        show ∃ a, mapFind c2.map k1 = some a
        rw [a6, g4, mapFind_insert]
        by_cases hkk : k1 = k
        · exact ⟨_, by rw [if_pos hkk]⟩
        · rw [if_neg hkk]
          rcases List.mem_append.mp hk1 with h | h
          · exact hs.bound k1 h
          · exact absurd (List.mem_singleton.mp h) hkk
      cells := by
        intro a e he
        rw [hs1] at he
        have he2 : load c2.heap a = some e := he
        obtain ⟨e0, he0, hp⟩ := hpay.back he2
        simp only [pay, Prod.mk.injEq] at hp
        obtain ⟨p1, p2, p3, p4⟩ := hp
        rw [← p1, ← p2, ← p3, ← p4]
        exact hcells0 a e0 he0
      hot0 := by rw [hs1]; show c2.count_hot = 0; rw [a3, g1]; exact hs.hot0
      test0 := by rw [hs1]; show c2.count_test = 0; rw [a5, g6]; exact hs.test0
      ncold := by
        rw [hs1]
        show uadd c2.count_cold 1 = _
        rw [hu, a4, g2, hs.ncold, List.length_append, List.length_singleton]
      cc := by
        rw [hs1]
        show c2.cold_capacity = c2.capacity
        rw [a1, a2, g7, g3]; exact hs.cc
      hc := by rw [hs1]; exact hh1
      ht := by rw [hs1]; exact hh2 }

/-- Reading: one `Get` sets the reference bit of the key's descriptor, if there is one. -/
theorem Scan.read {v : Nat → Nat} {s : Cache} {L ks gs : List Nat} (hs : Scan v s L ks gs)
    (k : Nat) : ∃ s1 r, Get s k = some (s1, r) ∧ Scan v s1 L ks (gs ++ [k]) ∧
      s1.capacity = s.capacity := by
  unfold Get
  cases hm : mapFind s.map k with
  | none =>
    refine ⟨s, none, rfl, ?_, rfl⟩
    exact
      { hs with
        cells := by
          intro a e he
          obtain ⟨c1, c2, c3⟩ := hs.cells a e he
          refine ⟨c1, c2, c3.trans ?_⟩
          have hne : e.key ≠ k := by
            intro h
            have := (hs.tidy a e he).2.1
            rw [h, hm] at this
            cases this
          simp [hne] }
  | some m =>
    obtain ⟨hin, e, he, hkey, _⟩ := hs.binv.map k m hm
    have hmL : m ∈ L := hin.resolve_right id
    obtain ⟨c1, c2, c3⟩ := hs.cells m e he
    have hv : e.val.isNone = false := by rw [c2]; rfl
    simp only [he, hv]
    refine ⟨{ s with heap := store s.heap m { e with ref := true } }, e.val, by simp, ?_, rfl⟩
    exact
      { binv := hs.binv.touch hmL he rfl rfl rfl rfl
        tidy := hs.tidy.store_tidy he rfl rfl rfl (by rw [c1]; simp) (by
          have := (hs.tidy m e he).2.2
          exact this)
        keys := hs.keys
        bound := hs.bound
        cells := by
          intro a x hx
          have hx1 : load (store s.heap m { e with ref := true }) a = some x := hx
          rw [load_store (load_lt he)] at hx1
          by_cases ha : a = m
          · simp only [ha, if_true, Option.some.injEq] at hx1
            subst hx1
            refine ⟨c1, c2, ?_⟩
            simp [hkey]
          · simp only [ha, if_false] at hx1
            obtain ⟨d1, d2, d3⟩ := hs.cells a x hx1
            refine ⟨d1, d2, d3.trans ?_⟩
            have hne : x.key ≠ k := by
              intro h
              have := (hs.tidy a x hx1).2.1
              rw [h, hm] at this
              exact ha (Option.some.inj this).symm
            simp [hne]
        hot0 := hs.hot0
        test0 := hs.test0
        ncold := hs.ncold
        cc := hs.cc
        hc := hs.hc
        ht := hs.ht }

theorem runCalls_append (f : Nat) (g : Bool) :
    ∀ (cs1 cs2 : List Call) (c : Cache),
      runCalls f g c (cs1 ++ cs2) = (runCalls f g c cs1).bind (fun c1 => runCalls f g c1 cs2)
  | [], _, _ => rfl
  | Call.get k :: rest, cs2, c => by
    rw [List.cons_append, runCalls, runCalls]
    cases Get c k with
    | none => rfl
    | some p => exact runCalls_append f g rest cs2 p.1
  | Call.set k v :: rest, cs2, c => by
    rw [List.cons_append, runCalls, runCalls]
    cases Set f c k v g with
    | none => rfl
    | some p => exact runCalls_append f g rest cs2 p.1

theorem getVal_of {s : Cache} {k a : Nat} {e : Entry} (hm : mapFind s.map k = some a)
    (he : load s.heap a = some e) : getVal s k = some e.val := by
  unfold getVal Get
  rw [hm]
  simp only
  rw [he]
  cases hv : e.val with
  | none => simp [hv]
  | some x => simp [hv]

/-- Filling a cache with pairwise new keys while there is room. -/
theorem fill_run (v : Nat → Nat) :
    ∀ (rest ks : List Nat) (s : Cache) (L : List Nat), Scan v s L ks [] →
      (∀ k ∈ rest, k ∉ ks) → rest.Nodup → ks.length + rest.length ≤ s.capacity →
      ∃ fuel s1 L1, runCalls fuel false s (setAll v rest) = some s1 ∧
        Scan v s1 L1 (ks ++ rest) [] ∧ s1.capacity = s.capacity
  | [], ks, s, L, hs, _, _, _ => ⟨0, s, L, rfl, by rw [List.append_nil]; exact hs, rfl⟩
  | k :: rest, ks, s, L, hs, hnew, hnd, hlen => by
    simp only [List.length_cons] at hlen
    obtain ⟨f1, s1, L1, hs1, hc1, hcap1⟩ :=
      hs.fill (hnew k (List.mem_cons_self _ _)) (by omega)
    have hnd2 := List.nodup_cons.mp hnd
    obtain ⟨f2, s2, L2, hs2, hc2, hcap2⟩ := fill_run v rest (ks ++ [k]) s1 L1 hc1
      (by
        intro k1 hk1 hmem
        rcases List.mem_append.mp hmem with h | h
        · exact hnew k1 (List.mem_cons_of_mem _ hk1) h
        · rw [List.mem_singleton] at h
          rw [h] at hk1
          exact hnd2.1 hk1)
      hnd2.2
      (by rw [hcap1, List.length_append, List.length_singleton]; omega)
    refine ⟨max f1 f2, s2, L2, ?_, ?_, hcap2.trans hcap1⟩
    · show runCalls (max f1 f2) false s (Call.set k (v k) :: setAll v rest) = some s2
      rw [runCalls, Set_mono (le_max_left f1 f2) hs1]
      exact runCalls_mono (le_max_right f1 f2) false _ _ _ hs2
    · rw [List.append_assoc] at hc2
      exact hc2

/-- Reading a list of keys. -/
theorem read_run (v : Nat → Nat) (f : Nat) {L ks : List Nat} :
    ∀ (gets gs : List Nat) (s : Cache), Scan v s L ks gs →
      ∃ s1, runCalls f false s (gets.map Call.get) = some s1 ∧ Scan v s1 L ks (gs ++ gets) ∧
        s1.capacity = s.capacity
  | [], gs, s, hs => ⟨s, rfl, by rw [List.append_nil]; exact hs, rfl⟩
  | k :: gets, gs, s, hs => by
    obtain ⟨s1, r, hg, hs1, hcap1⟩ := hs.read k
    obtain ⟨s2, hrun, hs2, hcap2⟩ := read_run v f gets (gs ++ [k]) s1 hs1
    refine ⟨s2, ?_, ?_, hcap2.trans hcap1⟩
    · show runCalls f false s (Call.get k :: gets.map Call.get) = some s2
      rw [runCalls, hg]
      exact hrun
    · rw [List.append_assoc] at hs2
      exact hs2

/-- A fresh cache satisfies the scan invariant for the empty key list. -/
theorem scan_new (v : Nat → Nat) {n : Nat} {c : Cache} (hn : n + 1 < SIZE)
    (hc : Cache.new n = Except.ok c) : Scan v c [] [] [] := by
  have hb := binv_new hn hc
  unfold Cache.new at hc
  by_cases h3 : n < 3
  · simp [h3] at hc
  · simp only [h3, if_false, Except.ok.injEq] at hc
    subst hc
    exact
      { binv := hb
        tidy := fun a e h => by simp [load] at h
        keys := fun k a h => by simp [mapFind] at h
        bound := fun k h => by cases h
        cells := fun a e h => by simp [load] at h
        hot0 := rfl
        test0 := rfl
        ncold := rfl
        cc := rfl
        hc := rfl
        ht := rfl }

theorem of_kv {h : List (Option Entry)} {a k : Nat} {x : Option Nat}
    (hk : (load h a).map kv = some (k, x)) : ∃ e, load h a = some e ∧ e.key = k ∧ e.val = x := by
  cases hl : load h a with
  | none => rw [hl] at hk; cases hk
  | some e =>
    rw [hl] at hk
    simp only [Option.map_some', Option.some.injEq, kv, Prod.mk.injEq] at hk
    exact ⟨e, rfl, hk.1, hk.2⟩

theorem kv_of_load {h : List (Option Entry)} {a : Nat} {e : Entry} (he : load h a = some e) :
    (load h a).map kv = some (e.key, e.val) := by
  rw [he]; rfl

theorem kv_relinked {h h1 : List (Option Entry)} {r s n p : Nat}
    (hl : ∀ b, load h1 b = (load h b).map (relink r s n p b)) (b : Nat) :
    (load h1 b).map kv = (load h b).map kv := by
  rw [hl b]
  cases load h b <;> rfl

/-- The last step of the scan scenario: the cache is full, every key but `u` has been
read, and a new key `d` is inserted.  The `Set` returns; afterwards `u` is not readable,
every other key still yields its value, and so does `d`. -/
theorem Scan.admit_new {v : Nat → Nat} {s : Cache} {L ks gs : List Nat}
    (hs : Scan v s L ks gs) (hfull : ks.length = s.capacity) {u : Nat} (hu : u ∈ ks)
    (hnu : u ∉ gs) (hrd : ∀ k ∈ ks, k ≠ u → k ∈ gs) {d : Nat} (hd : d ∉ ks) :
    ∃ fuel s1, Set fuel s d (v d) false = some (s1, true) ∧ getVal s1 u = some none ∧
      (∀ k ∈ ks, k ≠ u → getVal s1 k = some (some (v k))) ∧
      getVal s1 d = some (some (v d)) := by
  have hb := hs.binv
  have hm : mapFind s.map d = none := by
    cases h : mapFind s.map d with
    | none => rfl
    | some a => exact absurd (hs.keys d a h) hd
  obtain ⟨au, hau⟩ := hs.bound u hu
  obtain ⟨hin, eu, heu, hkeyu, _⟩ := hb.map u au hau
  have hauL : au ∈ L := hin.resolve_right id
  obtain ⟨cu1, _, cu3⟩ := hs.cells au eu heu
  have hru : eu.ref = false := by
    cases hq : eu.ref with
    | false => rfl
    | true => exact absurd (hkeyu ▸ cu3.mp hq) hnu
  have hne : L ≠ [] := fun h => by rw [h] at hauL; cases hauL
  obtain ⟨⟨x, hh, hxL⟩, _, _, _⟩ := (hb.hands).resolve_left (fun h => hne h.1)
  obtain ⟨xs, hrx, hperm⟩ := hb.ring.of_mem hxL
  obtain ⟨pre, post, hsplit⟩ := List.append_of_mem (hperm.mem_iff.mp hauL)
  have hhead : (pre ++ [au]).headD au = x := by
    cases pre with
    | nil =>
      simp only [List.nil_append, List.cons.injEq] at hsplit
      simp [hsplit.1]
    | cons p pre1 =>
      simp only [List.cons_append, List.cons.injEq] at hsplit
      simp [hsplit.1]
  rw [hsplit] at hrx hperm
  have hnd := hrx.nodup
  have hlenL : (pre ++ au :: post).length = s.capacity := by
    rw [← hperm.length_eq, hb.ring_length, hs.hot0, hs.test0, hs.ncold, hfull]
    omega
  have hcap3 := hb.cap3
  have hS := hb.capS
  -- the state in which `Set` enters `meta_add`
  obtain ⟨c0, hc0⟩ : ∃ c0 : Cache, c0 = { s with
      heap := s.heap ++ [some (Entry.make s.heap.length false d (v d) ptCold)]
      map := mapInsertOrAssign s.map d s.heap.length } := ⟨_, rfl⟩
  have g5 : c0.heap = s.heap ++ [some (Entry.make s.heap.length false d (v d) ptCold)] := by
    rw [hc0]
  have g4 : c0.map = mapInsertOrAssign s.map d s.heap.length := by rw [hc0]
  have hlive : ∀ a e, load s.heap a = some e → load c0.heap a = some e := by
    intro a e he
    rw [g5, load_append_of_lt (load_lt he)]
    exact he
  have hring0 : IsRing c0.heap (pre ++ au :: post) := by
    rw [g5]; exact hrx.append _
  have hpre : ∀ a ∈ pre, ∃ e, load c0.heap a = some e ∧ e.ptype = ptCold ∧ e.ref = true := by
    intro a ha
    have haR : a ∈ pre ++ au :: post := List.mem_append_left _ ha
    obtain ⟨e, he, _, _⟩ := hrx.mem_load haR
    obtain ⟨d1, _, d3⟩ := hs.cells a e he
    obtain ⟨_, t2, _⟩ := hs.tidy a e he
    have hne : e.key ≠ u := by
      intro h
      rw [h, hau] at t2
      have haau : au = a := Option.some.inj t2
      rw [List.nodup_append] at hnd
      exact hnd.2.2 ha (by rw [haau]; simp)
    exact ⟨e, hlive a e he, d1, d3.mpr (hrd e.key (hs.keys e.key a t2) hne)⟩
  obtain ⟨c1, hev, k1, k2, k3, k4, k5, k6, _, _, _⟩ :=
    evict_scan pre c0 au post eu hring0 (by rw [hc0, hhead]; exact hh) (by rw [hc0]; exact hs.hc)
      (by rw [hc0]; exact hs.ht) hpre (hlive au eu heu) cu1 hru (by rw [hc0]; exact hs.hot0)
      (by rw [hc0]; show s.count_cold = s.capacity; rw [hs.ncold, hfull])
      (by rw [hc0]; exact hs.cc) (by rw [hc0]; exact hcap3) (by rw [hc0]; exact hS)
      (by rw [hc0]; exact hs.test0) (by rw [hlenL]; omega)
  -- the new descriptor is linked behind the evicted page
  have hrout : s.heap.length ∉ pre ++ au :: post := by
    intro h
    have := hrx.mem_lt h
    omega
  have hlr : load c1.heap s.heap.length =
      some (Entry.make s.heap.length false d (v d) ptCold) := by
    rw [k4 _ hrout, g5]; exact load_append_new
  have hrout2 : s.heap.length ∉ au :: (post ++ pre) := by
    intro h
    apply hrout
    simp only [List.mem_cons, List.mem_append] at h ⊢
    tauto
  obtain ⟨h4, ea, _, _, _, hloads, _, hadd⟩ := meta_add_link hev k2 k3 hrout2 hlr rfl
  have hkv4 := kv_relinked hloads
  obtain ⟨s1, hs1⟩ : ∃ s1 : Cache, s1 = { c1 with
      heap := h4
      hand_cold := if c1.hand_cold = some au then some ea.next else c1.hand_cold
      hand_test := if c1.hand_test = some au then some ea.next else c1.hand_test
      hand_hot := some ea.next
      count_cold := uadd c1.count_cold 1 } := ⟨_, rfl⟩
  have m1 : s1.map = mapInsertOrAssign s.map d s.heap.length := by
    rw [hs1]
    show c1.map = _
    rw [k1, g4]
  have m2 : s1.heap = h4 := by rw [hs1]
  refine ⟨pre.length + 5, s1, ?_, ?_, ?_, ?_⟩
  · unfold Set
    rw [hm]
    simp only
    rw [← hc0, hadd, hs1]
  · -- the unread key
    have hmu : mapFind s1.map u = some au := by
      rw [m1, mapFind_insert]
      have : u ≠ d := fun h => hd (h ▸ hu)
      simp [this, hau]
    obtain ⟨e4, he4, _, hv4⟩ := of_kv ((hkv4 au).trans k6)
    rw [← m2] at he4
    rw [getVal_of hmu he4, hv4]
  · -- the keys that were read
    intro k hk hku
    obtain ⟨a, ha⟩ := hs.bound k hk
    obtain ⟨_, e, he, hkey, _⟩ := hb.map k a ha
    obtain ⟨_, d2, _⟩ := hs.cells a e he
    have haau : a ≠ au := by
      intro h
      rw [h, heu] at he
      cases he
      exact hku (hkey.symm.trans hkeyu)
    have hmk : mapFind s1.map k = some a := by
      rw [m1, mapFind_insert]
      have : k ≠ d := fun h => hd (h ▸ hk)
      simp [this, ha]
    obtain ⟨e4, he4, _, hv4⟩ :=
      of_kv (((hkv4 a).trans (k5 a haau)).trans (kv_of_load (hlive a e he)))
    rw [← m2] at he4
    rw [getVal_of hmk he4, hv4, d2, hkey]
  · -- the new key
    have hmd : mapFind s1.map d = some s.heap.length := by
      rw [m1, mapFind_insert]; simp
    obtain ⟨e4, he4, _, hv4⟩ := of_kv ((hkv4 s.heap.length).trans (kv_of_load hlr))
    rw [← m2] at he4
    rw [getVal_of hmd he4, hv4]
    rfl

/-- `Unlink(1)` on a self-linked descriptor: every pointer assignment of `Link` writes
the value already there. -/
theorem unlink_self {h : List (Option Entry)} {e : Nat} {ent : Entry}
    (hl : load h e = some ent) (hn : ent.next = e) (hp : ent.prev = e) :
    ∃ h4, Unlink h e 1 = some (h4, some e) ∧ h4.length = h.length ∧
      ∀ b, load h4 b = load h b := by
  have hmove : Move h e ((1 : Int) + 1) = some e := by
    have : ((1 : Int) + 1).toNat = 2 := by decide
    simp [Move, this, stepNext, Next, hl, hn]
  obtain ⟨h4, hlink, hlen, hload⟩ :=
    Link_spec (r := e) (s := e) hl hl (by rw [hn, hl]; rfl) (by rw [hp, hl]; rfl)
  rw [hn] at hlink
  refine ⟨h4, ?_, hlen, ?_⟩
  · have hmove2 : Move h e 2 = some e := hmove
    simp [Unlink, hmove2, hlink]
  · intro b
    rw [hload b, hn, hp]
    cases hb : load h b with
    | none => rfl
    | some f =>
      by_cases hbe : b = e
      · subst hbe
        rw [hl] at hb
        cases hb
        simp only [Option.map_some', relink, if_true]
        cases ent
        simp only at hn hp
        subst hn
        simp [hp]
      · simp [relink, hbe]

/-- A test page of a ring that also holds a resident page is not alone in the ring. -/
theorem test_not_alone {s : Cache} {L : List Nat} {X : Nat → Prop} (hc : Core s L X)
    (hres : 1 ≤ s.count_hot + s.count_cold) {m : Nat} (hm : m ∈ L)
    (ht : tyAt s.heap m = some ptTest) : 2 ≤ L.length := by
  have h1 := cnt_pos_of_mem hm ht
  have h2 := hc.length_eq
  have h3 := hc.ntest
  omega

/-- Between public calls a key bound to a test page never sits in a one-descriptor
ring: the descriptors `meta_del` is applied to by `Set` have a ring of two or more. -/
theorem reachable_test_not_alone {s : Cache} (hr : Reachable s) {k m : Nat} {ent : Entry}
    (hf : mapFind s.map k = some m) (hl : load s.heap m = some ent)
    (ht : ent.ptype = ptTest) : m ∈ ringOf s ∧ 2 ≤ (ringOf s).length := by
  obtain ⟨L, hb⟩ := reachable_binv hr
  have hmL : m ∈ L := by
    rcases (hb.map k m hf).1 with h | h
    · exact h
    · exact h.elim
  have hty : tyAt s.heap m = some ptTest := by rw [tyAt_of_load hl, ht]
  rcases hb.hands with ⟨h0, _⟩ | ⟨_, _, _, hres⟩
  · rw [h0] at hmL; cases hmL
  · have h2 := test_not_alone hb.toCore hres hmL hty
    rcases ringOf_spec hb with ⟨h0, _⟩ | ⟨a, xs, _, hro, hperm, _⟩
    · rw [h0] at hmL; cases hmL
    · rw [hro]
      exact ⟨hperm.subset hmL, by rw [← hperm.length_eq]; exact h2⟩

/-- Inside the replacement engine the test page under a hand is never alone in the
ring: `run_hand_test` applies `meta_del` to rings of two or more descriptors. -/
theorem engine_test_not_alone {s : Cache} {L : List Nat} {X : Nat → Prop} (hi : HInv s L X)
    {m : Nat} (hm : m ∈ L) (ht : tyAt s.heap m = some ptTest) : 2 ≤ L.length :=
  test_not_alone hi.toCore hi.res1 hm ht

/-! ## Claims C1 to C11 -/

/-- Claim C1 (fails on the code): `Get(k)` right after `Set(k, v)` should return `v`.
On the specification's own witness (capacity 3; set 1, 2, 3; get 1, 2; set 4; then
`Set(3, 30)` on the test descriptor of key 3) the call `Get(3)` returns absent: the
test-hit branch of `Set` never stores the value and never binds the key again. -/
theorem set_get_test_hit_absent :
    (runFresh 10 false 3 (scanTrace ++ [Call.set 3 30])).bind (fun c => getVal c 3)
      = some none := by
  decide!

/-- Claim C2: on every reachable state `Set(k, v)` returns; it returns `false` exactly
when `k` is bound in the index to a Cold or Hot descriptor, and then the new state is
the old one with only that descriptor's `val` set to `v` and its `ref` set (same links,
type and key there, every other cell, the index, the hands, the counters and the cold
target untouched, the ring walk unchanged); in every other case it returns `true`. -/
theorem set_result (s : Cache) (hr : Reachable s) (k v : Nat) (g : Bool) :
    (∃ fuel r, Set fuel s k v g = some r) ∧
    ∀ fuel s1 b, Set fuel s k v g = some (s1, b) →
      (b = false ↔ ∃ m e, mapFind s.map k = some m ∧ load s.heap m = some e ∧
        (e.ptype = ptCold ∨ e.ptype = ptHot)) ∧
      (b = false → ∃ m e, mapFind s.map k = some m ∧ load s.heap m = some e ∧
        s1 = { s with heap := store s.heap m { e with val := some v, ref := true } } ∧
        load s1.heap m = some { e with val := some v, ref := true } ∧
        (∀ a, a ≠ m → load s1.heap a = load s.heap a) ∧ ringOf s1 = ringOf s) := by
  obtain ⟨L, hb⟩ := reachable_binv hr
  obtain ⟨f0, s0, b0, L0, hs0, _, _⟩ := Set_boundary hb k v g
  refine ⟨⟨f0, _, hs0⟩, ?_⟩
  intro fuel s1 b hs
  cases hm : mapFind s.map k with
  | none =>
    have hb1 : b = true := by
      unfold Set at hs
      rw [hm] at hs
      simp only at hs
      split at hs
      · cases hs
      · simp only [Option.some.injEq, Prod.mk.injEq] at hs
        exact hs.2.symm
    subst hb1
    refine ⟨⟨fun h => Bool.noConfusion h, fun ⟨m, e, h, _⟩ => Option.noConfusion h⟩,
      fun h => Bool.noConfusion h⟩
  | some m =>
    obtain ⟨hin, e, he, _, hne⟩ := hb.map k m hm
    have hmL : m ∈ L := hin.resolve_right id
    by_cases hty : e.ptype = ptTest
    · obtain ⟨f1, s2, L2, hs2, _, _⟩ := Set_test hb v g hm he hty
      have e1 := Set_mono (le_max_left fuel f1) hs
      have e2 := Set_mono (le_max_right fuel f1) hs2
      rw [e1] at e2
      simp only [Option.some.injEq, Prod.mk.injEq] at e2
      obtain ⟨_, hb1⟩ := e2
      subst hb1
      refine ⟨⟨fun h => Bool.noConfusion h, ?_⟩, fun h => Bool.noConfusion h⟩
      rintro ⟨m1, e1, h1, h2, h3⟩
      cases h1
      rw [he] at h2
      cases h2
      rw [hty] at h3
      rcases h3 with h3 | h3 <;> cases h3
    · have hs1 := Set_hit fuel v g hm he hty
      rw [hs] at hs1
      simp only [Option.some.injEq, Prod.mk.injEq] at hs1
      obtain ⟨hst, hb1⟩ := hs1
      subst hb1
      have hres : e.ptype = ptCold ∨ e.ptype = ptHot := by
        have h1 := hb.types m hmL
        rw [tyAt_of_load he] at h1
        rcases h1 with h | h | h
        · exact Or.inr (Option.some.inj h)
        · exact Or.inl (Option.some.inj h)
        · exact absurd (Option.some.inj h) hty
      refine ⟨⟨fun _ => ⟨m, e, rfl, he, hres⟩, fun _ => rfl⟩, fun _ => ?_⟩
      refine ⟨m, e, rfl, he, hst, ?_, ?_, ?_⟩
      · rw [hst]; exact load_store_same (load_lt he)
      · intro a ha
        rw [hst]; exact load_store_ne (fun h => ha h.symm)
      · rw [hst]; exact ringOf_touch he rfl

/-- Witness for C2 on the specification's scenario: on a fresh cache of capacity 3
`Set(7, 1)` returns `true`; in the state it leaves, `Set(7, 2)` returns, it returns
`false`, and `Get(7)` then returns 2. -/
theorem set_result_witness :
    (∃ fuel r, Set fuel oneState 7 2 false = some r) ∧
      (runFresh 1 false 3 []).bind (fun c => (Set 1 c 7 1 false).map Prod.snd) = some true ∧
      (Set 1 oneState 7 2 false).map Prod.snd = some false ∧
      (Set 1 oneState 7 2 false).bind (fun p => getVal p.1 7) = some (some 2) :=
  ⟨(set_result oneState oneState_reachable 7 2 false).1, by decide!, by decide!, by decide!⟩

/-- Claim C3: `Get` never changes the clock structure.  For every state: when the key is
not in the index, or its descriptor carries no value, `Get` returns absent and the state
is unchanged; otherwise it returns the descriptor's value and the new state is the old
one with that descriptor's `ref` set, so the index, the hands, the counters, the cold
target, every link and every `ptype`, `key` and `val` stay as they were and the ring
walk is the same.  On reachable states `Get` always returns. -/
theorem get_frame (c : Cache) (k : Nat) :
    (mapFind c.map k = none → Get c k = some (c, none)) ∧
    (∀ m e, mapFind c.map k = some m → load c.heap m = some e →
      (e.val = none → Get c k = some (c, none)) ∧
      (e.val ≠ none →
        Get c k = some ({ c with heap := store c.heap m { e with ref := true } }, e.val) ∧
        ringOf { c with heap := store c.heap m { e with ref := true } } = ringOf c ∧
        ∀ a, a ≠ m →
          load (store c.heap m { e with ref := true }) a = load c.heap a)) ∧
    (Reachable c → ∃ c1 r, Get c k = some (c1, r)) := by
  refine ⟨?_, ?_, ?_⟩
  · intro hm
    unfold Get
    rw [hm]
  · intro m e hm he
    refine ⟨?_, ?_⟩
    · intro hv
      unfold Get
      rw [hm]
      simp only
      rw [he]
      simp [hv]
    · intro hv
      refine ⟨?_, ringOf_touch he rfl, fun a ha => load_store_ne (fun h => ha h.symm)⟩
      unfold Get
      rw [hm]
      simp only
      rw [he]
      have : e.val.isNone = false := by
        cases hq : e.val with
        | none => exact absurd hq hv
        | some x => rfl
      simp [this]
  · intro hr
    obtain ⟨L, hb⟩ := reachable_binv hr
    obtain ⟨c1, r, hg, _⟩ := Get_boundary hb k
    exact ⟨c1, r, hg⟩

/-- Claim C4: constructing a cache of capacity `n` throws exactly when `n < 3`; for
`3 ≤ n` it yields the empty state: capacity and cold target `n`, all counters zero, all
three hands null (and no descriptor, no index entry). -/
theorem new_spec (n : Nat) :
    ((∃ msg, Cache.new n = Except.error msg) ↔ n < 3) ∧
    (3 ≤ n → Cache.new n = Except.ok
      { heap := [], capacity := n, cold_capacity := n, map := [], hand_hot := none,
        hand_cold := none, hand_test := none, count_hot := 0, count_cold := 0,
        count_test := 0 }) := by
  unfold Cache.new
  by_cases h : n < 3
  · simp [h]
  · simp [h]

/-- Witness for C4: `new(2)` throws and `new(3)` yields the empty cache of capacity 3. -/
theorem new_spec_witness :
    (∃ msg, Cache.new 2 = Except.error msg) ∧
      (Cache.new 3).toOption.map (fun c => (c.capacity, c.cold_capacity, c.count_hot,
        c.count_cold, c.count_test, c.hand_hot, c.hand_cold, c.hand_test))
        = some (3, 3, 0, 0, 0, none, none, none) :=
  ⟨(new_spec 2).1.mpr (by decide), by rw [(new_spec 3).2 (by decide)]; rfl⟩

/-- Claim C5 (P1): in every reachable state the resident pages fit the capacity,
`count_hot + count_cold ≤ capacity`. -/
theorem resident_budget (s : Cache) (hr : Reachable s) :
    s.count_hot + s.count_cold ≤ s.capacity := by
  obtain ⟨L, hb⟩ := reachable_binv hr
  exact hb.resle

/-- Witness for C5: the bound in the full cache left by the scan scenario. -/
theorem resident_budget_witness :
    scanState.count_hot + scanState.count_cold ≤ scanState.capacity :=
  resident_budget scanState scanState_reachable

/-- Claim C6 (P2): in every reachable state the test history fits the capacity,
`count_test ≤ capacity`. -/
theorem test_budget (s : Cache) (hr : Reachable s) : s.count_test ≤ s.capacity := by
  obtain ⟨L, hb⟩ := reachable_binv hr
  exact hb.testle

/-- Witness for C6: the bound in the state left by the scan scenario. -/
theorem test_budget_witness : scanState.count_test ≤ scanState.capacity :=
  test_budget scanState scanState_reachable

/-- Claim C7 (fails on the code): every ring descriptor should have its key bound in the
index.  After the scan scenario and `Set(3, 30)` on the test descriptor of key 3, the
descriptor at address 2 is linked in the ring and carries key 3, and key 3 is not in the
index: the test-hit branch of `Set` erases the binding in `meta_del` and never restores
it (the defect behind C1). -/
theorem ring_key_unbound :
    (runFresh 10 false 3 (scanTrace ++ [Call.set 3 30])).map
        (fun c => (decide (2 ∈ ringOf c), (load c.heap 2).map (fun e => e.key),
          mapFind c.map 3))
      = some (true, some 3, none) := by
  decide!

/-- Claim C8 (fails on the code): a Hot or Cold descriptor should carry a value.  After
the scan scenario and `Set(3, 30)` on the test descriptor of key 3, the descriptor at
address 2 is linked in the ring, is Hot, and has no value: the test-hit branch of `Set`
never assigns `val` (the defect behind C1). -/
theorem hot_without_value :
    (runFresh 10 false 3 (scanTrace ++ [Call.set 3 30])).map
        (fun c => (decide (2 ∈ ringOf c), (load c.heap 2).map (fun e => (e.ptype, e.val))))
      = some (true, some (ptHot, none)) := by
  decide!

/-- Claim C9 (P3): in every reachable state the number of descriptors linked in the ring
(the walk along `next` from `hand_hot` back to it) is
`count_hot + count_cold + count_test`; these descriptors form one well-linked ring. -/
theorem ring_size (s : Cache) (hr : Reachable s) :
    (ringOf s).length = s.count_hot + s.count_cold + s.count_test ∧
      IsRing s.heap (ringOf s) := by
  obtain ⟨L, hb⟩ := reachable_binv hr
  have hlen := hb.ring_length
  rcases ringOf_spec hb with ⟨h0, h1, _⟩ | ⟨a, xs, _, h1, hperm, hring, _⟩
  · rw [h1]
    rw [h0] at hlen
    exact ⟨hlen, isRing_nil _⟩
  · rw [h1, ← hlen]
    exact ⟨hperm.length_eq.symm, hring⟩

/-- Witness for C9: the ring of the state left by the scan scenario has four
descriptors. -/
theorem ring_size_witness :
    (ringOf scanState).length
        = scanState.count_hot + scanState.count_cold + scanState.count_test ∧
      IsRing scanState.heap (ringOf scanState) :=
  ring_size scanState scanState_reachable

/-- Claim C10 (P7): in every reachable state either the ring is empty and the three
hands are null, or the ring is not empty and each hand points at a live descriptor that
is linked in the ring. -/
theorem hands_valid (s : Cache) (hr : Reachable s) :
    (ringOf s = [] ∧ s.hand_hot = none ∧ s.hand_cold = none ∧ s.hand_test = none) ∨
    (ringOf s ≠ [] ∧ IsRing s.heap (ringOf s) ∧
      ∃ a b d, s.hand_hot = some a ∧ s.hand_cold = some b ∧ s.hand_test = some d ∧
        a ∈ ringOf s ∧ b ∈ ringOf s ∧ d ∈ ringOf s ∧
        (load s.heap a).isSome ∧ (load s.heap b).isSome ∧ (load s.heap d).isSome) := by
  obtain ⟨L, hb⟩ := reachable_binv hr
  rcases ringOf_spec hb with ⟨_, h1, h2, h3, h4⟩ | ⟨a, xs, hh, h1, _, hring, ⟨b, hc, hbL⟩,
      ⟨d, ht, hdL⟩⟩
  · exact Or.inl ⟨h1, h2, h3, h4⟩
  · right
    rw [h1]
    have live : ∀ x, x ∈ a :: xs → (load s.heap x).isSome := by
      intro x hx
      obtain ⟨e, he, _⟩ := hring.mem_load hx
      rw [he]; rfl
    exact ⟨by simp, hring, a, b, d, hh, hc, ht, by simp, hbL, hdL, live a (by simp),
      live b hbL, live d hdL⟩

/-- Witness for C10: the hands of the state left by the scan scenario. -/
theorem hands_valid_witness :
    (ringOf scanState = [] ∧ scanState.hand_hot = none ∧ scanState.hand_cold = none ∧
        scanState.hand_test = none) ∨
    (ringOf scanState ≠ [] ∧ IsRing scanState.heap (ringOf scanState) ∧
      ∃ a b d, scanState.hand_hot = some a ∧ scanState.hand_cold = some b ∧
        scanState.hand_test = some d ∧
        a ∈ ringOf scanState ∧ b ∈ ringOf scanState ∧ d ∈ ringOf scanState ∧
        (load scanState.heap a).isSome ∧ (load scanState.heap b).isSome ∧
        (load scanState.heap d).isSome) :=
  hands_valid scanState scanState_reachable

theorem reachable_cold_capacity {s : Cache} (hr : Reachable s) :
    1 ≤ s.cold_capacity ∧ s.cold_capacity ≤ s.capacity ∧ s.capacity + 1 < SIZE := by
  obtain ⟨L, hb⟩ := reachable_binv hr
  exact ⟨hb.cc1, hb.ccle, hb.capS⟩

/-- Claim C11 (P6): in every state a cache object passes through, between public calls
and at every hand step inside `evict`, `1 ≤ cold_capacity ≤ capacity`, and the unsigned
subtraction `capacity - cold_capacity` of `run_hand_cold` does not wrap. -/
theorem cold_capacity_range (s : Cache) (hv : Visited s) :
    1 ≤ s.cold_capacity ∧ s.cold_capacity ≤ s.capacity ∧
      usub s.capacity s.cold_capacity = s.capacity - s.cold_capacity := by
  have key : 1 ≤ s.cold_capacity ∧ s.cold_capacity ≤ s.capacity ∧ s.capacity + 1 < SIZE := by
    induction hv with
    | boundary s hr => exact reachable_cold_capacity hr
    | miss s k v g hr hm =>
      have h := reachable_cold_capacity hr
      exact h
    | test s c1 k m ent ent2 hr hm hl ht hd hl2 =>
      obtain ⟨h1, h2, h3⟩ := reachable_cold_capacity hr
      obtain ⟨f1, f2, _⟩ := meta_del_fields hd
      show 1 ≤ c1.cold_capacity ∧ c1.cold_capacity ≤ c1.capacity ∧ c1.capacity + 1 < SIZE
      rw [f1, f2]
      by_cases hlt : s.cold_capacity < s.capacity
      · simp only [hlt, if_true]
        have hu : uadd s.cold_capacity 1 = s.cold_capacity + 1 := uadd_eq (by omega)
        rw [hu]
        omega
      · simp only [hlt, if_false]
        exact ⟨h1, h2, h3⟩
    | step s s1 _ hs ih =>
      obtain ⟨h1, h2, h3⟩ := ih
      obtain ⟨j1, j2, j3⟩ := hs.cold_capacity h2 (by omega)
      have := j3 h1
      omega
  exact ⟨key.1, key.2.1, usub_eq key.2.1 (by omega)⟩

/-- Witness for C11: the state in which `Set(5, 5)` enters `meta_add` after the scan
scenario, the cache being full. -/
theorem cold_capacity_range_witness :
    1 ≤ scanEntry.cold_capacity ∧ scanEntry.cold_capacity ≤ scanEntry.capacity ∧
      usub scanEntry.capacity scanEntry.cold_capacity
        = scanEntry.capacity - scanEntry.cold_capacity :=
  cold_capacity_range scanEntry
    (Visited.miss scanState 5 5 false scanState_reachable (by decide))

/-! ## Claims C13 and C15 to C20 -/

/-- Claim C13, counterexample: after the scan scenario on a cache of capacity 3 the
descriptors of keys 1 and 2 are not Hot and the counters are not 2, 1, 1. -/
theorem scan_classification_refuted :
    (runFresh 10 false 3 scanTrace).map
        (fun c => ((descOf c 1).map (fun e => e.ptype), (descOf c 2).map (fun e => e.ptype),
          c.count_hot, c.count_cold, c.count_test))
      ≠ some (some ptHot, some ptHot, 2, 1, 1) := by
  decide!

/-- Claim C13, amended: after the scan scenario on a cache of capacity 3 the descriptors
of keys 1, 2 and 4 are Cold, the descriptor of key 3 is Test, and the counters are
`count_hot = 0`, `count_cold = 3`, `count_test = 1`: the hot budget
`capacity - cold_capacity` is 0, so the pages promoted by `hand_cold` are demoted again
by `hand_hot` before `run_hand_cold` returns. -/
theorem scan_classification :
    (runFresh 10 false 3 scanTrace).map
        (fun c => ((descOf c 1).map (fun e => e.ptype), (descOf c 2).map (fun e => e.ptype),
          (descOf c 3).map (fun e => e.ptype), (descOf c 4).map (fun e => e.ptype)))
      = some (some ptCold, some ptCold, some ptTest, some ptCold) ∧
    (runFresh 10 false 3 scanTrace).map
        (fun c => (c.count_hot, c.count_cold, c.count_test, usub c.capacity c.cold_capacity))
      = some (0, 3, 1, 0) := by
  constructor <;> decide!

/-- Claim C15, counterexample: in the reachable state after `adaptTrace` key 0 is a test
page and `cold_capacity = capacity = 3`; after `Set(0, 0)` the cold target is 2, not 3. -/
theorem adapt_refuted :
    (runFresh 10 false 3 adaptTrace).map
        (fun c => ((descOf c 0).map (fun e => e.ptype), c.cold_capacity, c.capacity))
      = some (some ptTest, 3, 3) ∧
    (runFresh 10 false 3 (adaptTrace ++ [Call.set 0 0])).map (fun c => c.cold_capacity)
      = some 2 := by
  constructor <;> decide!

/-- Claim C15, amended: on a reachable state in which `k` is bound to a test descriptor,
`Set(k, v)` returns `true`; afterwards the cold target is at least 1 and at most its
old value plus 1 if that was below the capacity (at most the old value otherwise), and
it equals that bound whenever the re-admission needs no eviction
(`count_hot + count_cold < capacity` before the call). -/
theorem adapt_bound (s : Cache) (hr : Reachable s) (k m : Nat) (ent : Entry)
    (hm : mapFind s.map k = some m) (hl : load s.heap m = some ent)
    (hty : ent.ptype = ptTest) (v : Nat) (g : Bool) :
    (∃ fuel s1, Set fuel s k v g = some (s1, true)) ∧
    ∀ fuel s1 b, Set fuel s k v g = some (s1, b) →
      b = true ∧ 1 ≤ s1.cold_capacity ∧
      s1.cold_capacity ≤
        (if s.cold_capacity < s.capacity then s.cold_capacity + 1 else s.cold_capacity) ∧
      (s.count_hot + s.count_cold < s.capacity →
        s1.cold_capacity =
          (if s.cold_capacity < s.capacity then s.cold_capacity + 1 else s.cold_capacity)) := by
  obtain ⟨L, hb⟩ := reachable_binv hr
  obtain ⟨f0, s0, L0, hs0, _, _⟩ := Set_test hb v g hm hl hty
  refine ⟨⟨f0, s0, hs0⟩, ?_⟩
  intro fuel s1 b hs
  obtain ⟨c0, hc0⟩ : ∃ c0, c0 = (if s.cold_capacity < s.capacity then
      { s with cold_capacity := uadd s.cold_capacity 1 } else s) := ⟨_, rfl⟩
  have hcap0 : c0.capacity = s.capacity := by rw [hc0]; split <;> rfl
  have hnh0 : c0.count_hot = s.count_hot := by rw [hc0]; split <;> rfl
  have hnc0 : c0.count_cold = s.count_cold := by rw [hc0]; split <;> rfl
  have hcc0 : c0.cold_capacity =
      (if s.cold_capacity < s.capacity then s.cold_capacity + 1 else s.cold_capacity) := by
    rw [hc0]
    by_cases h : s.cold_capacity < s.capacity
    · simp only [h, if_true]
      exact uadd_eq (by have := hb.capS; omega)
    · simp only [h, if_false]
  have hb0 : BInv c0 L (fun _ => False) := by rw [hc0]; exact hb.grow
  unfold Set at hs
  rw [hm] at hs
  simp only at hs
  rw [hl] at hs
  simp only [hty, if_true] at hs
  rw [← hc0] at hs
  cases hd : meta_del c0 m false with
  | none => rw [hd] at hs; cases hs
  | some c1 =>
    rw [hd] at hs
    simp only at hs
    obtain ⟨d1, d2, d3, d4, _⟩ := meta_del_fields hd
    cases hl2 : load c1.heap m with
    | none => rw [hl2] at hs; cases hs
    | some ent2 =>
      rw [hl2] at hs
      simp only at hs
      cases ha : meta_add fuel { c1 with
          count_test := usub c1.count_test 1
          heap := store c1.heap m { ent2 with ptype := ptHot } } m with
      | none => rw [ha] at hs; cases hs
      | some c4 =>
        rw [ha] at hs
        simp only [Option.some.injEq, Prod.mk.injEq] at hs
        obtain ⟨hs1, hb1⟩ := hs
        obtain ⟨c5, hev, _, a2, _⟩ := meta_add_fields ha
        have hsteps := evict_steps _ _ _ hev
        obtain ⟨_, q2, q3⟩ := steps_cold_capacity hsteps
          (by show c1.cold_capacity ≤ c1.capacity; rw [d1, d2]; exact hb0.ccle)
          (by show c1.capacity < SIZE; rw [d1]; have := hb0.capS; omega)
        have q2' : c5.cold_capacity ≤ c1.cold_capacity := q2
        have q3' : 1 ≤ c5.cold_capacity := q3 (by
          show 1 ≤ c1.cold_capacity
          rw [d2]; exact hb0.cc1)
        have hcc1 : s1.cold_capacity = c5.cold_capacity := by rw [← hs1]; exact a2
        refine ⟨hb1.symm, by rw [hcc1]; exact q3', ?_, ?_⟩
        · rw [hcc1, ← hcc0, ← d2]; exact q2'
        · intro hres
          have hno : ¬ ({ c1 with
              count_test := usub c1.count_test 1
              heap := store c1.heap m { ent2 with ptype := ptHot } } : Cache).capacity ≤
              uadd ({ c1 with
                count_test := usub c1.count_test 1
                heap := store c1.heap m { ent2 with ptype := ptHot } } : Cache).count_hot
                ({ c1 with
                count_test := usub c1.count_test 1
                heap := store c1.heap m { ent2 with ptype := ptHot } } : Cache).count_cold := by
            show ¬ c1.capacity ≤ uadd c1.count_hot c1.count_cold
            rw [d1, d3, d4, hcap0, hnh0, hnc0, uadd_eq (by have := hb.capS; omega)]
            omega
          have h5 := evict_noop hno hev
          rw [hcc1, h5, ← hcc0, ← d2]

/-- Witness for C15: in the state left by the scan scenario key 3 is bound to the test
descriptor at address 2 and the cold target equals the capacity. -/
theorem adapt_bound_witness :
    (∃ fuel s1, Set fuel scanState 3 30 false = some (s1, true)) ∧
    ∀ fuel s1 b, Set fuel scanState 3 30 false = some (s1, b) →
      b = true ∧ 1 ≤ s1.cold_capacity ∧
      s1.cold_capacity ≤
        (if scanState.cold_capacity < scanState.capacity then scanState.cold_capacity + 1
          else scanState.cold_capacity) ∧
      (scanState.count_hot + scanState.count_cold < scanState.capacity →
        s1.cold_capacity =
          (if scanState.cold_capacity < scanState.capacity then scanState.cold_capacity + 1
            else scanState.cold_capacity)) :=
  adapt_bound scanState scanState_reachable 3 2
    { next := 3, prev := 0, ptype := ptTest, ref := false, key := 3, val := none }
    (by decide) (by decide) rfl 30 false

/-- Claim C17 (amended): `meta_del(e, del)` on a state whose ring, listed from `e`, is
`e :: xs`, for every `xs` (empty or not).  The call returns; each hand that was on `e`
is set to the former successor of `e` (the head of `xs`, or `e` itself when `xs` is
empty) and the other hands are unchanged, so no hand is ever set to null; the ring
becomes `xs`, in the same cyclic order; the key of `e` is erased from the index; the
cell of `e` is freed when `del` is set and otherwise left self-linked with type Empty,
no reference bit and no value; every other descriptor keeps its key, type, reference
bit and value; the counters and capacities are untouched.  When `e` was the only
descriptor the ring is empty afterwards and the three hands are where they were. -/
theorem meta_del_ring (s : Cache) (e : Nat) (xs : List Nat) (del : Bool)
    (hr : IsRing s.heap (e :: xs)) :
    ∃ ent s1, load s.heap e = some ent ∧ ent.next = (xs ++ [e]).headD e ∧
      meta_del s e del = some s1 ∧
      s1.hand_hot = (if some e = s.hand_hot then some ent.next else s.hand_hot) ∧
      s1.hand_cold = (if some e = s.hand_cold then some ent.next else s.hand_cold) ∧
      s1.hand_test = (if some e = s.hand_test then some ent.next else s.hand_test) ∧
      (xs = [] → s1.hand_hot = s.hand_hot ∧ s1.hand_cold = s.hand_cold ∧
        s1.hand_test = s.hand_test) ∧
      IsRing s1.heap xs ∧ s1.map = mapErase s.map ent.key ∧
      (load s1.heap e = if del then none else
        some { ent with ptype := ptEmpty, ref := false, val := none, next := e, prev := e }) ∧
      (∀ a f, a ≠ e → load s.heap a = some f →
        ∃ f1, load s1.heap a = some f1 ∧ f1.key = f.key ∧ f1.ptype = f.ptype ∧
          f1.ref = f.ref ∧ f1.val = f.val) ∧
      s1.capacity = s.capacity ∧ s1.cold_capacity = s.cold_capacity ∧
      s1.count_hot = s.count_hot ∧ s1.count_cold = s.count_cold ∧
      s1.count_test = s.count_test := by
  obtain ⟨ent, hl, hnx⟩ := hr.head_next
  have hlt := load_lt hl
  obtain ⟨e0, he0⟩ : ∃ e0 : Entry, e0 = { ent with ptype := ptEmpty, ref := false, val := none } :=
    ⟨_, rfl⟩
  have hl0 : load (store s.heap e e0) e = some e0 := load_store_same hlt
  have hring0 : IsRing (store s.heap e e0) (e :: xs) :=
    hr.store hl (by rw [he0]) (by rw [he0])
  have key : ∃ h4, Unlink (store s.heap e e0) ent.prev 1 = some (h4, some e) ∧
      IsRing h4 xs ∧ e ∉ xs ∧
      load h4 e = some { e0 with next := e, prev := e } ∧
      (∀ a f, a ≠ e → load s.heap a = some f →
        ∃ f1, load h4 a = some f1 ∧ f1.key = f.key ∧ f1.ptype = f.ptype ∧
          f1.ref = f.ref ∧ f1.val = f.val) := by
    rcases List.eq_nil_or_concat xs with hnil | ⟨ys, p, rfl⟩
    · subst hnil
      obtain ⟨_, ⟨f, hf, hfp⟩⟩ := hr.head_adj
      simp only [List.nil_append, List.headD_cons] at hf hfp hnx
      rw [hl] at hf
      cases hf
      have hn0 : e0.next = e := by rw [he0]; exact hnx
      have hp0 : e0.prev = e := by rw [he0]; exact hfp
      obtain ⟨h4, hun, _, hload⟩ := unlink_self hl0 hn0 hp0
      refine ⟨h4, by rw [hfp]; exact hun, isRing_nil _, by simp, ?_, ?_⟩
      · rw [hload e, hl0]
        cases e0
        simp only at hn0 hp0
        rw [hn0, hp0]
      · intro a f ha hf
        refine ⟨f, ?_, rfl, rfl, rfl, rfl⟩
        rw [hload a, load_store_ne (fun hc => ha hc.symm)]
        exact hf
    · have hrot : IsRing (store s.heap e e0) (p :: e :: ys) := by
        have := @IsRing.rotate _ (e :: ys) [p] (by simpa using hring0)
        simpa using this
      obtain ⟨h4, ee, hee, hprev, _, hun, _, hloads, hring4⟩ := hrot.remove
      rw [hl0] at hee
      cases hee
      have hnd : (p :: e :: ys).Nodup := hrot.nodup
      have hex : e ∉ ys.concat p := by
        have h1 := List.nodup_cons.mp hnd
        have h2 := List.nodup_cons.mp h1.2
        intro hc
        have hc2 : e ∈ ys ∨ e = p := by simpa using hc
        rcases hc2 with h3 | h3
        · exact h2.1 h3
        · exact h1.1 (by rw [h3]; exact List.mem_cons_self _ _)
      have hpe : ent.prev = p := by
        have : e0.prev = ent.prev := by rw [he0]
        rw [← this]; exact hprev
      refine ⟨h4, by rw [hpe]; exact hun, ?_, hex, ?_, ?_⟩
      · have := @IsRing.rotate _ [p] ys (by simpa using hring4)
        simpa using this
      · rw [hloads e, hl0]
        simp [relink]
      · intro a f ha hf
        have hq : load h4 a = (load s.heap a).map (relink p e0.next e e a) := by
          rw [hloads a, load_store_ne (fun hc => ha hc.symm)]
        exact (load_relinked hq).2.2 f hf
  obtain ⟨h4, hun, hring4, hex, hle, hpay⟩ := key
  have hmd : meta_del s e del = some { s with
      heap := if del then free h4 e else h4
      map := mapErase s.map ent.key
      hand_hot := if some e = s.hand_hot then some ent.next else s.hand_hot
      hand_cold := if some e = s.hand_cold then some ent.next else s.hand_cold
      hand_test := if some e = s.hand_test then some ent.next else s.hand_test } := by
    unfold meta_del
    rw [hl]
    simp only
    rw [← he0, hun]
  have hself : xs = [] → ent.next = e := by
    intro hx
    rw [hnx, hx]
    rfl
  refine ⟨ent, _, hl, hnx, hmd, rfl, rfl, rfl, ?_, ?_, rfl, ?_, ?_, rfl, rfl, rfl, rfl, rfl⟩
  · intro hx
    rw [hself hx]
    refine ⟨?_, ?_, ?_⟩
    · show (if some e = s.hand_hot then some e else s.hand_hot) = s.hand_hot
      split
      · rename_i h; exact h
      · rfl
    · show (if some e = s.hand_cold then some e else s.hand_cold) = s.hand_cold
      split
      · rename_i h; exact h
      · rfl
    · show (if some e = s.hand_test then some e else s.hand_test) = s.hand_test
      split
      · rename_i h; exact h
      · rfl
  · show IsRing (if del then free h4 e else h4) xs
    cases del
    · simpa using hring4
    · simpa using hring4.free hex
  · show load (if del then free h4 e else h4) e = _
    cases del
    · rw [he0] at hle
      simpa using hle
    · simp [load_free_same]
  · intro a f ha hf
    show ∃ f1, load (if del then free h4 e else h4) a = some f1 ∧ _
    cases del
    · simpa using hpay a f ha hf
    · simp only [if_true]
      rw [load_free_ne (fun hc => ha hc.symm)]
      exact hpay a f ha hf

/-- Witness for C17: the cache left by the scan scenario, whose ring listed from the
descriptor under the three hands is `[1, 0, 2, 3]`; `meta_del(1)` moves the hands to
descriptor 0 and leaves the ring `[0, 2, 3]`. -/
theorem meta_del_ring_witness :
    IsRing scanState.heap [1, 0, 2, 3] ∧
    ∃ ent s1, load scanState.heap 1 = some ent ∧ ent.next = ([0, 2, 3] ++ [1]).headD 1 ∧
      meta_del scanState 1 false = some s1 ∧
      s1.hand_hot = (if some 1 = scanState.hand_hot then some ent.next
        else scanState.hand_hot) ∧
      s1.hand_cold = (if some 1 = scanState.hand_cold then some ent.next
        else scanState.hand_cold) ∧
      s1.hand_test = (if some 1 = scanState.hand_test then some ent.next
        else scanState.hand_test) ∧
      (([0, 2, 3] : List Nat) = [] → s1.hand_hot = scanState.hand_hot ∧
        s1.hand_cold = scanState.hand_cold ∧ s1.hand_test = scanState.hand_test) ∧
      IsRing s1.heap [0, 2, 3] ∧ s1.map = mapErase scanState.map ent.key ∧
      (load s1.heap 1 = if false then none else
        some { ent with ptype := ptEmpty, ref := false, val := none, next := 1, prev := 1 }) ∧
      (∀ a f, a ≠ 1 → load scanState.heap a = some f →
        ∃ f1, load s1.heap a = some f1 ∧ f1.key = f.key ∧ f1.ptype = f.ptype ∧
          f1.ref = f.ref ∧ f1.val = f.val) ∧
      s1.capacity = scanState.capacity ∧ s1.cold_capacity = scanState.cold_capacity ∧
      s1.count_hot = scanState.count_hot ∧ s1.count_cold = scanState.count_cold ∧
      s1.count_test = scanState.count_test :=
  have hr : IsRing scanState.heap [1, 0, 2, 3] :=
    ⟨by decide, by simp [Adj, load, scanState]⟩
  ⟨hr, meta_del_ring scanState 1 [0, 2, 3] false hr⟩

/-- Counterexample to C17 as stated: on the cache left by `Set(7, 1)` the ring is the
single descriptor at address 0 and the three hands are on it; `meta_del(0)` frees the
descriptor and leaves the three hands on address 0, not null. -/
theorem meta_del_last_dangling :
    IsRing oneState.heap [0] ∧ oneState.hand_hot = some 0 ∧ oneState.hand_cold = some 0 ∧
    oneState.hand_test = some 0 ∧
    (meta_del oneState 0 true).map
        (fun c => (c.hand_hot, c.hand_cold, c.hand_test, load c.heap 0))
      = some (some 0, some 0, some 0, none) := by
  refine ⟨⟨by decide, by simp [Adj, load, oneState]⟩, rfl, rfl, rfl, ?_⟩
  decide!

/-- Claim C18: placement by `meta_add` when no eviction is needed
(`count_hot + count_cold < capacity`), for a live self-linked descriptor `r` outside the
ring.  With `hand_hot` null (empty ring) all three hands end on `r`.  With
`hand_hot = a` and the ring listed from `a` as `a :: xs`, the ring becomes
`a :: r :: xs` (`r` right after `a`, the order of the others kept), `hand_hot` moves to
the former successor `n` of `a`, which is now the successor of `r`, each of `hand_cold`
and `hand_test` moves to `n` exactly when it was on `a`, and no descriptor changes its
key, type, reference bit or value; the counters and the cold target are untouched. -/
theorem meta_add_placement (c : Cache) (r : Nat) (er : Entry)
    (hres : ¬ c.capacity ≤ uadd c.count_hot c.count_cold)
    (hl : load c.heap r = some er) (hn : er.next = r) (hp : er.prev = r) (fuel : Nat) :
    (c.hand_hot = none →
      meta_add (fuel + 1) c r =
        some { c with hand_hot := some r, hand_cold := some r, hand_test := some r }) ∧
    (∀ a xs, c.hand_hot = some a → IsRing c.heap (a :: xs) → r ∉ a :: xs →
      ∃ n h4, Next c.heap a = some n ∧
        meta_add (fuel + 1) c r =
          some { c with
            heap := h4
            hand_cold := if c.hand_cold = some a then some n else c.hand_cold
            hand_test := if c.hand_test = some a then some n else c.hand_test
            hand_hot := some n } ∧
        IsRing h4 (a :: r :: xs) ∧ Next h4 a = some r ∧ Next h4 r = some n ∧
        Prev h4 n = some r ∧ PayEq c.heap h4) := by
  have hev : evict (fuel + 1) c = some c := evict_one hres fuel
  refine ⟨fun hh => meta_add_first hev hh hl hn, ?_⟩
  intro a xs hh hring hnr
  obtain ⟨h4, ea, hea, hnext, _, hloads, hring4, hadd⟩ := meta_add_link hev hh hring hnr hl hp
  have hra : r ≠ a := fun h => hnr (by rw [h]; simp)
  have hla : load h4 a = some (relink a r ea.next r a ea) := by rw [hloads a, hea]; rfl
  have hlr : load h4 r = some (relink a r ea.next r r er) := by rw [hloads r, hl]; rfl
  obtain ⟨en, hen, _⟩ := hring.mem_load (show ea.next ∈ a :: xs by
    rw [hnext]; exact headD_concat_mem)
  have hln : load h4 ea.next = some (relink a r ea.next r ea.next en) := by
    rw [hloads ea.next, hen]; rfl
  refine ⟨ea.next, h4, Next_of_load hea, hadd, hring4, ?_, ?_, ?_, PayEq.of_relink hloads⟩
  · have har : a ≠ r := fun h => hra h.symm
    rw [Next_of_load hla]
    simp [relink, har]
  · rw [Next_of_load hlr]
    simp [relink]
  · unfold Prev
    rw [hln]
    simp [relink]

/-- Witness for C18: the cache left by `Set(7, 1)`, whose ring is the descriptor at
address 0, with a fresh self-linked descriptor at address 1. -/
theorem meta_add_placement_witness :
    (pendingState.hand_hot = none →
      meta_add (0 + 1) pendingState 1 =
        some { pendingState with
          hand_hot := some 1, hand_cold := some 1, hand_test := some 1 }) ∧
    (∀ a xs, pendingState.hand_hot = some a → IsRing pendingState.heap (a :: xs) →
      1 ∉ a :: xs →
      ∃ n h4, Next pendingState.heap a = some n ∧
        meta_add (0 + 1) pendingState 1 =
          some { pendingState with
            heap := h4
            hand_cold := if pendingState.hand_cold = some a then some n
              else pendingState.hand_cold
            hand_test := if pendingState.hand_test = some a then some n
              else pendingState.hand_test
            hand_hot := some n } ∧
        IsRing h4 (a :: 1 :: xs) ∧ Next h4 a = some 1 ∧ Next h4 1 = some n ∧
        Prev h4 n = some 1 ∧ PayEq pendingState.heap h4) :=
  meta_add_placement pendingState 1 (Entry.make 1 false 8 1 ptCold) (by decide) (by decide)
    rfl rfl 0

/-- Claim C19 (fails on the code): a newly admitted descriptor should start with
`ref = false`.  The constructor `Entry(bool ref, ...)` never assigns the member `ref`,
so the descriptor keeps whatever the allocation held: with that content `true`, after
`Set(1, 1)` on a fresh cache the descriptor bound to key 1 is Cold, holds value 1 and
has `ref = true`. -/
theorem fresh_descriptor_referenced :
    (runFresh 1 true 3 [Call.set 1 1]).map
        (fun c => (descOf c 1).map (fun e => (e.ptype, e.val, e.ref)))
      = some (some (ptCold, some 1, true)) := by
  decide!

/-- Claim C20 (fails on the code): no two ring descriptors should carry the same key.
After the scan scenario, `Set(3, 30)` (hit on the test descriptor of key 3) and
`Set(3, 31)`, the ring holds the descriptors at addresses 2 and 4, both with key 3: the
test-hit branch of `Set` left the first one linked but unbound (the defect behind C1),
so the second call took the miss path and allocated another descriptor for the key. -/
theorem ring_key_duplicate :
    (runFresh 10 false 3 (scanTrace ++ [Call.set 3 30, Call.set 3 31])).map
        (fun c => (ringOf c, (load c.heap 2).map (fun e => e.key),
          (load c.heap 4).map (fun e => e.key)))
      = some ([2, 3, 1, 4], some 3, some 3) := by
  decide!

/-- Claim C14: churn keeps the cache full.  For every capacity `c ≥ 3` (below
`SIZE_MAX`) and every list `ks` of at least `c` pairwise distinct keys, inserting the
keys of `ks` in order into a fresh cache by `Set`, with no `Get` in between and fresh
descriptors unreferenced, returns (for every large enough fuel) in a state with
`count_hot + count_cold = c` exactly, in which exactly `c` of the inserted keys are
readable by `Get`. -/
theorem churn_full (c : Nat) (hc3 : 3 ≤ c) (hcS : c + 1 < SIZE) (v : Nat → Nat)
    (ks : List Nat) (hnd : ks.Nodup) (hlen : c ≤ ks.length) :
    ∃ fuel s, (∀ f, fuel ≤ f → runFresh f false c (setAll v ks) = some s) ∧
      s.count_hot + s.count_cold = c ∧ s.count_test ≤ c ∧
      (ks.filter (fun k => readable s k)).length = c := by
  have hnew : Cache.new c = Except.ok
      { heap := [], capacity := c, cold_capacity := c, map := [], hand_hot := none,
        hand_cold := none, hand_test := none, count_hot := 0, count_cold := 0,
        count_test := 0 } := by
    unfold Cache.new
    simp [Nat.not_lt.mpr hc3]
  obtain ⟨fuel, s, L, hrun, hch, hcap⟩ :=
    churn_run v ks [] _ [] (churn_new hcS hnew) (fun _ _ h => by cases h) hnd
  have hcap2 : s.capacity = c := hcap
  have hcold := hch.cold
  rw [List.nil_append] at hch
  have hcount := hch.readable_count hnd
  have h0 := hch.plain.1
  have hcold2 : s.count_cold = c := by
    have := hch.cold
    rw [hcap2] at this
    omega
  refine ⟨fuel, s, ?_, by omega, by have := hch.binv.testle; omega, by rw [hcount, hcold2]⟩
  intro f hf
  unfold runFresh fresh
  rw [hnew]
  exact runCalls_mono hf false _ _ _ hrun

/-- Witness for C14: capacity 8 and the 10000 keys 0, 1, ..., 9999. -/
theorem churn_full_witness :
    ∃ fuel s, (∀ f, fuel ≤ f → runFresh f false 8 (setAll id (List.range 10000)) = some s) ∧
      s.count_hot + s.count_cold = 8 ∧ s.count_test ≤ 8 ∧
      ((List.range 10000).filter (fun k => readable s k)).length = 8 :=
  churn_full 8 (by decide) (by unfold SIZE; norm_num) id (List.range 10000)
    (List.nodup_range _) (by simp)

/-- Claim C12: scan resistance, observable outcome.  For every capacity `c ≥ 3` (below
`SIZE_MAX`): fill a fresh cache with `c` pairwise distinct keys `ks` (values `v k`,
fresh descriptors unreferenced), read with `Get` any list of keys that contains every
key of `ks` except `u` and does not contain `u`, then insert a new key `d` with value
`w`.  The calls return (for every large enough fuel), and afterwards `Get(u)` is absent,
`Get(k) = v k` for every other key of `ks`, and `Get(d) = w`: exactly the unread key was
evicted.  The specification's scenario is the instance `c = 3`, `ks = [1, 2, 3]`,
`u = 3`, reads `[1, 2]`, `d = 4`. -/
theorem scan_resistant (c : Nat) (hc3 : 3 ≤ c) (hcS : c + 1 < SIZE) (v : Nat → Nat)
    (ks : List Nat) (hnd : ks.Nodup) (hlen : ks.length = c) (u : Nat) (hu : u ∈ ks)
    (gets : List Nat) (hg1 : u ∉ gets) (hg2 : ∀ k ∈ ks, k ≠ u → k ∈ gets) (d w : Nat)
    (hd : d ∉ ks) :
    ∃ fuel s,
      (∀ f, fuel ≤ f →
        runFresh f false c (setAll v ks ++ gets.map Call.get ++ [Call.set d w]) = some s) ∧
      getVal s u = some none ∧ (∀ k ∈ ks, k ≠ u → getVal s k = some (some (v k))) ∧
      getVal s d = some (some w) := by
  obtain ⟨v1, hv1⟩ : ∃ v1 : Nat → Nat, v1 = fun k => if k = d then w else v k := ⟨_, rfl⟩
  have hvd : v1 d = w := by rw [hv1]; simp
  have hvk : ∀ k ∈ ks, v1 k = v k := by
    intro k hk
    have : k ≠ d := fun h => hd (h ▸ hk)
    rw [hv1]; simp [this]
  have hsame : setAll v ks = setAll v1 ks := by
    unfold setAll
    apply List.map_congr_left
    intro k hk
    rw [hvk k hk]
  have hnew : Cache.new c = Except.ok
      { heap := [], capacity := c, cold_capacity := c, map := [], hand_hot := none,
        hand_cold := none, hand_test := none, count_hot := 0, count_cold := 0,
        count_test := 0 } := by
    unfold Cache.new
    simp [Nat.not_lt.mpr hc3]
  obtain ⟨f1, s1, L1, hrun1, hs1, hcap1⟩ :=
    fill_run v1 ks [] _ [] (scan_new v1 hcS hnew) (fun _ _ h => by cases h) hnd
      (by show 0 + ks.length ≤ c; omega)
  rw [List.nil_append] at hs1
  obtain ⟨s2, hrun2, hs2, hcap2⟩ := read_run v1 0 gets [] s1 hs1
  rw [List.nil_append] at hs2
  have hcapc : s2.capacity = c := (hcap2.trans hcap1)
  obtain ⟨f3, s3, hset, r1, r2, r3⟩ := hs2.admit_new (by rw [hcapc, hlen]) hu hg1 hg2 hd
  rw [hvd] at hset r3
  refine ⟨max f1 f3, s3, ?_, r1, fun k hk hku => by rw [r2 k hk hku, hvk k hk], r3⟩
  intro f hf
  unfold runFresh fresh
  rw [hnew]
  simp only
  rw [runCalls_append, runCalls_append, hsame,
    runCalls_mono (le_trans (le_max_left f1 f3) hf) false _ _ _ hrun1, Option.some_bind,
    runCalls_mono (Nat.zero_le f) false _ _ _ hrun2, Option.some_bind]
  show runCalls f false s2 [Call.set d w] = some s3
  rw [runCalls, Set_mono (le_trans (le_max_right f1 f3) hf) hset]
  rfl

/-- Witness for C12: the specification's scenario (capacity 3, keys 1, 2, 3 with
values 1, 2, 3, reads of 1 and 2, then key 4 with value 4), through the general
statement and by evaluation of the code. -/
theorem scan_resistant_witness :
    (∃ fuel s,
      (∀ f, fuel ≤ f →
        runFresh f false 3 (setAll id [1, 2, 3] ++ [1, 2].map Call.get ++ [Call.set 4 4])
          = some s) ∧
      getVal s 3 = some none ∧ (∀ k ∈ [1, 2, 3], k ≠ 3 → getVal s k = some (some (id k))) ∧
      getVal s 4 = some (some 4)) ∧
    (runFresh 10 false 3 scanTrace).map
        (fun s => (getVal s 1, getVal s 2, getVal s 3, getVal s 4))
      = some (some (some 1), some (some 2), some none, some (some 4)) :=
  ⟨scan_resistant 3 (by decide) (by unfold SIZE; norm_num) id [1, 2, 3] (by decide) rfl 3
      (by decide) [1, 2] (by decide) (by decide) 4 4 (by decide),
    by decide!⟩

end ClockPro
